import Mathlib

/-!
Verification development for the `rewire` dependency-injection runtime.

This file shallowly embeds the dependency-graph solver of
`src/rewire/dependencies.py`, the stage-barrier wiring of
`src/rewire/plugins.py`, the shutdown logic of `src/rewire/lifecycle.py`
and the signature-driven node builder
(`InjectedDependency.from_function`), and proves properties of the
embedding.

Modelling conventions:
* Python objects live in a heap `Heap := Nat → Node`; an address (`Nat`)
  models object identity, while a node's `uuid` field models its `id: UUID`
  field (distinct objects may in principle share a uuid, e.g. deep copies).
* Python type objects are modelled by `Option Nat`: `none` models the
  Python value `None` (the default of `Dependency.type`), `some k` an
  actual type.  The `_by_type` dict may hold `None` as a key, exactly as
  in the source, so keys are `Option Nat`.
* Callbacks are modelled as pure value producers: running a node writes
  `result := some cbVal`, bumps an invocation counter `runCount`, and
  snapshots the results of its resolved dependencies into `inputs`
  (mirroring `InjectedDependency._run` reading `_dependencies[idx]._result`).
  Callbacks that mutate the container at run time and user-written
  linkers (arbitrary Python callables) are outside the embedding;
  theorems about `solve` therefore carry a `linkers = []`-style reading.
* Exceptions are modelled by threading `Option Err` through every phase,
  so the heap state at the moment an exception propagates stays
  observable (Python exceptions leave all prior mutations in place).
* `anyio` events are modelled by each node's `eventSet` flag; concurrent
  execution of a wave is modelled both by a deterministic scheduler
  (`runWave`, used for end-state properties, which are schedule
  independent because modelled callbacks are pure) and, for temporal
  claims, by arbitrary begin/end time assignments constrained exactly by
  the event waits of `Dependency.run` (`ValidSchedule`).
-/

namespace Rewire

/-- Node lifecycle states, from the `state` literal of `Dependency`. -/
inductive NState where
  | pending
  | linked
  | waiting
  | running
  | done
  | skipped
deriving DecidableEq, Repr

/-- Which Python class a node instantiates: plain `Dependency` (or
`InjectedDependency`), or the `StageStart` / `StageEnd` subclasses of
`src/rewire/plugins.py`, which carry a stage index and override `_link`. -/
inductive NKind where
  | plain
  | stageStart (idx : Int)
  | stageEnd (idx : Int)
deriving DecidableEq, Repr

/-- A predecessor reference as stored in `Dependency.dependencies`:
`byId` models a `DependencyRef` holding a uuid, `byType` a `TypeRef`
holding a type, and `direct a` a `Dependency` object itself used as a
reference (a `Dependency` is a `DependencyRef`, so it resolves through
`_by_id` using the object's own `id` field). -/
inductive Ref where
  | byId (u : Nat)
  | byType (t : Option Nat)
  | direct (a : Nat)
deriving DecidableEq, Repr

/-- The model of `Dependency` (and its subclasses).  Fields `uuid`,
`state`, `ty`, `type_constructor`, `dependencies`, `priority`,
`optional` model the homonymous source fields (`uuid` models `id`, `ty`
models `type`); `rdeps` models the private `_dependencies` list of
resolved predecessors (addresses); `eventSet` models whether `_event`
has fired; `result` models `_result`; `runCount` counts callback
invocations (model instrumentation); `cbVal` is the pure model of the
callback's return value; `inputs` snapshots the predecessor results read
at run time. -/
structure Node where
  uuid : Nat
  state : NState := .pending
  ty : Option Nat := none
  type_constructor : Bool := true
  dependencies : List Ref := []
  priority : Int := 0
  optional : Bool := false
  eventSet : Bool := false
  rdeps : List Nat := []
  result : Option Nat := none
  runCount : Nat := 0
  cbVal : Nat := 0
  kind : NKind := .plain
  inputs : Option (List (Option Nat)) := none
deriving DecidableEq, Repr

/-- The object heap: total map from addresses to nodes. -/
def Heap : Type := Nat → Node

/-- Heap update at one address. -/
def hset (h : Heap) (a : Nat) (n : Node) : Heap :=
  fun x => if x = a then n else h x

/-- Errors: `notFound` models `DependencyNotFound`, `loopErr` the
`SolveError("Found self reference/loop in dependencies")`, `assertErr`
an `AssertionError` (or `KeyError`), `deadlock` the model's rendering of
an execution wave in which no runnable task remains (the Python code
would hang), `fuelErr` exhaustion of the model's explicit recursion
fuel (proved unreachable where relevant). -/
inductive Err where
  | notFound
  | loopErr
  | assertErr
  | deadlock
  | fuelErr
deriving DecidableEq, Repr

/-- First-match lookup in an association list (dict lookup). -/
def aget {α : Type} [DecidableEq α] (m : List (α × Nat)) (k : α) : Option Nat :=
  match m with
  | [] => none
  | (k0, v) :: rest => if k0 = k then some v else aget rest k

/-- Dict assignment `m[k] = v`: overwrite in place if present, else append. -/
def aset {α : Type} [DecidableEq α] (m : List (α × Nat)) (k : α) (v : Nat) :
    List (α × Nat) :=
  match m with
  | [] => [(k, v)]
  | (k0, v0) :: rest =>
    if k0 = k then (k0, v) :: rest else (k0, v0) :: aset rest k v

/-- Dict `m.setdefault(k, v)`: insert only if absent. -/
def asetd {α : Type} [DecidableEq α] (m : List (α × Nat)) (k : α) (v : Nat) :
    List (α × Nat) :=
  match aget m k with
  | some _ => m
  | none => m ++ [(k, v)]

/-- The model of a `Dependencies` container: the locally owned node list
(addresses, in registration order), nested child containers, the
`replace` directives and opaque linker tokens (linkers are arbitrary
Python callables; the embedding covers containers whose linkers perform
no mutation, and theorems about `solve` assume there are none). -/
inductive Container where
  | mk (deps : List Nat) (children : List Container)
      (replace : List (Ref × Nat)) (linkers : List Nat)

def Container.deps : Container → List Nat
  | .mk d _ _ _ => d

def Container.children : Container → List Container
  | .mk _ c _ _ => c

def Container.replace : Container → List (Ref × Nat)
  | .mk _ _ r _ => r

def Container.linkers : Container → List Nat
  | .mk _ _ _ l => l

/-- The dedup pass at the end of `Dependencies.all`: walk the collected
list, skipping nodes whose uuid was already seen or is in `ignore`. -/
def dedupAll (h : Heap) (ignore : List Nat) :
    List Nat → List Nat → List Nat
  | _, [] => []
  | visited, a :: rest =>
    if (h a).uuid ∈ visited ∨ (h a).uuid ∈ ignore then
      dedupAll h ignore visited rest
    else
      a :: dedupAll h ignore ((h a).uuid :: visited) rest

mutual
/-- `Dependencies.all(ignore)`: own nodes plus every child's `all`,
then deduplicated by uuid, skipping `ignore`. -/
def Container.all (h : Heap) (ignore : List Nat) : Container → List Nat
  | .mk d cs _ _ => dedupAll h ignore [] (d ++ Container.allChildren h ignore cs)

/-- The `reduce` over `self.children` inside `Dependencies.all`. -/
def Container.allChildren (h : Heap) (ignore : List Nat) :
    List Container → List Nat
  | [] => []
  | c :: cs => Container.all h ignore c ++ Container.allChildren h ignore cs
end

mutual
/-- `Dependencies._get_linkers`: own linkers then every child's, in order. -/
def Container.getLinkers : Container → List Nat
  | .mk _ cs _ l => l ++ Container.getLinkersChildren cs

def Container.getLinkersChildren : List Container → List Nat
  | [] => []
  | c :: cs => Container.getLinkers c ++ Container.getLinkersChildren cs
end

/-- The mutable solver state during `Dependencies.solve`: the heap, the
two indices `_by_id` (uuid → address) and `_by_type` (type → address),
the `solved` uuid set, and the pending `replace` directives (the
container's `replace` field, cleared after processing). -/
structure SState where
  heap : Heap
  byId : List (Nat × Nat) := []
  byType : List (Option Nat × Nat) := []
  solvedU : List Nat := []
  repl : List (Ref × Nat) := []

/-- Reference resolution against the current indices
(`DependencyRef.resolve` / `TypeRef.resolve`); a `direct` node-object
reference resolves through `_by_id` via the object's own `id` field. -/
def resolveRef (st : SState) (r : Ref) : Option Nat :=
  match r with
  | .byId u => aget st.byId u
  | .byType t => aget st.byType t
  | .direct a => aget st.byId (st.heap a).uuid

/-- `Dependencies._index_one`: `setdefault` into `_by_id`, and into
`_by_type` only for `type_constructor` nodes. -/
def indexOne (st : SState) (a : Nat) : SState :=
  let st := { st with byId := asetd st.byId (st.heap a).uuid a }
  if (st.heap a).type_constructor then
    { st with byType := asetd st.byType (st.heap a).ty a }
  else st

/-- One `(selector, dependency)` pair of `Dependencies._process_replace`:
resolve the selector to the source node, rebind `_by_id[source.id]`,
move the `_by_type` slot if the source holds it (asserting the
replacement is a type constructor), index the replacement, and record
the removed/new uuids. -/
def processOneReplace (st : SState) (removed extra : List Nat)
    (p : Ref × Nat) : (SState × List Nat × List Nat) × Option Err :=
  match resolveRef st p.1 with
  | none => ((st, removed, extra), some .notFound)
  | some src =>
    let st := { st with byId := aset st.byId (st.heap src).uuid p.2 }
    match (if aget st.byType (st.heap src).ty = some src then
        (if (st.heap p.2).type_constructor then
          some { st with byType := aset st.byType (st.heap src).ty p.2 }
        else none)
      else some st) with
    | none => ((st, removed, extra), some .assertErr)
    | some st =>
      let st := indexOne st p.2
      ((st, removed ++ [(st.heap src).uuid], extra ++ [(st.heap p.2).uuid]),
        none)

/-- `Dependencies._process_replace` over the whole `replace` list,
then the rebuilt wave: members whose uuid is removed or replaced are
filtered out and each replacement is appended once, looked up through
the rebound `_by_id`. -/
def processReplace (st : SState) (ds : List Nat) :
    (SState × List Nat × List Nat) × Option Err :=
  let step := fun (acc : (SState × List Nat × List Nat) × Option Err) p =>
    match acc with
    | ((st, removed, extra), none) => processOneReplace st removed extra p
    | (s, some e) => (s, some e)
  match st.repl.foldl step ((st, [], []), none) with
  | ((st, removed, extra), none) =>
    let kept := ds.filter (fun a =>
      (st.heap a).uuid ∉ removed ∧ (st.heap a).uuid ∉ extra)
    match extra.mapM (fun u => aget st.byId u) with
    | some adds => ((st, kept ++ adds, removed), none)
    | none => ((st, ds, removed), some .assertErr)
  | (s, some e) => (s, some e)

/-- Outcome of `Dependency.link`: linked (or already non-pending),
converted to a skip (`SkipDependency`), or a propagated exception. -/
inductive LOut where
  | ok
  | skip
  | fail (e : Err)
deriving DecidableEq, Repr

/-- The resolution loop of `Dependency._link`: resolve each declared
reference in order, appending each resolved node to `_dependencies`;
resolutions already appended persist even if a later one fails. -/
def resolveLoop (st : SState) (a : Nat) : List Ref → SState × Option Err
  | [] => (st, none)
  | r :: rest =>
    match resolveRef st r with
    | none => (st, some .notFound)
    | some d =>
      let n := st.heap a
      resolveLoop
        { st with heap := hset st.heap a ({ n with rdeps := n.rdeps ++ [d] }) }
        a rest

/-- `StageStart._link` preamble: keep only the highest-index `StageEnd`
among the declared dependencies (stable sort by index descending, take
one), dropping all other stage ends. -/
def trimStageStart (st : SState) (a : Nat) : SState :=
  let n := st.heap a
  let isEnd := fun (r : Ref) =>
    match r with
    | .direct b => match (st.heap b).kind with
      | .stageEnd _ => true
      | _ => false
    | _ => false
  let endIdx : Ref → Int := fun r =>
    match r with
    | .direct b => match (st.heap b).kind with
      | .stageEnd i => i
      | _ => 0
    | _ => 0
  let ends := (n.dependencies.filter isEnd).insertionSort
    (fun x y => endIdx y ≤ endIdx x)
  let n2 := { n with
    dependencies := n.dependencies.filter (fun r => ! isEnd r) ++ ends.take 1 }
  { st with heap := hset st.heap a n2 }

/-- `StageEnd._link` preamble: scan `Dependencies.ctx.get().all()` and
append to `_dependencies` every node that declares a `StageStart` of the
same index among its dependencies. -/
def collectStageParts (c : Container) (st : SState) (a : Nat) : SState :=
  let n := st.heap a
  let idx := match n.kind with
    | .stageEnd i => i
    | _ => 0
  let isPart := fun (p : Nat) =>
    (st.heap p).dependencies.any (fun r =>
      match r with
      | .direct b => match (st.heap b).kind with
        | .stageStart i => i = idx
        | _ => false
      | _ => false)
  let parts := (c.all st.heap []).filter isPart
  { st with heap := hset st.heap a { n with rdeps := n.rdeps ++ parts } }

/-- The `_link` dispatch: `StageStart`/`StageEnd` overrides run their
preamble, then all fall through to `Dependency._link`'s resolution loop. -/
def linkBody (c : Container) (st : SState) (a : Nat) : SState × Option Err :=
  match (st.heap a).kind with
  | .plain => resolveLoop st a (st.heap a).dependencies
  | .stageStart _ =>
    let st := trimStageStart st a
    resolveLoop st a (st.heap a).dependencies
  | .stageEnd _ =>
    let st := collectStageParts c st a
    resolveLoop st a (st.heap a).dependencies

/-- `Dependency.link`: no-op unless `pending`; on `DependencyNotFound`
an `optional` node raises `SkipDependency` instead; on success the node
is installed as its type's producer (unconditional `_by_type`
assignment) and moves to `linked`. -/
def linkOne (c : Container) (st : SState) (a : Nat) : SState × LOut :=
  if (st.heap a).state ≠ .pending then (st, .ok)
  else
    match linkBody c st a with
    | (st, some e) =>
      if e = .notFound ∧ (st.heap a).optional then (st, .skip)
      else (st, .fail e)
    | (st, none) =>
      let n := st.heap a
      ({ st with
          heap := hset st.heap a { n with state := .linked },
          byType := aset st.byType n.ty a }, .ok)

/-- The link loop at the end of `Dependencies._index`: link each wave
member in order; a `SkipDependency` marks the node `skipped` and folds
it into `solved`; any other exception propagates. -/
def linkLoop (c : Container) (st : SState) :
    List Nat → SState × List Nat × Option Err
  | [] => (st, [], none)
  | a :: rest =>
    match linkOne c st a with
    | (st, .ok) =>
      match linkLoop c st rest with
      | (st, kept, e) => (st, a :: kept, e)
    | (st, .skip) =>
      let n := st.heap a
      let st := { st with
        heap := hset st.heap a { n with state := .skipped },
        solvedU := st.solvedU ++ [n.uuid] }
      linkLoop c st rest
    | (st, .fail e) => (st, [], some e)

/-- `Dependencies._index`: index every wave member, process and clear
pending replace directives (folding removed ids into `solved`), then
link, collecting the wave's execution set. -/
def indexPhase (c : Container) (st : SState) (ds : List Nat) :
    SState × List Nat × Option Err :=
  let st := ds.foldl indexOne st
  if st.repl.isEmpty then
    linkLoop c st ds
  else
    match processReplace st ds with
    | ((st, ds, removed), none) =>
      linkLoop c { st with solvedU := st.solvedU ++ removed, repl := [] } ds
    | ((st, _, _), some e) => (st, [], some e)

/-- Set union on uuid lists, as `result | other` builds in
`flatten_dependency` (only membership matters downstream). -/
def uunion (xs ys : List Nat) : List Nat :=
  xs ++ ys.filter (fun y => y ∉ xs)

/-- The memo cache of `flatten_dependency`: uuid → transitive closure. -/
def FCache : Type := List (Nat × List Nat)

def fcGet (c : FCache) (u : Nat) : Option (List Nat) :=
  match c with
  | [] => none
  | (u0, v) :: rest => if u0 = u then some v else fcGet rest u

/-- The fold over `dependency._dependencies` inside
`flatten_dependency`, unioning the recursive closures; the recursive
flatten call at the current fuel level is passed in as `F`. -/
def flattenFoldF
    (F : Nat → List Nat → FCache → (Option Err) × List Nat × FCache) :
    List Nat → List Nat → List Nat → FCache →
      (Option Err) × List Nat × FCache
  | [], _, acc, cache => (none, acc, cache)
  | d :: rest, visited, acc, cache =>
    match F d visited cache with
    | (some e, r, cache) => (some e, r, cache)
    | (none, r, cache) => flattenFoldF F rest visited (uunion acc r) cache

/-- `Dependencies.flatten_dependency`: memoized depth-first closure of
`_dependencies` by uuid; revisiting a uuid already on the current path
raises the self-reference/loop `SolveError`.  `fuel` makes the
recursion structural (a primitive recursion, so that evaluation also
goes through in the kernel); adequate fuel is proved where needed. -/
def flatten (h : Heap) (fuel : Nat) : Nat → List Nat → FCache →
    (Option Err) × List Nat × FCache :=
  Nat.rec (motive := fun _ => Nat → List Nat → FCache →
      (Option Err) × List Nat × FCache)
    (fun _ _ cache => (some Err.fuelErr, [], cache))
    (fun _ F a visited cache =>
      match fcGet cache (h a).uuid with
      | some r => (none, r, cache)
      | none =>
        if (h a).uuid ∈ visited then (some Err.loopErr, [], cache)
        else
          match flattenFoldF F (h a).rdeps (visited ++ [(h a).uuid])
              (visited ++ [(h a).uuid]) cache with
          | (some e, r, cache) => (some e, r, cache)
          | (none, r, cache) => (none, r, ((h a).uuid, r) :: cache))
    fuel

/-- The memoized fold at one fuel level, in its original named form. -/
def flattenFold (h : Heap) (fuel : Nat) : List Nat → List Nat → List Nat →
    FCache → (Option Err) × List Nat × FCache :=
  flattenFoldF (flatten h fuel)

/-- The cycle-check loop of `solve`: flatten every wave member with one
shared `flatten_cache`, each top-level call starting from an empty
`visited` path.  Fuel for each call is the wave length plus one. -/
def flattenAll (h : Heap) (ds : List Nat) (full : List Nat)
    (cache : FCache) : Option Err :=
  match ds with
  | [] => none
  | a :: rest =>
    match flatten h (full.length + 1) a [] cache with
    | (some e, _, _) => some e
    | (none, _, cache) => flattenAll h rest full cache

/-- Stable ascending insertion sort by node priority, the model of
`deps.sort(key=lambda x: x.priority)`. -/
def sortByPrio (h : Heap) (ds : List Nat) : List Nat :=
  ds.insertionSort (fun a b => (h a).priority ≤ (h b).priority)

/-- Is this wave member ready to leave its event waits?  `Dependency.run`
suspends until every resolved predecessor's event has fired; a node in
state `linked` whose predecessors' events are all set can proceed. -/
def runnable (h : Heap) (a : Nat) : Bool :=
  (h a).state = .linked ∧ ((h a).rdeps.all fun d => (h d).eventSet)

/-- Execute one node to completion (`Dependency.run` past its waits):
read predecessor results (as `InjectedDependency._run` does), run the
callback, cache the result, move to `done` and fire the event. -/
def runNode (h : Heap) (a : Nat) : Heap :=
  let n := h a
  hset h a { n with
    state := .done,
    eventSet := true,
    inputs := some (n.rdeps.map fun d => (h d).result),
    result := some n.cbVal,
    runCount := n.runCount + 1 }

/-- The concurrent execution of one wave (`create_task_group` +
`tg.start_soon(dependency.run)`), modelled as a deterministic scheduler:
repeatedly run some node whose event waits are over, until every wave
member is `done`; if unfinished members remain but none is runnable the
Python program would wait forever, which the model reports as
`deadlock`.  For the pure modelled callbacks every schedule yields the
same final heap, so this scheduler is representative. -/
def runWaveGo (fuel : Nat) (h : Heap) (ds : List Nat) : Heap × Option Err :=
  if ds.all (fun a => (h a).state = .done) then (h, none)
  else
    match fuel with
    | 0 => (h, some .fuelErr)
    | f + 1 =>
      match ds.find? (runnable h) with
      | none => (h, some .deadlock)
      | some a => runWaveGo f (runNode h a) ds

def runWave (h : Heap) (ds : List Nat) : Heap × Option Err :=
  runWaveGo ds.length h ds

/-- One full pass and recursion of the `while deps := self.all(solved)`
loop of `Dependencies.solve`: collect, sort by priority, index + replace
+ link, cycle-check, execute, fold the wave into `solved`. -/
def solveLoop (c : Container) (fuel : Nat) (st : SState) :
    SState × Option Err :=
  match fuel with
  | 0 => (st, some .fuelErr)
  | f + 1 =>
    let ds := c.all st.heap st.solvedU
    if ds.isEmpty then (st, none)
    else
      let ds := sortByPrio st.heap ds
      match indexPhase c st ds with
      | (st, _, some e) => (st, some e)
      | (st, ds, none) =>
        match flattenAll st.heap ds ds [] with
        | some e => (st, some e)
        | none =>
          match runWave st.heap ds with
          | (h, some e) => ({ st with heap := h }, some e)
          | (h, none) =>
            let st2 : SState :=
              { st with
                heap := h
                solvedU := st.solvedU ++ ds.map (fun a => (h a).uuid) }
            solveLoop c f st2

/-- The initial solver state of `Dependencies.solve`: empty indices,
empty `solved` set, the container's pending replace directives. -/
def initS (h : Heap) (c : Container) : SState :=
  { heap := h, byId := [], byType := [], solvedU := [], repl := c.replace }

/-- `Dependencies.solve` on a container whose linkers perform no
mutation: run the wave loop from empty indices, with the container's
`replace` directives installed.  The fuel bound (node count plus two)
always suffices because every non-final iteration retires at least one
container node's uuid into `solved`. -/
def solve (h : Heap) (c : Container) : SState × Option Err :=
  solveLoop c ((c.all h []).length + 2) (initS h c)

/-! ## `Dependencies.rebuild`

`model_copy(deep=True)` allocates fresh objects for the whole reachable
object graph while preserving internal sharing; the model realises the
fresh allocation by shifting every address by an offset `K` (chosen, in
theorems, above every address in use, as a real allocator would). -/

def shiftRef (K : Nat) : Ref → Ref
  | .direct a => .direct (a + K)
  | r => r

def shiftNode (K : Nat) (n : Node) : Node :=
  { n with
    rdeps := n.rdeps.map (· + K)
    dependencies := n.dependencies.map (shiftRef K) }

/-- The deep copy of the heap: addresses at or above `K` now hold the
clone of the object `K` below. -/
def shiftHeap (K : Nat) (h : Heap) : Heap :=
  fun x => if K ≤ x then shiftNode K (h (x - K)) else h x

mutual
def Container.shift (K : Nat) : Container → Container
  | .mk d cs r l =>
    .mk (d.map (· + K)) (Container.shiftChildren K cs)
      (r.map fun p => (shiftRef K p.1, p.2 + K)) l

def Container.shiftChildren (K : Nat) : List Container → List Container
  | [] => []
  | c :: cs => Container.shift K c :: Container.shiftChildren K cs
end

/-- `Dependencies.rebuild()` with the default arguments
(`clone_all=True`, `inplace=False`): deep-copy, flatten the copy's node
tree into one list, take the union of all linkers, detach every
flattened node's `_dependencies`, and drop child nesting.  The `replace`
directives are part of the copied model and are kept. -/
def rebuild (h : Heap) (c : Container) (K : Nat) : Heap × Container :=
  let h1 := shiftHeap K h
  let c1 := c.shift K
  let ds := c1.all h1 []
  let lks := c1.getLinkers
  let h2 := ds.foldl (fun hh a => hset hh a { hh a with rdeps := [] }) h1
  (h2, .mk ds [] c1.replace lks)

/-! ## Stage barriers (`src/rewire/plugins.py`) -/

/-- The state of a `StagesModule` while stages are being declared: the
heap, the insertion-ordered `stages` dict (index ↦ (start, end)
addresses), the node list of the module's own container (each stage
start/end is bound into it), and a fresh-address allocator. -/
structure StagesSt where
  heap : Heap
  stages : List (Int × Nat × Nat) := []
  bound : List Nat := []
  next : Nat := 0

def stageLookup (ss : List (Int × Nat × Nat)) (i : Int) : Option (Nat × Nat) :=
  match ss with
  | [] => none
  | (j, s, e) :: rest => if j = i then some (s, e) else stageLookup rest i

/-- `StagesModule.get_stage`: return the existing start node, or create
the start/end pair (priority −1000), wire every existing lower stage's
end into the new start and the new end into every existing
greater-or-equal stage's start, record and bind both. -/
def getStage (st : StagesSt) (index : Int) : StagesSt × Nat :=
  match stageLookup st.stages index with
  | some (s, _) => (st, s)
  | none =>
    let sa := st.next
    let ea := st.next + 1
    let startN : Node :=
      { uuid := sa, priority := -1000, kind := .stageStart index }
    let endN : Node :=
      { uuid := ea, priority := -1000, kind := .stageEnd index }
    let h := hset (hset st.heap sa startN) ea endN
    let h := st.stages.foldl (fun hh p =>
      if p.1 < index then
        hset hh sa
          { hh sa with dependencies := (hh sa).dependencies ++ [.direct p.2.2] }
      else
        hset hh p.2.1
          { hh p.2.1 with
            dependencies := (hh p.2.1).dependencies ++ [.direct ea] }) h
    ({ heap := h
       stages := st.stages ++ [(index, sa, ea)]
       bound := st.bound ++ [sa, ea]
       next := st.next + 2 }, sa)

/-- A node registered through `Plugin.setup(stage=...)`: a priority, a
callback value, and the list of stage indices it participates in (each
`setup` fetches the stage's start node via `get_stage` and appends it to
the node's declared dependencies). -/
structure PartSpec where
  sIdxs : List Int := []
  prio : Int := 0
  cb : Nat := 0

/-- Register one participant: allocate its node, then, for each declared
stage, call `get_stage` and append the returned start node. -/
def addPart (st : StagesSt) (p : PartSpec) : StagesSt × Nat :=
  let a := st.next
  let n : Node := { uuid := a, priority := p.prio, cbVal := p.cb }
  let st : StagesSt := { st with heap := hset st.heap a n, next := st.next + 1 }
  let st := p.sIdxs.foldl (fun acc i =>
    let q := getStage acc i
    let nn := q.1.heap a
    { q.1 with
      heap := hset q.1.heap a
        { nn with dependencies := nn.dependencies ++ [.direct q.2] } }) st
  (st, a)

def addParts (st : StagesSt) (ps : List PartSpec) : StagesSt × List Nat :=
  match ps with
  | [] => (st, [])
  | p :: rest =>
    let q := addPart st p
    let r := addParts q.1 rest
    (r.1, q.2 :: r.2)

/-- An initial empty heap (every unallocated address holds an inert
fresh node which no container ever references). -/
def emptyHeap : Heap := fun _ => { uuid := 0 }

/-- Build the world of claim C7: create the given stages in order via
`get_stage`, then register the participants; the resulting container is
the plugin container holding the participants with the `StagesModule`
container as a child (as `simple_plugin` arranges). -/
def buildStageWorld (idxs : List Int) (ps : List PartSpec) :
    StagesSt × List Nat × Container :=
  let st0 : StagesSt := { heap := emptyHeap }
  let st1 := idxs.foldl (fun acc i => (getStage acc i).1) st0
  let q := addParts st1 ps
  (q.1, q.2, .mk q.2 [.mk q.1.bound [] [] []] [] [])

/-! ## Task supervisor shutdown (`LifecycleModule.stop`) -/

/-- Observable events during `stop`: a stop hook running to completion,
the `_stoppedEvent` completion signal being set, and the cancel scope
being cancelled. -/
inductive LEv where
  | hookRun (i : Nat)
  | stoppedSet
  | cancelScope
deriving DecidableEq, Repr

/-- `LifecycleModule` state: the running flag, the two threading events,
the async stop event, the registered stop hooks in registration order,
the `cancel_on_stop` setting, and the identity of the `_stoppedEvent`
object (constant over the module's lifetime). -/
structure LState where
  isRunning : Bool
  stopEventSet : Bool := false
  stoppedEventSet : Bool := false
  asyncStopSet : Bool := false
  hooks : List Nat := []
  cancel_on_stop : Bool := true
  stoppedSigId : Nat := 0

/-- `LifecycleModule.on_stop`: append the hook. -/
def onStop (s : LState) (cb : Nat) : LState := { s with hooks := s.hooks ++ [cb] }

/-- `LifecycleModule.stop`: early-return `_stoppedEvent` when not
running; otherwise clear the running flag, fire the async stop event,
early-return if `_stopEvent` is already set, else set it, run every stop
hook in registration order, set `_stoppedEvent`, and cancel the scope if
configured.  The result is the new state, the trace of observable
events in order, and the identity of the returned signal object. -/
def stop (s : LState) : LState × List LEv × Nat :=
  if ¬ s.isRunning then (s, [], s.stoppedSigId)
  else
    let s := { s with isRunning := false, asyncStopSet := true }
    if s.stopEventSet then (s, [], s.stoppedSigId)
    else
      let s := { s with stopEventSet := true }
      let tr := s.hooks.map LEv.hookRun
      let s := { s with stoppedEventSet := true }
      if s.cancel_on_stop then
        (s, tr ++ [.stoppedSet, .cancelScope], s.stoppedSigId)
      else
        (s, tr ++ [.stoppedSet], s.stoppedSigId)

/-! ## The signature-driven builder (`InjectedDependency.from_function`) -/

/-- Parameter metadata, as seen through `get_type_hints(cb,
include_extras=True)` and `get_args`: an explicit `TypeRef` or
`DependencyRef` selector instance, an `InjectMarker`, or any other
annotation object. -/
inductive PMeta where
  | mTypeRef (t : Option Nat)
  | mDepRef (u : Nat)
  | mInject
  | mOther
deriving DecidableEq, Repr

/-- One parameter of the wrapped callable: its resolved type hint (if
annotated) and the `Annotated` metadata list (empty when the annotation
is not an `Annotated[...]` form). -/
structure Param where
  hint : Option Nat := none
  extras : List PMeta := []
deriving DecidableEq, Repr

/-- The `for arg in get_args(...)` scan: the first explicit selector
wins; an `InjectMarker` converts to a `TypeRef` over the parameter's
declared type. -/
def firstSelector (hint : Option Nat) : List PMeta → Option Ref
  | [] => none
  | .mTypeRef t :: _ => some (.byType t)
  | .mDepRef u :: _ => some (.byId u)
  | .mInject :: _ => some (.byType hint)
  | .mOther :: rest => firstSelector hint rest

/-- The per-parameter step of `InjectedDependency.from_function`: pick
the parameter's selector (explicit metadata first, then — in "inject
all" mode — any type-hinted parameter), append it, and update the
`type_constructor` flag: it stays true only while every appended
selector is a `TypeRef` whose type differs from the node's own. -/
def fromFunctionStep (all : Bool) (node : Node) (p : Param) : Node :=
  let ref0 := if p.extras.isEmpty then none else firstSelector p.hint p.extras
  let ref := match ref0 with
    | some r => some r
    | none => if p.hint.isSome ∧ all then some (Ref.byType p.hint) else none
  match ref with
  | none => node
  | some r =>
    { node with
      dependencies := node.dependencies ++ [r]
      type_constructor := node.type_constructor &&
        (match r with
         | .byType t => decide (t ≠ node.ty)
         | _ => false) }

/-- `InjectedDependency.from_function`: build a fresh node, set its
produced type from the callable's return hint, then process every
parameter in order. -/
def from_function (uuid cbv : Nat) (params : List Param) (ret : Option Nat)
    (all : Bool) : Node :=
  params.foldl (fromFunctionStep all)
    { uuid := uuid, cbVal := cbv, ty := ret }

/-! ## Basic lemmas: association lists, heap updates, dedup, sorting -/

theorem hset_self (h : Heap) (a : Nat) (n : Node) : hset h a n a = n := by
  simp [hset]

theorem hset_other (h : Heap) (a b : Nat) (n : Node) (hne : b ≠ a) :
    hset h a n b = h b := by
  simp [hset, hne]

theorem aget_aset_self {α : Type} [DecidableEq α] (m : List (α × Nat))
    (k : α) (v : Nat) : aget (aset m k v) k = some v := by
  induction m with
  | nil => simp [aset, aget]
  | cons p rest ih =>
    by_cases hk : p.1 = k
    · simp [aset, aget, hk]
    · simp [aset, aget, hk, ih]

theorem aget_aset_other {α : Type} [DecidableEq α] (m : List (α × Nat))
    (k q : α) (v : Nat) (hne : q ≠ k) : aget (aset m k v) q = aget m q := by
  induction m with
  | nil => simp [aset, aget, Ne.symm hne]
  | cons p rest ih =>
    by_cases hk : p.1 = k
    · rw [show aset (p :: rest) k v = (p.1, v) :: rest by simp [aset, hk]]
      have : ¬ p.1 = q := by rw [hk]; exact Ne.symm hne
      simp [aget, this]
    · rw [show aset (p :: rest) k v = (p.1, p.2) :: aset rest k v by simp [aset, hk]]
      by_cases hq : p.1 = q
      · simp [aget, hq]
      · simp [aget, hq, ih]

theorem aget_asetd_same {α : Type} [DecidableEq α] (m : List (α × Nat))
    (k : α) (v : Nat) : aget (asetd m k v) k = some ((aget m k).getD v) := by
  unfold asetd
  match hm : aget m k with
  | some w => simp [hm]
  | none =>
    simp only [hm]
    induction m with
    | nil => simp [aget]
    | cons p rest ih =>
      by_cases hk : p.1 = k
      · simp [aget, hk] at hm
      · simp [aget, hk] at hm ⊢
        exact ih hm

theorem aget_asetd_other {α : Type} [DecidableEq α] (m : List (α × Nat))
    (k q : α) (v : Nat) (hne : q ≠ k) : aget (asetd m k v) q = aget m q := by
  unfold asetd
  match hm : aget m k with
  | some w => rfl
  | none =>
    induction m with
    | nil => simp [aget, Ne.symm hne]
    | cons p rest ih =>
      by_cases hk : p.1 = k
      · simp [aget, hk] at hm
      · simp [aget, hk] at hm ⊢
        by_cases hq : p.1 = q
        · simp [aget, hq]
        · simp [aget, hq]
          exact ih hm

/-- Values present in an association list. -/
theorem aget_mem_values {α : Type} [DecidableEq α] (m : List (α × Nat))
    (k : α) (v : Nat) (hg : aget m k = some v) : ∃ p ∈ m, p.2 = v := by
  induction m with
  | nil => simp [aget] at hg
  | cons p rest ih =>
    by_cases hk : p.1 = k
    · simp [aget, hk] at hg
      exact ⟨p, by simp, hg⟩
    · simp [aget, hk] at hg
      obtain ⟨q, hq, hv⟩ := ih hg
      exact ⟨q, by simp [hq], hv⟩

theorem aget_aset_values {α : Type} [DecidableEq α] (m : List (α × Nat))
    (k q : α) (v w : Nat) (hg : aget (aset m k v) q = some w) :
    w = v ∨ aget m q = some w := by
  by_cases hk : q = k
  · subst hk
    rw [aget_aset_self] at hg
    exact Or.inl (by injection hg; omega)
  · rw [aget_aset_other m k q v hk] at hg
    exact Or.inr hg

theorem aget_asetd_values {α : Type} [DecidableEq α] (m : List (α × Nat))
    (k q : α) (v w : Nat) (hg : aget (asetd m k v) q = some w) :
    w = v ∨ aget m q = some w := by
  by_cases hk : q = k
  · subst hk
    rw [aget_asetd_same] at hg
    match hm : aget m q with
    | some x =>
      rw [hm] at hg
      simp at hg
      exact Or.inr (by rw [hg])
    | none =>
      rw [hm] at hg
      simp at hg
      exact Or.inl hg.symm
  · rw [aget_asetd_other m k q v hk] at hg
    exact Or.inr hg

mutual
/-- The undeduplicated node tree of a container. -/
def Container.raw : Container → List Nat
  | .mk d cs _ _ => d ++ Container.rawChildren cs

def Container.rawChildren : List Container → List Nat
  | [] => []
  | c :: cs => Container.raw c ++ Container.rawChildren cs
end

theorem dedupAll_subset (h : Heap) (ign : List Nat) :
    ∀ vis l x, x ∈ dedupAll h ign vis l → x ∈ l := by
  intro vis l
  induction l generalizing vis with
  | nil => intro x hx; simp [dedupAll] at hx
  | cons a rest ih =>
    intro x hx
    unfold dedupAll at hx
    by_cases hc : (h a).uuid ∈ vis ∨ (h a).uuid ∈ ign
    · simp only [if_pos hc] at hx
      exact List.mem_cons_of_mem a (ih vis x hx)
    · simp only [if_neg hc] at hx
      rcases List.mem_cons.mp hx with rfl | hx
      · exact List.mem_cons_self _ _
      · exact List.mem_cons_of_mem a (ih _ x hx)

theorem dedupAll_avoids (h : Heap) (ign : List Nat) :
    ∀ vis l x, x ∈ dedupAll h ign vis l →
      (h x).uuid ∉ vis ∧ (h x).uuid ∉ ign := by
  intro vis l
  induction l generalizing vis with
  | nil => intro x hx; simp [dedupAll] at hx
  | cons a rest ih =>
    intro x hx
    unfold dedupAll at hx
    by_cases hc : (h a).uuid ∈ vis ∨ (h a).uuid ∈ ign
    · simp only [if_pos hc] at hx
      exact ih vis x hx
    · simp only [if_neg hc] at hx
      push_neg at hc
      rcases List.mem_cons.mp hx with rfl | hx
      · exact hc
      · have := ih _ x hx
        exact ⟨fun hm => this.1 (List.mem_cons_of_mem _ hm), this.2⟩

/-- Distinct output entries of the dedup pass have distinct uuids. -/
theorem dedupAll_pairwise (h : Heap) (ign : List Nat) :
    ∀ vis l, (dedupAll h ign vis l).Pairwise
      (fun a b => (h a).uuid ≠ (h b).uuid) := by
  intro vis l
  induction l generalizing vis with
  | nil => simp [dedupAll]
  | cons a rest ih =>
    unfold dedupAll
    by_cases hc : (h a).uuid ∈ vis ∨ (h a).uuid ∈ ign
    · simp only [if_pos hc]
      exact ih vis
    · simp only [if_neg hc]
      refine List.pairwise_cons.mpr ⟨?_, ih _⟩
      intro b hb heq
      exact (dedupAll_avoids h ign _ _ b hb).1 (heq ▸ List.mem_cons_self _ _)

theorem dedupAll_cover (h : Heap) (ign : List Nat) :
    ∀ vis l a, a ∈ l → (h a).uuid ∉ ign → (h a).uuid ∉ vis →
      ∃ b ∈ dedupAll h ign vis l, (h b).uuid = (h a).uuid := by
  intro vis l
  induction l generalizing vis with
  | nil => intro a ha; simp at ha
  | cons x rest ih =>
    intro a ha hign hvis
    unfold dedupAll
    by_cases hc : (h x).uuid ∈ vis ∨ (h x).uuid ∈ ign
    · simp only [if_pos hc]
      rcases List.mem_cons.mp ha with rfl | ha2
      · cases hc with
        | inl hm => exact absurd hm hvis
        | inr hm => exact absurd hm hign
      · exact ih vis a ha2 hign hvis
    · simp only [if_neg hc]
      rcases List.mem_cons.mp ha with rfl | ha2
      · exact ⟨a, List.mem_cons_self _ _, rfl⟩
      · by_cases he : (h a).uuid = (h x).uuid
        · exact ⟨x, List.mem_cons_self _ _, he.symm⟩
        · obtain ⟨b, hb, hbe⟩ := ih _ a ha2 hign
            (by intro hm
                rcases List.mem_cons.mp hm with he2 | hv
                · exact he he2
                · exact hvis hv)
          exact ⟨b, List.mem_cons_of_mem _ hb, hbe⟩

theorem dedupAll_nil (h : Heap) (ign : List Nat) :
    ∀ vis l, (∀ a ∈ l, (h a).uuid ∈ vis ∨ (h a).uuid ∈ ign) →
      dedupAll h ign vis l = [] := by
  intro vis l
  induction l generalizing vis with
  | nil => intro _; rfl
  | cons a rest ih =>
    intro hall
    unfold dedupAll
    rw [if_pos (hall a (List.mem_cons_self _ _))]
    exact ih vis (fun b hb => hall b (List.mem_cons_of_mem _ hb))

mutual
theorem Container.all_subset_raw (h : Heap) (ign : List Nat) :
    ∀ c : Container, ∀ x, x ∈ Container.all h ign c → x ∈ Container.raw c
  | .mk d cs r l, x, hx => by
    unfold Container.all at hx
    unfold Container.raw
    have hin := dedupAll_subset h ign [] _ x hx
    rcases List.mem_append.mp hin with hd | hc
    · exact List.mem_append.mpr (Or.inl hd)
    · exact List.mem_append.mpr
        (Or.inr (Container.allChildren_subset_raw h ign cs x hc))

theorem Container.allChildren_subset_raw (h : Heap) (ign : List Nat) :
    ∀ cs : List Container, ∀ x,
      x ∈ Container.allChildren h ign cs → x ∈ Container.rawChildren cs
  | c :: cs, x, hx => by
    unfold Container.allChildren at hx
    unfold Container.rawChildren
    rcases List.mem_append.mp hx with h1 | h2
    · exact List.mem_append.mpr (Or.inl (Container.all_subset_raw h ign c x h1))
    · exact List.mem_append.mpr
        (Or.inr (Container.allChildren_subset_raw h ign cs x h2))
end

mutual
theorem Container.all_cover (h : Heap) (ign : List Nat) :
    ∀ c : Container, ∀ a, a ∈ Container.raw c → (h a).uuid ∉ ign →
      ∃ b ∈ Container.all h ign c, (h b).uuid = (h a).uuid
  | .mk d cs r l, a, ha, hign => by
    unfold Container.raw at ha
    unfold Container.all
    have hmem : ∃ x ∈ d ++ Container.allChildren h ign cs,
        (h x).uuid = (h a).uuid := by
      rcases List.mem_append.mp ha with hd | hc
      · exact ⟨a, List.mem_append.mpr (Or.inl hd), rfl⟩
      · obtain ⟨b, hb, hbe⟩ := Container.allChildren_cover h ign cs a hc hign
        exact ⟨b, List.mem_append.mpr (Or.inr hb), hbe⟩
    obtain ⟨x, hx, hxe⟩ := hmem
    obtain ⟨b, hb, hbe⟩ := dedupAll_cover h ign [] _ x hx
      (by rw [hxe]; exact hign) (by simp)
    exact ⟨b, hb, by rw [hbe, hxe]⟩

theorem Container.allChildren_cover (h : Heap) (ign : List Nat) :
    ∀ cs : List Container, ∀ a, a ∈ Container.rawChildren cs →
      (h a).uuid ∉ ign →
      ∃ b ∈ Container.allChildren h ign cs, (h b).uuid = (h a).uuid
  | c :: cs, a, ha, hign => by
    unfold Container.rawChildren at ha
    unfold Container.allChildren
    rcases List.mem_append.mp ha with h1 | h2
    · obtain ⟨b, hb, hbe⟩ := Container.all_cover h ign c a h1 hign
      exact ⟨b, List.mem_append.mpr (Or.inl hb), hbe⟩
    · obtain ⟨b, hb, hbe⟩ := Container.allChildren_cover h ign cs a h2 hign
      exact ⟨b, List.mem_append.mpr (Or.inr hb), hbe⟩
end

theorem Container.all_nil (h : Heap) (ign : List Nat) (c : Container)
    (hall : ∀ a ∈ Container.raw c, (h a).uuid ∈ ign) :
    Container.all h ign c = [] := by
  match c with
  | .mk d cs r l =>
    unfold Container.all
    apply dedupAll_nil
    intro a ha
    refine Or.inr ?_
    apply hall
    unfold Container.raw
    rcases List.mem_append.mp ha with hd | hc
    · exact List.mem_append.mpr (Or.inl hd)
    · exact List.mem_append.mpr
        (Or.inr (Container.allChildren_subset_raw h ign cs a hc))

theorem Container.all_pairwise (h : Heap) (ign : List Nat) (c : Container) :
    (Container.all h ign c).Pairwise (fun a b => (h a).uuid ≠ (h b).uuid) := by
  match c with
  | .mk d cs r l =>
    unfold Container.all
    exact dedupAll_pairwise h ign [] _

theorem Container.all_avoids (h : Heap) (ign : List Nat) (c : Container)
    (x : Nat) (hx : x ∈ Container.all h ign c) : (h x).uuid ∉ ign := by
  match c with
  | .mk d cs r l =>
    unfold Container.all at hx
    exact (dedupAll_avoids h ign [] _ x hx).2

/-- `Container.all` depends on the heap only through node uuids. -/
theorem dedupAll_congr (h1 h2 : Heap)
    (he : ∀ a, (h1 a).uuid = (h2 a).uuid) (ign : List Nat) :
    ∀ vis l, dedupAll h1 ign vis l = dedupAll h2 ign vis l := by
  intro vis l
  induction l generalizing vis with
  | nil => rfl
  | cons a rest ih =>
    unfold dedupAll
    rw [he a]
    by_cases hc : (h2 a).uuid ∈ vis ∨ (h2 a).uuid ∈ ign
    · simp only [if_pos hc]; exact ih vis
    · simp only [if_neg hc]; rw [ih]

mutual
theorem Container.all_congr (h1 h2 : Heap)
    (he : ∀ a, (h1 a).uuid = (h2 a).uuid) (ign : List Nat) :
    ∀ c : Container, Container.all h1 ign c = Container.all h2 ign c
  | .mk d cs r l => by
    unfold Container.all
    rw [Container.allChildren_congr h1 h2 he ign cs, dedupAll_congr h1 h2 he]

theorem Container.allChildren_congr (h1 h2 : Heap)
    (he : ∀ a, (h1 a).uuid = (h2 a).uuid) (ign : List Nat) :
    ∀ cs : List Container,
      Container.allChildren h1 ign cs = Container.allChildren h2 ign cs
  | [] => rfl
  | c :: cs => by
    unfold Container.allChildren
    rw [Container.all_congr h1 h2 he ign c,
      Container.allChildren_congr h1 h2 he ign cs]
end

theorem sortByPrio_perm (h : Heap) (ds : List Nat) :
    (sortByPrio h ds).Perm ds :=
  List.perm_insertionSort _ ds

theorem sortByPrio_mem (h : Heap) (ds : List Nat) (x : Nat) :
    x ∈ sortByPrio h ds ↔ x ∈ ds :=
  (sortByPrio_perm h ds).mem_iff

theorem sortByPrio_pairwise (h : Heap) (ds : List Nat)
    (hp : ds.Pairwise (fun a b => (h a).uuid ≠ (h b).uuid)) :
    (sortByPrio h ds).Pairwise (fun a b => (h a).uuid ≠ (h b).uuid) := by
  exact ((sortByPrio_perm h ds).pairwise_iff
    (fun hab => Ne.symm hab)).mpr hp

/-! ## Link-phase lemmas -/

/-- Reference resolution only reads the indices and node uuids. -/
theorem resolveRef_congr (st1 st2 : SState) (hid : st2.byId = st1.byId)
    (hty : st2.byType = st1.byType)
    (hu : ∀ b, (st2.heap b).uuid = (st1.heap b).uuid) (r : Ref) :
    resolveRef st2 r = resolveRef st1 r := by
  cases r with
  | byId u => simp [resolveRef, hid]
  | byType t => simp [resolveRef, hty]
  | direct a => simp [resolveRef, hid, hu a]

/-- Total resolution of a reference list against a fixed state. -/
def resolveAll (st : SState) : List Ref → Option (List Nat)
  | [] => some []
  | r :: rest =>
    match resolveRef st r, resolveAll st rest with
    | some d, some L => some (d :: L)
    | _, _ => none

theorem resolveAll_congr (st1 st2 : SState) (hid : st2.byId = st1.byId)
    (hty : st2.byType = st1.byType)
    (hu : ∀ b, (st2.heap b).uuid = (st1.heap b).uuid) (refs : List Ref) :
    resolveAll st2 refs = resolveAll st1 refs := by
  induction refs with
  | nil => rfl
  | cons r rest ih =>
    unfold resolveAll
    rw [ih, resolveRef_congr st1 st2 hid hty hu r]

/-- Exact success shape of the `_link` resolution loop. -/
theorem resolveLoop_ok (st : SState) (a : Nat) (refs : List Ref)
    (L : List Nat) (hres : resolveAll st refs = some L) :
    (resolveLoop st a refs).2 = none ∧
    (resolveLoop st a refs).1.byId = st.byId ∧
    (resolveLoop st a refs).1.byType = st.byType ∧
    (resolveLoop st a refs).1.solvedU = st.solvedU ∧
    (resolveLoop st a refs).1.repl = st.repl ∧
    (∀ b, b ≠ a → (resolveLoop st a refs).1.heap b = st.heap b) ∧
    (resolveLoop st a refs).1.heap a =
      { st.heap a with rdeps := (st.heap a).rdeps ++ L } := by
  induction refs generalizing st L with
  | nil =>
    unfold resolveAll at hres
    injection hres with hL
    subst hL
    refine ⟨rfl, rfl, rfl, rfl, rfl, fun b _ => rfl, ?_⟩
    have hnil : (st.heap a).rdeps ++ ([] : List Nat) = (st.heap a).rdeps :=
      List.append_nil _
    rw [hnil]
    rfl
  | cons r rest ih =>
    unfold resolveAll at hres
    match hr : resolveRef st r, hrest : resolveAll st rest with
    | some d, some L2 =>
      rw [hr, hrest] at hres
      simp only at hres
      injection hres with hL
      subst hL
      unfold resolveLoop
      rw [hr]
      set n2 : Node := { st.heap a with rdeps := (st.heap a).rdeps ++ [d] }
        with hn2
      set st2 : SState := { st with heap := hset st.heap a n2 } with hst2
      have hu : ∀ b, (st2.heap b).uuid = (st.heap b).uuid := by
        intro b
        by_cases hb : b = a
        · subst hb; rw [hst2]; simp [hset_self, hn2]
        · rw [hst2]; simp [hset_other _ _ _ _ hb]
      have hrest2 : resolveAll st2 rest = some L2 := by
        rw [resolveAll_congr st st2 rfl rfl hu rest]; exact hrest
      obtain ⟨c1, c2, c3, c4, c5, c6, c7⟩ := ih st2 L2 hrest2
      refine ⟨c1, c2, c3, c4, c5, ?_, ?_⟩
      · intro b hb
        rw [c6 b hb, hst2]
        simp [hset_other _ _ _ _ hb]
      · rw [c7]
        have ha : st2.heap a = n2 := by
          rw [hst2]; simp [hset_self]
        rw [ha, hn2]
        simp
    | some d, none =>
      rw [hr, hrest] at hres
      simp at hres
    | none, some L2 =>
      rw [hr] at hres
      simp at hres
    | none, none =>
      rw [hr] at hres
      simp at hres

/-- General shape of the resolution loop, any outcome: indices and all
other nodes untouched; the node itself only gains resolved
predecessors. -/
theorem resolveLoop_shape (st : SState) (a : Nat) (refs : List Ref) :
    (resolveLoop st a refs).1.byId = st.byId ∧
    (resolveLoop st a refs).1.byType = st.byType ∧
    (resolveLoop st a refs).1.solvedU = st.solvedU ∧
    (resolveLoop st a refs).1.repl = st.repl ∧
    (∀ b, b ≠ a → (resolveLoop st a refs).1.heap b = st.heap b) ∧
    ∃ L, (resolveLoop st a refs).1.heap a =
      { st.heap a with rdeps := (st.heap a).rdeps ++ L } := by
  induction refs generalizing st with
  | nil =>
    refine ⟨rfl, rfl, rfl, rfl, fun b _ => rfl, [], ?_⟩
    have hnil : (st.heap a).rdeps ++ ([] : List Nat) = (st.heap a).rdeps :=
      List.append_nil _
    rw [hnil]
    rfl
  | cons r rest ih =>
    unfold resolveLoop
    match hr : resolveRef st r with
    | none =>
      refine ⟨rfl, rfl, rfl, rfl, fun b _ => rfl, [], ?_⟩
      have hnil : (st.heap a).rdeps ++ ([] : List Nat) = (st.heap a).rdeps :=
        List.append_nil _
      rw [hnil]
    | some d =>
      set n2 : Node := { st.heap a with rdeps := (st.heap a).rdeps ++ [d] }
        with hn2
      set st2 : SState := { st with heap := hset st.heap a n2 } with hst2
      obtain ⟨c1, c2, c3, c4, c6, L, c7⟩ := ih st2
      refine ⟨c1, c2, c3, c4, ?_, ?_⟩
      · intro b hb
        rw [c6 b hb, hst2]
        simp [hset_other _ _ _ _ hb]
      · refine ⟨[d] ++ L, ?_⟩
        rw [c7]
        have ha : st2.heap a = n2 := by
          rw [hst2]; simp [hset_self]
        rw [ha, hn2]
        simp


/-- If total resolution fails, the resolution loop raises
`DependencyNotFound`. -/
theorem resolveLoop_err (st : SState) (a : Nat) (refs : List Ref)
    (hres : resolveAll st refs = none) :
    (resolveLoop st a refs).2 = some .notFound := by
  induction refs generalizing st with
  | nil => simp [resolveAll] at hres
  | cons r rest ih =>
    unfold resolveAll at hres
    unfold resolveLoop
    match hr : resolveRef st r with
    | none => rfl
    | some d =>
      rw [hr] at hres
      set n2 : Node := { st.heap a with rdeps := (st.heap a).rdeps ++ [d] }
        with hn2
      set st2 : SState := { st with heap := hset st.heap a n2 } with hst2
      have hu : ∀ b, (st2.heap b).uuid = (st.heap b).uuid := by
        intro b
        by_cases hb : b = a
        · subst hb; rw [hst2]; simp [hset_self, hn2]
        · rw [hst2]; simp [hset_other _ _ _ _ hb]
      apply ih
      rw [resolveAll_congr st st2 rfl rfl hu rest]
      match hrest : resolveAll st rest with
      | none => rfl
      | some L => rw [hrest] at hres; simp at hres

/-- `_link` (any node kind) never touches the indices, other nodes, or
the node's own state, uuid, type or optional flag. -/
theorem linkBody_shape (c : Container) (st : SState) (a : Nat) :
    (linkBody c st a).1.byId = st.byId ∧
    (linkBody c st a).1.byType = st.byType ∧
    (linkBody c st a).1.solvedU = st.solvedU ∧
    (linkBody c st a).1.repl = st.repl ∧
    (∀ b, b ≠ a → (linkBody c st a).1.heap b = st.heap b) ∧
    ((linkBody c st a).1.heap a).state = (st.heap a).state ∧
    ((linkBody c st a).1.heap a).uuid = (st.heap a).uuid ∧
    ((linkBody c st a).1.heap a).ty = (st.heap a).ty ∧
    ((linkBody c st a).1.heap a).optional = (st.heap a).optional := by
  unfold linkBody
  match hk : (st.heap a).kind with
  | .plain =>
    obtain ⟨c1, c2, c3, c4, c6, L, c7⟩ := resolveLoop_shape st a
      (st.heap a).dependencies
    exact ⟨c1, c2, c3, c4, c6, by rw [c7], by rw [c7], by rw [c7], by rw [c7]⟩
  | .stageStart i =>
    set st1 := trimStageStart st a with hst1
    have h1 : st1.byId = st.byId ∧ st1.byType = st.byType ∧
        st1.solvedU = st.solvedU ∧ st1.repl = st.repl ∧
        (∀ b, b ≠ a → st1.heap b = st.heap b) ∧
        (st1.heap a).state = (st.heap a).state ∧
        (st1.heap a).uuid = (st.heap a).uuid ∧
        (st1.heap a).ty = (st.heap a).ty ∧
        (st1.heap a).optional = (st.heap a).optional := by
      rw [hst1]
      unfold trimStageStart
      refine ⟨rfl, rfl, rfl, rfl, ?_, ?_, ?_, ?_, ?_⟩
      · intro b hb; simp [hset_other _ _ _ _ hb]
      all_goals simp [hset_self]
    obtain ⟨c1, c2, c3, c4, c6, L, c7⟩ := resolveLoop_shape st1 a
      (st1.heap a).dependencies
    refine ⟨c1.trans h1.1, c2.trans h1.2.1, c3.trans h1.2.2.1,
      c4.trans h1.2.2.2.1, ?_, ?_, ?_, ?_, ?_⟩
    · intro b hb
      rw [c6 b hb, h1.2.2.2.2.1 b hb]
    · rw [c7]; exact h1.2.2.2.2.2.1
    · rw [c7]; exact h1.2.2.2.2.2.2.1
    · rw [c7]; exact h1.2.2.2.2.2.2.2.1
    · rw [c7]; exact h1.2.2.2.2.2.2.2.2
  | .stageEnd i =>
    set st1 := collectStageParts c st a with hst1
    have h1 : st1.byId = st.byId ∧ st1.byType = st.byType ∧
        st1.solvedU = st.solvedU ∧ st1.repl = st.repl ∧
        (∀ b, b ≠ a → st1.heap b = st.heap b) ∧
        (st1.heap a).state = (st.heap a).state ∧
        (st1.heap a).uuid = (st.heap a).uuid ∧
        (st1.heap a).ty = (st.heap a).ty ∧
        (st1.heap a).optional = (st.heap a).optional := by
      rw [hst1]
      unfold collectStageParts
      refine ⟨rfl, rfl, rfl, rfl, ?_, ?_, ?_, ?_, ?_⟩
      · intro b hb; simp [hset_other _ _ _ _ hb]
      all_goals simp [hset_self]
    obtain ⟨c1, c2, c3, c4, c6, L, c7⟩ := resolveLoop_shape st1 a
      (st1.heap a).dependencies
    refine ⟨c1.trans h1.1, c2.trans h1.2.1, c3.trans h1.2.2.1,
      c4.trans h1.2.2.2.1, ?_, ?_, ?_, ?_, ?_⟩
    · intro b hb
      rw [c6 b hb, h1.2.2.2.2.1 b hb]
    · rw [c7]; exact h1.2.2.2.2.2.1
    · rw [c7]; exact h1.2.2.2.2.2.2.1
    · rw [c7]; exact h1.2.2.2.2.2.2.2.1
    · rw [c7]; exact h1.2.2.2.2.2.2.2.2


/-- `Dependency.link` on an already non-pending node is a no-op. -/
theorem linkOne_nonpending (c : Container) (st : SState) (a : Nat)
    (hs : (st.heap a).state ≠ .pending) : linkOne c st a = (st, .ok) := by
  unfold linkOne
  rw [if_pos hs]

/-- Success shape of `Dependency.link` on a pending plain node whose
references all resolve: the node moves to `linked` with exactly the
resolved predecessor list appended, and the node is installed in
`_by_type` (unconditionally); nothing else changes. -/
theorem linkOne_plain_ok (c : Container) (st : SState) (a : Nat)
    (L : List Nat) (hk : (st.heap a).kind = .plain)
    (hp : (st.heap a).state = .pending)
    (hres : resolveAll st (st.heap a).dependencies = some L) :
    (linkOne c st a).2 = .ok ∧
    (linkOne c st a).1.byId = st.byId ∧
    (linkOne c st a).1.byType = aset st.byType (st.heap a).ty a ∧
    (linkOne c st a).1.solvedU = st.solvedU ∧
    (linkOne c st a).1.repl = st.repl ∧
    (∀ b, b ≠ a → (linkOne c st a).1.heap b = st.heap b) ∧
    (linkOne c st a).1.heap a =
      { st.heap a with state := NState.linked, rdeps := (st.heap a).rdeps ++ L } := by
  obtain ⟨c1, c2, c3, c4, c5, c6, c7⟩ :=
    resolveLoop_ok st a (st.heap a).dependencies L hres
  have hbody : linkBody c st a = resolveLoop st a (st.heap a).dependencies := by
    unfold linkBody
    rw [hk]
  unfold linkOne
  rw [if_neg (fun hne => hne hp), hbody]
  match hq : resolveLoop st a (st.heap a).dependencies with
  | (st1, e1) =>
    rw [hq] at c1 c2 c3 c4 c5 c6 c7
    simp only at c1 c2 c3 c4 c5 c6 c7
    subst c1
    refine ⟨rfl, c2, ?_, c4, c5, ?_, ?_⟩
    · show aset st1.byType (st1.heap a).ty a = aset st.byType (st.heap a).ty a
      rw [c3, c7]
    · intro b hb
      show hset st1.heap a { st1.heap a with state := NState.linked } b = st.heap b
      rw [hset_other _ _ _ _ hb]
      exact c6 b hb
    · show hset st1.heap a { st1.heap a with state := NState.linked } a = { st.heap a with state := NState.linked, rdeps := (st.heap a).rdeps ++ L }
      rw [hset_self, c7]

/-- Failing or skipping `Dependency.link` leaves the node `pending` and
the `_by_type` index unchanged (claim C10's shape). -/
theorem linkOne_fail_pending (c : Container) (st : SState) (a : Nat)
    (hfail : (linkOne c st a).2 = .fail .notFound) :
    ((linkOne c st a).1.heap a).state = .pending ∧
    (linkOne c st a).1.byType = st.byType ∧
    (linkOne c st a).1.byId = st.byId ∧
    (st.heap a).state = .pending := by
  obtain ⟨s1, s2, s3, s4, s5, s6, s7, s8, s9⟩ := linkBody_shape c st a
  by_cases hs0 : (st.heap a).state ≠ .pending
  · rw [linkOne_nonpending c st a hs0] at hfail
    simp at hfail
  · push_neg at hs0
    match hq : linkBody c st a with
    | (st1, some e) =>
      have heq : linkOne c st a =
          if e = Err.notFound ∧ (st1.heap a).optional = true then
            (st1, LOut.skip)
          else (st1, LOut.fail e) := by
        unfold linkOne
        rw [if_neg (fun hne => hne hs0), hq]
      rw [hq] at s1 s2 s6
      simp only at s1 s2 s6
      rw [heq] at hfail ⊢
      by_cases hcond : e = Err.notFound ∧ (st1.heap a).optional = true
      · rw [if_pos hcond] at hfail
        simp at hfail
      · rw [if_neg hcond] at hfail ⊢
        exact ⟨s6.trans hs0, s2, s1, hs0⟩
    | (st1, none) =>
      have houtcome : (linkOne c st a).2 = LOut.ok := by
        unfold linkOne
        rw [if_neg (fun hne => hne hs0), hq]
      rw [hfail] at houtcome
      simp at houtcome

/-- Skip shape: a pending plain `optional` node with an unresolvable
reference raises `SkipDependency`. -/
theorem linkOne_plain_skip (c : Container) (st : SState) (a : Nat)
    (hk : (st.heap a).kind = .plain)
    (hp : (st.heap a).state = .pending)
    (hopt : (st.heap a).optional = true)
    (hres : resolveAll st (st.heap a).dependencies = none) :
    (linkOne c st a).2 = .skip ∧
    (linkOne c st a).1.byId = st.byId ∧
    (linkOne c st a).1.byType = st.byType ∧
    (linkOne c st a).1.solvedU = st.solvedU ∧
    (linkOne c st a).1.repl = st.repl ∧
    (∀ b, b ≠ a → (linkOne c st a).1.heap b = st.heap b) ∧
    ((linkOne c st a).1.heap a).state = .pending ∧
    ((linkOne c st a).1.heap a).uuid = (st.heap a).uuid := by
  have herr := resolveLoop_err st a (st.heap a).dependencies hres
  obtain ⟨c1, c2, c3, c4, c6, L, c7⟩ :=
    resolveLoop_shape st a (st.heap a).dependencies
  have hbody : linkBody c st a = resolveLoop st a (st.heap a).dependencies := by
    unfold linkBody
    rw [hk]
  match hq : resolveLoop st a (st.heap a).dependencies with
  | (st1, e1) =>
    rw [hq] at herr c1 c2 c3 c4 c6 c7
    simp only at herr c1 c2 c3 c4 c6 c7
    subst herr
    have hopt1 : (st1.heap a).optional = true := by rw [c7]; exact hopt
    have heq : linkOne c st a =
        if Err.notFound = Err.notFound ∧ (st1.heap a).optional = true then
          (st1, LOut.skip)
        else (st1, LOut.fail Err.notFound) := by
      unfold linkOne
      rw [if_neg (fun hne => hne hp), hbody, hq]
    rw [heq, if_pos ⟨rfl, hopt1⟩]
    exact ⟨rfl, c1, c2, c3, c4, c6, by rw [c7]; exact hp, by rw [c7]⟩


theorem resolveAll_of_forall (st : SState) (refs : List Ref)
    (R : Ref → Nat → Prop)
    (h : ∀ r ∈ refs, ∃ d, resolveRef st r = some d ∧ R r d) :
    ∃ L, resolveAll st refs = some L ∧ List.Forall₂ R refs L := by
  induction refs with
  | nil => exact ⟨[], rfl, List.Forall₂.nil⟩
  | cons r rest ih =>
    obtain ⟨d, hd, hR⟩ := h r (List.mem_cons_self _ _)
    obtain ⟨L, hL, hF⟩ := ih (fun r2 hr2 => h r2 (List.mem_cons_of_mem _ hr2))
    refine ⟨d :: L, ?_, List.Forall₂.cons hR hF⟩
    unfold resolveAll
    rw [hd, hL]

/-- Master characterization of the link loop over a wave of fresh plain
nodes whose references all resolve (parameterized by an invariant
`TyInv` on the type index and a per-reference resolution relation `R`):
no node skips or fails, every node moves to `linked` with exactly its
resolved predecessors appended, `_by_id` and everything outside the wave
are untouched. -/
theorem linkLoop_master (c : Container) (R : Ref → Nat → Prop)
    (TyInv : List (Option Nat × Nat) → Prop) :
    ∀ (W : List Nat) (st0 : SState),
    (∀ a ∈ W, (st0.heap a).state = .pending ∧ (st0.heap a).kind = .plain) →
    W.Nodup →
    TyInv st0.byType →
    (∀ m a, TyInv m → a ∈ W → TyInv (aset m (st0.heap a).ty a)) →
    (∀ st : SState, st.byId = st0.byId →
      (∀ b, (st.heap b).uuid = (st0.heap b).uuid) → TyInv st.byType →
      ∀ a ∈ W, ∀ r ∈ (st0.heap a).dependencies,
        ∃ d, resolveRef st r = some d ∧ R r d) →
    (linkLoop c st0 W).2.2 = none ∧
    (linkLoop c st0 W).2.1 = W ∧
    (linkLoop c st0 W).1.byId = st0.byId ∧
    (linkLoop c st0 W).1.solvedU = st0.solvedU ∧
    (linkLoop c st0 W).1.repl = st0.repl ∧
    TyInv (linkLoop c st0 W).1.byType ∧
    (∀ b, b ∉ W → (linkLoop c st0 W).1.heap b = st0.heap b) ∧
    (∀ a ∈ W, ∃ L,
      (linkLoop c st0 W).1.heap a =
        { st0.heap a with state := NState.linked, rdeps := (st0.heap a).rdeps ++ L } ∧
      List.Forall₂ R (st0.heap a).dependencies L) := by
  intro W
  induction W with
  | nil =>
    intro st0 _ _ hTy0 _ _
    exact ⟨rfl, rfl, rfl, rfl, rfl, hTy0, fun b _ => rfl, fun a ha => absurd ha (by simp)⟩
  | cons a rest ih =>
    intro st0 hW hNd hTy0 hTystep hRes
    have hpa := (hW a (List.mem_cons_self _ _)).1
    have hka := (hW a (List.mem_cons_self _ _)).2
    obtain ⟨La, hLa, hFa⟩ := resolveAll_of_forall st0 (st0.heap a).dependencies R
      (hRes st0 rfl (fun _ => rfl) hTy0 a (List.mem_cons_self _ _))
    obtain ⟨o1, o2, o3, o4, o5, o6, o7⟩ := linkOne_plain_ok c st0 a La hka hpa hLa
    have hanotin : a ∉ rest := (List.nodup_cons.mp hNd).1
    have hNd2 : rest.Nodup := (List.nodup_cons.mp hNd).2
    match hq : linkOne c st0 a with
    | (st1, o) =>
      rw [hq] at o1 o2 o3 o4 o5 o6 o7
      simp only at o1 o2 o3 o4 o5 o6 o7
      subst o1
      -- facts about st1 relative to st0
      have hheq : ∀ b, b ≠ a → st1.heap b = st0.heap b := o6
      have huu : ∀ b, (st1.heap b).uuid = (st0.heap b).uuid := by
        intro b
        by_cases hb : b = a
        · subst hb; rw [o7]
        · rw [hheq b hb]
      have hrest_heap : ∀ b ∈ rest, st1.heap b = st0.heap b := by
        intro b hb
        exact hheq b (fun hba => hanotin (hba ▸ hb))
      have ihres := ih st1
        (fun b hb => by rw [hrest_heap b hb]; exact hW b (List.mem_cons_of_mem _ hb))
        hNd2
        (by rw [o3]; exact hTystep st0.byType a hTy0 (List.mem_cons_self _ _))
        (by
          intro m b hm hb
          rw [hrest_heap b hb]
          exact hTystep m b hm (List.mem_cons_of_mem _ hb))
        (by
          intro st hid hu hTy b hb r hr
          rw [hrest_heap b hb] at hr
          exact hRes st (hid.trans o2) (fun x => (hu x).trans (huu x)) hTy b
            (List.mem_cons_of_mem _ hb) r hr)
      obtain ⟨i1, i2, i3, i4, i5, i6, i7, i8⟩ := ihres
      have hstep : linkLoop c st0 (a :: rest) =
          (match linkLoop c st1 rest with
           | (stx, kept, e) => (stx, a :: kept, e)) := by
        conv_lhs => unfold linkLoop
        rw [hq]
      rw [hstep]
      match hq2 : linkLoop c st1 rest with
      | (stx, kept, e) =>
        rw [hq2] at i1 i2 i3 i4 i5 i6 i7 i8
        simp only at i1 i2 i3 i4 i5 i6 i7 i8
        subst i1
        subst i2
        refine ⟨rfl, rfl, i3.trans o2, i4.trans o4, i5.trans o5, i6, ?_, ?_⟩
        · intro b hb
          have hbna : b ≠ a := fun hba => hb (hba ▸ List.mem_cons_self _ _)
          have hbnr : b ∉ kept := fun hbr => hb (List.mem_cons_of_mem _ hbr)
          rw [i7 b hbnr, hheq b hbna]
        · intro b hb
          rcases List.mem_cons.mp hb with rfl | hb2
          · refine ⟨La, ?_, hFa⟩
            rw [i7 b hanotin, o7]
          · obtain ⟨L, hL, hF⟩ := i8 b hb2
            refine ⟨L, ?_, ?_⟩
            · rw [hL, hrest_heap b hb2]
            · rw [← hrest_heap b hb2]
              exact hF


/-! ## Seeding (`_index_one`) lemmas -/

theorem indexOne_heap (st : SState) (a : Nat) :
    (indexOne st a).heap = st.heap ∧ (indexOne st a).solvedU = st.solvedU ∧
    (indexOne st a).repl = st.repl := by
  unfold indexOne
  by_cases htc : (st.heap a).type_constructor
  · simp [htc]
  · simp [htc]

theorem indexOne_byId (st : SState) (a : Nat) :
    (indexOne st a).byId = asetd st.byId ((st.heap a).uuid) a := by
  unfold indexOne
  by_cases htc : (st.heap a).type_constructor
  · simp [htc]
  · simp [htc]

theorem indexOne_byType (st : SState) (a : Nat) :
    (indexOne st a).byType =
      (if (st.heap a).type_constructor then
        asetd st.byType ((st.heap a).ty) a else st.byType) := by
  unfold indexOne
  by_cases htc : (st.heap a).type_constructor
  · simp [htc]
  · simp [htc]

theorem seed_heap (W : List Nat) (st : SState) :
    (W.foldl indexOne st).heap = st.heap ∧
    (W.foldl indexOne st).solvedU = st.solvedU ∧
    (W.foldl indexOne st).repl = st.repl := by
  induction W generalizing st with
  | nil => exact ⟨rfl, rfl, rfl⟩
  | cons a rest ih =>
    obtain ⟨h1, h2, h3⟩ := indexOne_heap st a
    obtain ⟨g1, g2, g3⟩ := ih (indexOne st a)
    exact ⟨g1.trans h1, g2.trans h2, g3.trans h3⟩

/-- `setdefault` indexing never overwrites an existing `_by_id` entry. -/
theorem seed_byId_mono (W : List Nat) (st : SState) (u v : Nat)
    (hg : aget st.byId u = some v) :
    aget (W.foldl indexOne st).byId u = some v := by
  induction W generalizing st with
  | nil => exact hg
  | cons a rest ih =>
    apply ih
    rw [indexOne_byId]
    by_cases hu : u = (st.heap a).uuid
    · subst hu
      rw [aget_asetd_same, hg]
      rfl
    · rw [aget_asetd_other _ _ _ _ hu]
      exact hg

theorem seed_byType_mono (W : List Nat) (st : SState) (t : Option Nat)
    (v : Nat) (hg : aget st.byType t = some v) :
    aget (W.foldl indexOne st).byType t = some v := by
  induction W generalizing st with
  | nil => exact hg
  | cons a rest ih =>
    apply ih
    rw [indexOne_byType]
    by_cases htc : (st.heap a).type_constructor
    · rw [if_pos htc]
      by_cases ht : t = (st.heap a).ty
      · subst ht
        rw [aget_asetd_same, hg]
        rfl
      · rw [aget_asetd_other _ _ _ _ ht]
        exact hg
    · rw [if_neg htc]
      exact hg

/-- After seeding a uuid-distinct wave into an id index free of its
uuids, every wave member is found under its own uuid. -/
theorem seed_byId_exact (W : List Nat) (st : SState)
    (hpw : W.Pairwise (fun a b => (st.heap a).uuid ≠ (st.heap b).uuid))
    (hfree : ∀ a ∈ W, aget st.byId ((st.heap a).uuid) = none) :
    ∀ a ∈ W, aget (W.foldl indexOne st).byId ((st.heap a).uuid) = some a := by
  induction W generalizing st with
  | nil => intro a ha; simp at ha
  | cons x rest ih =>
    intro a ha
    have hheap := (indexOne_heap st x).1
    rw [List.foldl_cons]
    rcases List.mem_cons.mp ha with rfl | ha2
    · apply seed_byId_mono rest (indexOne st a)
      rw [indexOne_byId, aget_asetd_same, hfree a (List.mem_cons_self _ _)]
      rfl
    · have hne : (st.heap x).uuid ≠ (st.heap a).uuid :=
        (List.pairwise_cons.mp hpw).1 a ha2
      have hmain := ih (indexOne st x)
        (by rw [hheap]; exact (List.pairwise_cons.mp hpw).2)
        (by
          intro b hb
          rw [hheap, indexOne_byId]
          have hneb : (st.heap b).uuid ≠ (st.heap x).uuid :=
            Ne.symm ((List.pairwise_cons.mp hpw).1 b hb)
          rw [aget_asetd_other _ _ _ _ hneb]
          exact hfree b (List.mem_cons_of_mem _ hb))
        a ha2
      rw [hheap] at hmain
      exact hmain

/-- Seeded `_by_id` values come from the wave or were already present. -/
theorem seed_byId_values (W : List Nat) (st : SState) (u v : Nat)
    (hg : aget (W.foldl indexOne st).byId u = some v) :
    aget st.byId u = some v ∨ v ∈ W := by
  induction W generalizing st with
  | nil => exact Or.inl hg
  | cons a rest ih =>
    rcases ih (indexOne st a) hg with hold | hmem
    · rw [indexOne_byId] at hold
      rcases aget_asetd_values _ _ _ _ _ hold with rfl | h2
      · exact Or.inr (List.mem_cons_self _ _)
      · exact Or.inl h2
    · exact Or.inr (List.mem_cons_of_mem _ hmem)

theorem seed_byType_values (W : List Nat) (st : SState) (t : Option Nat)
    (v : Nat) (hg : aget (W.foldl indexOne st).byType t = some v) :
    aget st.byType t = some v ∨ v ∈ W := by
  induction W generalizing st with
  | nil => exact Or.inl hg
  | cons a rest ih =>
    rcases ih (indexOne st a) hg with hold | hmem
    · rw [indexOne_byType] at hold
      by_cases htc : (st.heap a).type_constructor
      · rw [if_pos htc] at hold
        rcases aget_asetd_values _ _ _ _ _ hold with rfl | h2
        · exact Or.inr (List.mem_cons_self _ _)
        · exact Or.inl h2
      · rw [if_neg htc] at hold
        exact Or.inl hold
    · exact Or.inr (List.mem_cons_of_mem _ hmem)

/-- If some wave member is a type constructor for `t`, the seeded type
index resolves `t` (to something). -/
theorem seed_byType_cover (a : Nat) :
    ∀ (W : List Nat) (st : SState), a ∈ W →
    (st.heap a).type_constructor = true →
    ∃ v, aget (W.foldl indexOne st).byType ((st.heap a).ty) = some v := by
  intro W
  induction W with
  | nil => intro st ha; simp at ha
  | cons x rest ih =>
    intro st ha htc
    have hheap := (indexOne_heap st x).1
    rw [List.foldl_cons]
    rcases List.mem_cons.mp ha with rfl | ha2
    · match hg : aget (indexOne st a).byType ((st.heap a).ty) with
      | some v => exact ⟨v, seed_byType_mono rest (indexOne st a) _ v hg⟩
      | none =>
        exfalso
        rw [indexOne_byType, if_pos htc, aget_asetd_same] at hg
        simp at hg
    · have hmain := ih (indexOne st x) ha2 (by rw [hheap]; exact htc)
      rw [hheap] at hmain
      exact hmain

/-- Unique-constructor exactness: if `a` is the only wave constructor of
its type and the index starts free of that type, seeding maps the type
to `a`. -/
theorem seed_byType_exact (a : Nat) :
    ∀ (W : List Nat) (st : SState), a ∈ W →
    (st.heap a).type_constructor = true →
    (∀ b ∈ W, (st.heap b).ty = (st.heap a).ty →
      (st.heap b).type_constructor = true → b = a) →
    aget st.byType ((st.heap a).ty) = none →
    aget (W.foldl indexOne st).byType ((st.heap a).ty) = some a := by
  intro W
  induction W with
  | nil => intro st ha; simp at ha
  | cons x rest ih =>
    intro st ha htc huniq hfree
    have hheap := (indexOne_heap st x).1
    rw [List.foldl_cons]
    by_cases hxa : x = a
    · subst hxa
      apply seed_byType_mono rest (indexOne st x)
      rw [indexOne_byType, if_pos htc, aget_asetd_same, hfree]
      rfl
    · have ha2 : a ∈ rest := by
        rcases List.mem_cons.mp ha with rfl | h2
        · exact absurd rfl hxa
        · exact h2
      have hmain := ih (indexOne st x) ha2
      rw [hheap] at hmain
      apply hmain htc
      · intro b hb hty htcb
        exact huniq b (List.mem_cons_of_mem _ hb) hty htcb
      · rw [indexOne_byType]
        by_cases htcx : (st.heap x).type_constructor
        · rw [if_pos htcx]
          by_cases hty : (st.heap a).ty = (st.heap x).ty
          · exact absurd (huniq x (List.mem_cons_self _ _) hty.symm
              (by simpa using htcx)) hxa
          · rw [aget_asetd_other _ _ _ _ hty]
            exact hfree
        · rw [if_neg htcx]
          exact hfree

/-! ## Flatten (cycle check) lemmas -/

theorem countP_mono {α : Type} (p q : α → Bool)
    (himp : ∀ x, p x = true → q x = true) :
    ∀ l : List α, l.countP p ≤ l.countP q := by
  intro l
  induction l with
  | nil => simp
  | cons x rest ih =>
    rw [List.countP_cons, List.countP_cons]
    have : (if p x = true then 1 else 0) ≤ (if q x = true then 1 else 0) := by
      by_cases hpx : p x = true
      · rw [if_pos hpx, if_pos (himp x hpx)]
      · rw [if_neg hpx]
        omega
    omega

theorem countP_strict {α : Type} (p q : α → Bool)
    (himp : ∀ x, p x = true → q x = true) :
    ∀ (l : List α) (d : α), d ∈ l → q d = true → p d = false →
      l.countP p < l.countP q := by
  intro l
  induction l with
  | nil => intro d hd; simp at hd
  | cons x rest ih =>
    intro d hd hq hp
    rcases List.mem_cons.mp hd with rfl | hd2
    · rw [List.countP_cons, List.countP_cons, hq, hp]
      have hle := countP_mono p q himp rest
      norm_num
      omega
    · rw [List.countP_cons, List.countP_cons]
      have hlt := ih d hd2 hq hp
      have : (if p x = true then 1 else 0) ≤ (if q x = true then 1 else 0) := by
        by_cases hpx : p x = true
        · rw [if_pos hpx, if_pos (himp x hpx)]
        · rw [if_neg hpx]
          omega
      omega

theorem flattenFold_nil (h : Heap) (f : Nat) (visited acc : List Nat)
    (cache : FCache) :
    flattenFold h f [] visited acc cache = (none, acc, cache) := rfl

theorem flattenFold_cons (h : Heap) (f : Nat) (d : Nat) (rest : List Nat)
    (visited acc : List Nat) (cache : FCache) :
    flattenFold h f (d :: rest) visited acc cache =
      (match flatten h f d visited cache with
       | (some e, r, cache2) => (some e, r, cache2)
       | (none, r, cache2) =>
         flattenFold h f rest visited (uunion acc r) cache2) := rfl

theorem flatten_zero (h : Heap) (a : Nat) (visited : List Nat)
    (cache : FCache) :
    flatten h 0 a visited cache = (some Err.fuelErr, [], cache) := rfl

theorem flatten_succ (h : Heap) (f : Nat) (a : Nat) (visited : List Nat)
    (cache : FCache) :
    flatten h (f + 1) a visited cache =
      (match fcGet cache (h a).uuid with
       | some r => (none, r, cache)
       | none =>
         if (h a).uuid ∈ visited then (some Err.loopErr, [], cache)
         else
           match flattenFold h f (h a).rdeps (visited ++ [(h a).uuid])
               (visited ++ [(h a).uuid]) cache with
           | (some e, r, cache2) => (some e, r, cache2)
           | (none, r, cache2) => (none, r, ((h a).uuid, r) :: cache2)) := rfl

/-- The only exceptions `flatten_dependency` can raise are the loop
`SolveError` (and, in the model, fuel exhaustion). -/
theorem flatten_errs (h : Heap) : ∀ f : Nat,
    (∀ a visited cache e, (flatten h f a visited cache).1 = some e →
      e = Err.fuelErr ∨ e = Err.loopErr) ∧
    (∀ ds visited acc cache e,
      (flattenFold h f ds visited acc cache).1 = some e →
      e = Err.fuelErr ∨ e = Err.loopErr) := by
  intro f
  induction f with
  | zero =>
    have hA : ∀ a visited cache e,
        (flatten h 0 a visited cache).1 = some e →
        e = Err.fuelErr ∨ e = Err.loopErr := by
      intro a visited cache e he
      rw [flatten_zero] at he
      simp only at he
      injection he with he2
      exact Or.inl he2.symm
    refine ⟨hA, ?_⟩
    intro ds
    induction ds with
    | nil =>
      intro visited acc cache e he
      rw [flattenFold_nil] at he
      simp at he
    | cons d rest ihd =>
      intro visited acc cache e he
      rw [flattenFold_cons] at he
      match hfl : flatten h 0 d visited cache with
      | (some e2, r, cache2) =>
        rw [hfl] at he
        simp only at he
        injection he with he3
        subst he3
        exact hA d visited cache _ (by rw [hfl])
      | (none, r, cache2) =>
        rw [hfl] at he
        simp only at he
        exact ihd _ _ _ _ he
  | succ f ihf =>
    have hA : ∀ a visited cache e,
        (flatten h (f + 1) a visited cache).1 = some e →
        e = Err.fuelErr ∨ e = Err.loopErr := by
      intro a visited cache e he
      rw [flatten_succ] at he
      match hc : fcGet cache (h a).uuid with
      | some r =>
        rw [hc] at he
        simp at he
      | none =>
        rw [hc] at he
        by_cases hv : (h a).uuid ∈ visited
        · rw [if_pos hv] at he
          simp only at he
          injection he with h1
          exact Or.inr h1.symm
        · rw [if_neg hv] at he
          simp only at he
          match hff : flattenFold h f (h a).rdeps (visited ++ [(h a).uuid])
              (visited ++ [(h a).uuid]) cache with
          | (some e2, r, c2) =>
            rw [hff] at he
            simp only at he
            injection he with h1
            subst h1
            exact ihf.2 _ _ _ _ _ (by rw [hff])
          | (none, r, c2) =>
            rw [hff] at he
            simp at he
    refine ⟨hA, ?_⟩
    intro ds
    induction ds with
    | nil =>
      intro visited acc cache e he
      rw [flattenFold_nil] at he
      simp at he
    | cons d rest ihd =>
      intro visited acc cache e he
      rw [flattenFold_cons] at he
      match hfl : flatten h (f + 1) d visited cache with
      | (some e2, r, cache2) =>
        rw [hfl] at he
        simp only at he
        injection he with he3
        subst he3
        exact hA d visited cache _ (by rw [hfl])
      | (none, r, cache2) =>
        rw [hfl] at he
        simp only at he
        exact ihd _ _ _ _ he

theorem countP_le_len {α : Type} (p : α → Bool) :
    ∀ l : List α, l.countP p ≤ l.length := by
  intro l
  induction l with
  | nil => simp
  | cons x rest ih =>
    rw [List.countP_cons]
    simp only [List.length_cons]
    by_cases hx : p x = true
    · rw [if_pos hx]; omega
    · rw [if_neg hx]; omega

/-- With fuel exceeding the number of wave nodes not yet on the path,
`flatten` never exhausts its fuel (mirrors the termination of the
Python recursion, whose depth is bounded by the set of distinct ids). -/
theorem flatten_no_fuel (h : Heap) (W : List Nat)
    (hcl : ∀ a ∈ W, ∀ d ∈ (h a).rdeps, d ∈ W) : ∀ f : Nat,
    (∀ a visited cache, a ∈ W →
      W.countP (fun b => decide ((h b).uuid ∉ visited)) < f →
      (flatten h f a visited cache).1 ≠ some Err.fuelErr) ∧
    (∀ ds visited acc cache, (∀ d ∈ ds, d ∈ W) →
      W.countP (fun b => decide ((h b).uuid ∉ visited)) < f →
      (flattenFold h f ds visited acc cache).1 ≠ some Err.fuelErr) := by
  intro f
  induction f with
  | zero =>
    constructor
    · intro a visited cache _ hcnt
      omega
    · intro ds visited acc cache _ hcnt
      omega
  | succ f ihf =>
    have hA : ∀ a visited cache, a ∈ W →
        W.countP (fun b => decide ((h b).uuid ∉ visited)) < f + 1 →
        (flatten h (f + 1) a visited cache).1 ≠ some Err.fuelErr := by
      intro a visited cache ha hcnt he
      rw [flatten_succ] at he
      match hc : fcGet cache (h a).uuid with
      | some r =>
        rw [hc] at he
        simp at he
      | none =>
        rw [hc] at he
        by_cases hv : (h a).uuid ∈ visited
        · rw [if_pos hv] at he
          simp at he
        · rw [if_neg hv] at he
          simp only at he
          match hff : flattenFold h f (h a).rdeps (visited ++ [(h a).uuid])
              (visited ++ [(h a).uuid]) cache with
          | (some e2, r, c2) =>
            rw [hff] at he
            simp only at he
            injection he with h1
            have hdrop : W.countP
                (fun b => decide ((h b).uuid ∉ visited ++ [(h a).uuid])) <
                W.countP (fun b => decide ((h b).uuid ∉ visited)) := by
              apply countP_strict _ _ ?_ W a ha
              · simp [hv]
              · simp
              · intro x hx
                simp only [decide_eq_true_eq] at hx ⊢
                intro hmem
                exact hx (List.mem_append.mpr (Or.inl hmem))
            exact ihf.2 (h a).rdeps (visited ++ [(h a).uuid])
              (visited ++ [(h a).uuid]) cache (hcl a ha) (by omega)
              (by rw [hff]; exact congrArg some h1)
          | (none, r, c2) =>
            rw [hff] at he
            simp at he
    refine ⟨hA, ?_⟩
    intro ds
    induction ds with
    | nil =>
      intro visited acc cache _ _ he
      rw [flattenFold_nil] at he
      simp at he
    | cons d rest ihd =>
      intro visited acc cache hds hcnt he
      rw [flattenFold_cons] at he
      match hfl : flatten h (f + 1) d visited cache with
      | (some e2, r, cache2) =>
        rw [hfl] at he
        simp only at he
        injection he with he3
        exact hA d visited cache (hds d (List.mem_cons_self _ _)) hcnt
          (by rw [hfl, ← he3])
      | (none, r, cache2) =>
        rw [hfl] at he
        simp only at he
        exact ihd _ _ _ (fun x hx => hds x (List.mem_cons_of_mem _ hx)) hcnt he


/-- On a ranked (acyclic) wave, `flatten` succeeds: the path-visited
check never fires because every ancestor has strictly greater rank. -/
theorem flatten_rank_ok (h : Heap) (W : List Nat) (rank : Nat → Nat)
    (hcl : ∀ a ∈ W, ∀ d ∈ (h a).rdeps, d ∈ W ∧ rank d < rank a)
    (hinj : ∀ a b, a ∈ W → b ∈ W → (h a).uuid = (h b).uuid → a = b) :
    ∀ f : Nat,
    (∀ a visited cache, a ∈ W → rank a < f →
      (∀ u ∈ visited, ∃ b, b ∈ W ∧ (h b).uuid = u ∧ rank a < rank b) →
      (flatten h f a visited cache).1 = none) ∧
    (∀ ds visited acc cache,
      (∀ d ∈ ds, d ∈ W ∧ rank d < f ∧
        (∀ u ∈ visited, ∃ b, b ∈ W ∧ (h b).uuid = u ∧ rank d < rank b)) →
      (flattenFold h f ds visited acc cache).1 = none) := by
  intro f
  induction f with
  | zero =>
    constructor
    · intro a visited cache _ hf
      omega
    · intro ds visited acc cache hds
      match ds with
      | [] => rw [flattenFold_nil]
      | d :: rest =>
        have := (hds d (List.mem_cons_self _ _)).2.1
        omega
  | succ f ihf =>
    have hA : ∀ a visited cache, a ∈ W → rank a < f + 1 →
        (∀ u ∈ visited, ∃ b, b ∈ W ∧ (h b).uuid = u ∧ rank a < rank b) →
        (flatten h (f + 1) a visited cache).1 = none := by
      intro a visited cache ha hf hvis
      rw [flatten_succ]
      match hc : fcGet cache (h a).uuid with
      | some r => rfl
      | none =>
        by_cases hv : (h a).uuid ∈ visited
        · exfalso
          obtain ⟨b, hbW, hbu, hbr⟩ := hvis _ hv
          have hba : b = a := hinj b a hbW ha hbu
          subst hba
          omega
        · rw [if_neg hv]
          simp only
          have hfold := ihf.2 (h a).rdeps (visited ++ [(h a).uuid])
            (visited ++ [(h a).uuid]) cache
            (by
              intro d hd
              obtain ⟨hdW, hdr⟩ := hcl a ha d hd
              refine ⟨hdW, by omega, ?_⟩
              intro u hu
              rcases List.mem_append.mp hu with hu1 | hu2
              · obtain ⟨b, hbW, hbu, hbr⟩ := hvis u hu1
                exact ⟨b, hbW, hbu, by omega⟩
              · simp at hu2
                exact ⟨a, ha, hu2.symm, hdr⟩)
          match hff : flattenFold h f (h a).rdeps (visited ++ [(h a).uuid])
              (visited ++ [(h a).uuid]) cache with
          | (some e2, r, c2) =>
            rw [hff] at hfold
            simp at hfold
          | (none, r, c2) => rfl
    refine ⟨hA, ?_⟩
    intro ds
    induction ds with
    | nil =>
      intro visited acc cache _
      rw [flattenFold_nil]
    | cons d rest ihd =>
      intro visited acc cache hds
      rw [flattenFold_cons]
      obtain ⟨hdW, hdf, hdvis⟩ := hds d (List.mem_cons_self _ _)
      have hone := hA d visited cache hdW hdf hdvis
      match hfl : flatten h (f + 1) d visited cache with
      | (some e2, r, cache2) =>
        rw [hfl] at hone
        simp at hone
      | (none, r, cache2) =>
        exact ihd _ _ _ (fun x hx => hds x (List.mem_cons_of_mem _ hx))


/-- The whole cycle-check pass succeeds on a ranked (acyclic) wave. -/
theorem flattenAll_rank_ok (h : Heap) (W : List Nat) (rank : Nat → Nat)
    (hcl : ∀ a ∈ W, ∀ d ∈ (h a).rdeps, d ∈ W ∧ rank d < rank a)
    (hinj : ∀ a b, a ∈ W → b ∈ W → (h a).uuid = (h b).uuid → a = b) :
    ∀ ds cache, (∀ a ∈ ds, a ∈ W) → flattenAll h ds W cache = none := by
  have hcl2 : ∀ a ∈ W, ∀ d ∈ (h a).rdeps,
      d ∈ W ∧ W.countP (fun b => decide (rank b < rank d)) <
        W.countP (fun b => decide (rank b < rank a)) := by
    intro a ha d hd
    obtain ⟨hdW, hdr⟩ := hcl a ha d hd
    refine ⟨hdW, ?_⟩
    apply countP_strict _ _ ?_ W d hdW
    · simp [hdr]
    · simp
    · intro x hx
      simp only [decide_eq_true_eq] at hx ⊢
      omega
  have hok := flatten_rank_ok h W
    (fun a => W.countP (fun b => decide (rank b < rank a))) hcl2 hinj
    (W.length + 1)
  intro ds
  induction ds with
  | nil => intro cache _; rfl
  | cons a rest ih =>
    intro cache hds
    unfold flattenAll
    have hbound : W.countP (fun b => decide (rank b < rank a)) < W.length + 1 := by
      have := countP_le_len (fun b => decide (rank b < rank a)) W
      omega
    have hone := hok.1 a [] cache (hds a (List.mem_cons_self _ _)) hbound
      (by intro u hu; simp at hu)
    match hfl : flatten h (W.length + 1) a [] cache with
    | (some e2, r, cache2) =>
      rw [hfl] at hone
      simp at hone
    | (none, r, cache2) =>
      exact ih _ (fun x hx => hds x (List.mem_cons_of_mem _ hx))

/-- Any error out of the cycle-check pass is a loop error or fuel
exhaustion. -/
theorem flattenAll_errs (h : Heap) (full : List Nat) :
    ∀ ds cache e, flattenAll h ds full cache = some e →
      e = Err.fuelErr ∨ e = Err.loopErr := by
  intro ds
  induction ds with
  | nil => intro cache e he; simp [flattenAll] at he
  | cons a rest ih =>
    intro cache e he
    unfold flattenAll at he
    match hfl : flatten h (full.length + 1) a [] cache with
    | (some e2, r, cache2) =>
      rw [hfl] at he
      simp only at he
      injection he with he2
      subst he2
      exact (flatten_errs h (full.length + 1)).1 a [] cache _ (by rw [hfl])
    | (none, r, cache2) =>
      rw [hfl] at he
      simp only at he
      exact ih _ _ he

/-- The cycle-check pass never exhausts fuel on a closed wave. -/
theorem flattenAll_no_fuel (h : Heap) (W : List Nat)
    (hcl : ∀ a ∈ W, ∀ d ∈ (h a).rdeps, d ∈ W) :
    ∀ ds cache, (∀ a ∈ ds, a ∈ W) →
      flattenAll h ds W cache ≠ some Err.fuelErr := by
  intro ds
  induction ds with
  | nil => intro cache _ he; simp [flattenAll] at he
  | cons a rest ih =>
    intro cache hds he
    unfold flattenAll at he
    have hbound : W.countP (fun b => decide ((h b).uuid ∉ ([] : List Nat))) <
        W.length + 1 := by
      have := countP_le_len (fun b => decide ((h b).uuid ∉ ([] : List Nat))) W
      omega
    match hfl : flatten h (W.length + 1) a [] cache with
    | (some e2, r, cache2) =>
      rw [hfl] at he
      simp only at he
      injection he with he2
      subst he2
      exact (flatten_no_fuel h W hcl (W.length + 1)).1 a [] cache
        (hds a (List.mem_cons_self _ _)) hbound (by rw [hfl])
    | (none, r, cache2) =>
      rw [hfl] at he
      simp only at he
      exact ih _ (fun x hx => hds x (List.mem_cons_of_mem _ hx)) he


/-! ## Cycle detection soundness (claim C2) -/

/-- One resolved-predecessor edge: `q` is among `p`'s `_dependencies`. -/
def StepRel (h : Heap) (p q : Nat) : Prop := q ∈ (h p).rdeps

/-- A node that depends on itself, directly or transitively, through
resolved predecessors. -/
def onCycle (h : Heap) (x : Nat) : Prop := Relation.TransGen (StepRel h) x x

/-- No node reachable from `x` lies on a cycle. -/
def goodFrom (h : Heap) (x : Nat) : Prop :=
  ∀ y, Relation.ReflTransGen (StepRel h) x y → ¬ onCycle h y

/-- The loop-check memo only caches fully explored, cycle-free nodes. -/
def cacheGood (h : Heap) (W : List Nat) (cache : FCache) : Prop :=
  ∀ u r, fcGet cache u = some r → ∀ x, x ∈ W → (h x).uuid = u → goodFrom h x

theorem goodFrom_of_deps (h : Heap) (a : Nat)
    (hd : ∀ d ∈ (h a).rdeps, goodFrom h d) : goodFrom h a := by
  have hnc : ¬ onCycle h a := by
    intro honc
    obtain ⟨d, hstep, hrtg⟩ := Relation.TransGen.head'_iff.mp honc
    exact hd d hstep a hrtg honc
  intro y hy honcy
  rcases Relation.ReflTransGen.cases_head hy with rfl | ⟨d, hstep, hrtg⟩
  · exact hnc honcy
  · exact hd d hstep y hrtg honcy


/-- Soundness of a successful flatten: every explored node is
cycle-free, and the memo invariant is preserved. -/
theorem flatten_sound (h : Heap) (W : List Nat)
    (hcl : ∀ a ∈ W, ∀ d ∈ (h a).rdeps, d ∈ W)
    (hinj : ∀ a b, a ∈ W → b ∈ W → (h a).uuid = (h b).uuid → a = b) :
    ∀ f : Nat,
    (∀ a visited cache, a ∈ W → cacheGood h W cache →
      (flatten h f a visited cache).1 = none →
      goodFrom h a ∧ cacheGood h W (flatten h f a visited cache).2.2) ∧
    (∀ ds visited acc cache, (∀ d ∈ ds, d ∈ W) → cacheGood h W cache →
      (flattenFold h f ds visited acc cache).1 = none →
      (∀ d ∈ ds, goodFrom h d) ∧
      cacheGood h W (flattenFold h f ds visited acc cache).2.2) := by
  intro f
  induction f with
  | zero =>
    constructor
    · intro a visited cache _ _ hnone
      rw [flatten_zero] at hnone
      simp at hnone
    · intro ds visited acc cache hds hcg hnone
      match ds with
      | [] =>
        rw [flattenFold_nil]
        exact ⟨fun d hd => absurd hd (by simp), hcg⟩
      | d :: rest =>
        exfalso
        rw [flattenFold_cons] at hnone
        match hfl : flatten h 0 d visited cache with
        | (some e2, r, c2) => rw [hfl] at hnone; simp at hnone
        | (none, r, c2) =>
          rw [flatten_zero] at hfl
          simp at hfl
  | succ f ihf =>
    have hA : ∀ a visited cache, a ∈ W → cacheGood h W cache →
        (flatten h (f + 1) a visited cache).1 = none →
        goodFrom h a ∧ cacheGood h W (flatten h (f + 1) a visited cache).2.2 := by
      intro a visited cache ha hcg hnone
      rw [flatten_succ] at hnone ⊢
      match hc : fcGet cache (h a).uuid with
      | some r =>
        exact ⟨hcg _ r hc a ha rfl, hcg⟩
      | none =>
        rw [hc] at hnone
        by_cases hv : (h a).uuid ∈ visited
        · rw [if_pos hv] at hnone
          simp at hnone
        · rw [if_neg hv] at hnone ⊢
          simp only at hnone ⊢
          match hff : flattenFold h f (h a).rdeps (visited ++ [(h a).uuid])
              (visited ++ [(h a).uuid]) cache with
          | (some e2, r, c2) =>
            rw [hff] at hnone
            simp at hnone
          | (none, r, c2) =>
            have hsub := ihf.2 (h a).rdeps (visited ++ [(h a).uuid])
              (visited ++ [(h a).uuid]) cache (hcl a ha) hcg (by rw [hff])
            rw [hff] at hsub
            obtain ⟨hdeps, hcg2⟩ := hsub
            have hga : goodFrom h a := goodFrom_of_deps h a hdeps
            refine ⟨hga, ?_⟩
            intro u r2 hget x hxW hxu
            unfold fcGet at hget
            by_cases hu : (h a).uuid = u
            · subst hu
              exact (hinj x a hxW ha hxu) ▸ hga
            · rw [if_neg hu] at hget
              exact hcg2 u r2 hget x hxW hxu
    refine ⟨hA, ?_⟩
    intro ds
    induction ds with
    | nil =>
      intro visited acc cache _ hcg _
      rw [flattenFold_nil]
      exact ⟨fun d hd => absurd hd (by simp), hcg⟩
    | cons d rest ihd =>
      intro visited acc cache hds hcg hnone
      rw [flattenFold_cons] at hnone ⊢
      match hfl : flatten h (f + 1) d visited cache with
      | (some e2, r, cache2) =>
        rw [hfl] at hnone
        simp at hnone
      | (none, r, cache2) =>
        rw [hfl] at hnone
        simp only at hnone ⊢
        have hone := hA d visited cache (hds d (List.mem_cons_self _ _)) hcg
          (by rw [hfl])
        rw [hfl] at hone
        obtain ⟨hgd, hcg2⟩ := hone
        have hrest := ihd _ _ _
          (fun x hx => hds x (List.mem_cons_of_mem _ hx)) hcg2 hnone
        refine ⟨?_, hrest.2⟩
        intro x hx
        rcases List.mem_cons.mp hx with rfl | hx2
        · exact hgd
        · exact hrest.1 x hx2

/-- A wave containing a node on a cycle makes the cycle-check pass
fail. -/
theorem flattenAll_cycle (h : Heap) (W : List Nat)
    (hcl : ∀ a ∈ W, ∀ d ∈ (h a).rdeps, d ∈ W)
    (hinj : ∀ a b, a ∈ W → b ∈ W → (h a).uuid = (h b).uuid → a = b)
    (x : Nat) (honc : onCycle h x) :
    ∀ ds cache, (∀ a ∈ ds, a ∈ W) → x ∈ ds → cacheGood h W cache →
      flattenAll h ds W cache ≠ none := by
  intro ds
  induction ds with
  | nil => intro cache _ hx; simp at hx
  | cons a rest ih =>
    intro cache hds hx hcg hnone
    unfold flattenAll at hnone
    match hfl : flatten h (W.length + 1) a [] cache with
    | (some e2, r, cache2) =>
      rw [hfl] at hnone
      simp at hnone
    | (none, r, cache2) =>
      rw [hfl] at hnone
      simp only at hnone
      have hone := (flatten_sound h W hcl hinj (W.length + 1)).1 a [] cache
        (hds a (List.mem_cons_self _ _)) hcg (by rw [hfl])
      rw [hfl] at hone
      obtain ⟨hga, hcg2⟩ := hone
      rcases List.mem_cons.mp hx with rfl | hx2
      · exact hga x Relation.ReflTransGen.refl honc
      · exact ih cache2 (fun b hb => hds b (List.mem_cons_of_mem _ hb)) hx2
          hcg2 hnone

/-- On a closed wave with a cyclic node, the cycle check reports
exactly the self-reference/loop `SolveError`. -/
theorem flattenAll_loopErr (h : Heap) (W : List Nat)
    (hcl : ∀ a ∈ W, ∀ d ∈ (h a).rdeps, d ∈ W)
    (hinj : ∀ a b, a ∈ W → b ∈ W → (h a).uuid = (h b).uuid → a = b)
    (x : Nat) (honc : onCycle h x) (hx : x ∈ W) :
    flattenAll h W W [] = some Err.loopErr := by
  match he : flattenAll h W W [] with
  | none =>
    exact absurd he (flattenAll_cycle h W hcl hinj x honc W []
      (fun a ha => ha) hx (fun u r hg => by simp [fcGet] at hg))
  | some e =>
    rcases flattenAll_errs h W W [] e he with rfl | rfl
    · exact absurd he (flattenAll_no_fuel h W hcl W [] (fun a ha => ha))
    · rfl


/-! ## Wave execution lemmas -/

/-- The completed form of a wave node: `Dependency.run` caches the
callback value, snapshots predecessor results, moves to `done`, fires
the event. -/
def runDone (h2 : Heap) (a : Nat) : Node :=
  { h2 a with
    state := NState.done
    eventSet := true
    inputs := some ((h2 a).rdeps.map fun d => some ((h2 d).cbVal))
    result := some ((h2 a).cbVal)
    runCount := (h2 a).runCount + 1 }

theorem exists_min_rank (rank : Nat → Nat) :
    ∀ l : List Nat, l ≠ [] → ∃ a ∈ l, ∀ b ∈ l, rank a ≤ rank b := by
  intro l
  induction l with
  | nil => intro hne; exact absurd rfl hne
  | cons x rest ih =>
    intro _
    match rest with
    | [] =>
      exact ⟨x, List.mem_cons_self _ _, by
        intro b hb
        rcases List.mem_cons.mp hb with rfl | hb2
        · exact le_refl _
        · simp at hb2⟩
    | y :: rest2 =>
      obtain ⟨a, ha, hmin⟩ := ih (by simp)
      by_cases hc : rank x ≤ rank a
      · refine ⟨x, List.mem_cons_self _ _, ?_⟩
        intro b hb
        rcases List.mem_cons.mp hb with rfl | hb2
        · exact le_refl _
        · exact le_trans hc (hmin b hb2)
      · refine ⟨a, List.mem_cons_of_mem _ ha, ?_⟩
        intro b hb
        rcases List.mem_cons.mp hb with rfl | hb2
        · omega
        · exact hmin b hb2

/-- The wave scheduler completes every wave node on a ranked wave of
linked nodes, each exactly once, yielding the closed `runDone` form. -/
theorem runWaveGo_ok (h2 : Heap) (ds : List Nat) (rank : Nat → Nat)
    (hstart : ∀ a ∈ ds, (h2 a).state = .linked ∧ (h2 a).eventSet = false)
    (hcl : ∀ a ∈ ds, ∀ d ∈ (h2 a).rdeps, d ∈ ds ∧ rank d < rank a) :
    ∀ (f : Nat) (hh : Heap),
    (∀ a ∈ ds, hh a = h2 a ∨ hh a = runDone h2 a) →
    (∀ b, b ∉ ds → hh b = h2 b) →
    ds.countP (fun a => !(decide (hh a = runDone h2 a))) ≤ f →
    (runWaveGo f hh ds).2 = none ∧
    (∀ x, x ∈ ds → (runWaveGo f hh ds).1 x = runDone h2 x) ∧
    (∀ x, x ∉ ds → (runWaveGo f hh ds).1 x = hh x) := by
  intro f
  induction f with
  | zero =>
    intro hh hinv houtside hcnt
    have halldone : ∀ a ∈ ds, hh a = runDone h2 a := by
      intro a ha
      by_contra hnd
      have : 0 < ds.countP (fun a => !(decide (hh a = runDone h2 a))) :=
        List.countP_pos_iff.mpr ⟨a, ha, by simp [hnd]⟩
      omega
    have hall : ds.all (fun a => (hh a).state = NState.done) = true := by
      rw [List.all_eq_true]
      intro a ha
      rw [halldone a ha]
      simp [runDone]
    unfold runWaveGo
    rw [if_pos hall]
    exact ⟨rfl, fun x hx => halldone x hx, fun x _ => rfl⟩
  | succ f ih =>
    intro hh hinv houtside hcnt
    by_cases hall : ds.all (fun a => (hh a).state = NState.done) = true
    · have halldone : ∀ a ∈ ds, hh a = runDone h2 a := by
        intro a ha
        rcases hinv a ha with hp | hd
        · exfalso
          have := List.all_eq_true.mp hall a ha
          rw [hp] at this
          rw [(hstart a ha).1] at this
          simp at this
        · exact hd
      unfold runWaveGo
      rw [if_pos hall]
      exact ⟨rfl, fun x hx => halldone x hx, fun x _ => rfl⟩
    · -- some node is still pristine: find a runnable one
      have hex : ∃ a ∈ ds, hh a = h2 a := by
        rw [List.all_eq_true] at hall
        push_neg at hall
        obtain ⟨a, ha, hnd⟩ := hall
        rcases hinv a ha with hp | hd
        · exact ⟨a, ha, hp⟩
        · exfalso
          rw [hd] at hnd
          simp [runDone] at hnd
      -- the pristine sublist and its minimal-rank element
      have hSne : ds.filter (fun a => decide (hh a = h2 a)) ≠ [] := by
        obtain ⟨a, ha, hp⟩ := hex
        intro hSnil
        have : a ∈ ds.filter (fun a => decide (hh a = h2 a)) :=
          List.mem_filter.mpr ⟨ha, by simp [hp]⟩
        rw [hSnil] at this
        simp at this
      obtain ⟨m, hmS, hmmin⟩ := exists_min_rank rank _ hSne
      have hmds := (List.mem_filter.mp hmS).1
      have hmp : hh m = h2 m := by
        have := (List.mem_filter.mp hmS).2
        simpa using this
      have hmrun : runnable hh m = true := by
        unfold runnable
        rw [hmp]
        simp only [Bool.decide_and, Bool.and_eq_true, decide_eq_true_eq]
        refine ⟨(hstart m hmds).1, ?_⟩
        rw [List.all_eq_true]
        intro d hd
        obtain ⟨hdds, hdr⟩ := hcl m hmds d hd
        have hdone : hh d = runDone h2 d := by
          rcases hinv d hdds with hp | hdn
          · exfalso
            have hdS : d ∈ ds.filter (fun a => decide (hh a = h2 a)) :=
              List.mem_filter.mpr ⟨hdds, by simp [hp]⟩
            have := hmmin d hdS
            omega
          · exact hdn
        rw [hdone]
        simp [runDone]
      have hfind : ∃ a0, ds.find? (runnable hh) = some a0 := by
        have : (ds.find? (runnable hh)).isSome = true :=
          List.find?_isSome.mpr ⟨m, hmds, hmrun⟩
        match hf : ds.find? (runnable hh) with
        | some a0 => exact ⟨a0, rfl⟩
        | none => rw [hf] at this; simp at this
      obtain ⟨a0, hfa0⟩ := hfind
      have ha0ds := List.mem_of_find?_eq_some hfa0
      have ha0run := List.find?_some hfa0
      -- the found node is pristine with all predecessors done
      have ha0p : hh a0 = h2 a0 := by
        rcases hinv a0 ha0ds with hp | hd
        · exact hp
        · exfalso
          unfold runnable at ha0run
          simp only [Bool.decide_and, Bool.and_eq_true, decide_eq_true_eq] at ha0run
          rw [hd] at ha0run
          simp [runDone] at ha0run
      have ha0deps : ∀ d ∈ (h2 a0).rdeps, hh d = runDone h2 d := by
        intro d hd
        obtain ⟨hdds, _⟩ := hcl a0 ha0ds d hd
        rcases hinv d hdds with hp | hdn
        · exfalso
          unfold runnable at ha0run
          simp only [Bool.decide_and, Bool.and_eq_true, decide_eq_true_eq] at ha0run
          have := (List.all_eq_true.mp ha0run.2) d (by rw [ha0p] at ha0run ⊢; exact hd)
          rw [hp] at this
          rw [(hstart d hdds).2] at this
          simp at this
        · exact hdn
      -- running it yields its completed form
      have hrun : runNode hh a0 a0 = runDone h2 a0 := by
        unfold runNode
        rw [hset_self, ha0p]
        unfold runDone
        have hin : ((h2 a0).rdeps.map fun d => (hh d).result) =
            ((h2 a0).rdeps.map fun d => some ((h2 d).cbVal)) := by
          apply List.map_congr_left
          intro d hd
          rw [ha0deps d hd]
          simp [runDone]
        rw [hin]
      have hstep : runWaveGo (f + 1) hh ds = runWaveGo f (runNode hh a0) ds := by
        conv_lhs => unfold runWaveGo
        rw [if_neg hall, hfa0]
      rw [hstep]
      have hinv2 : ∀ a ∈ ds, runNode hh a0 a = h2 a ∨ runNode hh a0 a = runDone h2 a := by
        intro a ha
        by_cases haa : a = a0
        · subst haa
          exact Or.inr hrun
        · unfold runNode
          rw [hset_other _ _ _ _ haa]
          exact hinv a ha
      have hout2 : ∀ b, b ∉ ds → runNode hh a0 b = h2 b := by
        intro b hb
        have hbna : b ≠ a0 := fun hba => hb (hba ▸ ha0ds)
        unfold runNode
        rw [hset_other _ _ _ _ hbna]
        exact houtside b hb
      have hcnt2 : ds.countP
          (fun a => !(decide (runNode hh a0 a = runDone h2 a))) ≤ f := by
        have hdec : ds.countP
            (fun a => !(decide (runNode hh a0 a = runDone h2 a))) <
            ds.countP (fun a => !(decide (hh a = runDone h2 a))) := by
          apply countP_strict _ _ ?_ ds a0 ha0ds
          · rw [ha0p]
            have hne : ¬ (h2 a0 = runDone h2 a0) := by
              intro hcontra
              have h1 : (h2 a0).state = NState.done := by
                rw [hcontra]; simp [runDone]
              rw [(hstart a0 ha0ds).1] at h1
              simp at h1
            simp [hne]
          · rw [hrun]
            simp
          · intro x hx
            by_cases hxa : x = a0
            · subst hxa
              rw [hrun] at hx
              simp at hx
            · unfold runNode at hx
              rw [hset_other _ _ _ _ hxa] at hx
              exact hx
        omega
      obtain ⟨r1, r2, r3⟩ := ih (runNode hh a0) hinv2 hout2 hcnt2
      refine ⟨r1, r2, ?_⟩
      intro x hx
      rw [r3 x hx]
      have hxna : x ≠ a0 := fun hxa => hx (hxa ▸ ha0ds)
      unfold runNode
      rw [hset_other _ _ _ _ hxna]


theorem runWave_ok (h2 : Heap) (ds : List Nat) (rank : Nat → Nat)
    (hstart : ∀ a ∈ ds, (h2 a).state = .linked ∧ (h2 a).eventSet = false)
    (hcl : ∀ a ∈ ds, ∀ d ∈ (h2 a).rdeps, d ∈ ds ∧ rank d < rank a) :
    (runWave h2 ds).2 = none ∧
    (∀ x, x ∈ ds → (runWave h2 ds).1 x = runDone h2 x) ∧
    (∀ x, x ∉ ds → (runWave h2 ds).1 x = h2 x) := by
  unfold runWave
  exact runWaveGo_ok h2 ds rank hstart hcl ds.length h2
    (fun a _ => Or.inl rfl) (fun _ _ => rfl)
    (le_trans (countP_mono _ (fun _ => true) (fun x _ => rfl) ds)
      (by rw [List.countP_true]))

/-- The heap after the first collection, sort, index and link pass of
`solve` (everything before the cycle check of the first wave). -/
def linkedHeap (h : Heap) (c : Container) : Heap :=
  (indexPhase c (initS h c) (sortByPrio h (c.all h []))).1.heap

/-- Uuid-distinctness of a list gives uuid-injectivity on its members. -/
theorem pairwise_uuid_inj (h : Heap) (l : List Nat)
    (hp : l.Pairwise (fun a b => (h a).uuid ≠ (h b).uuid)) :
    ∀ a b, a ∈ l → b ∈ l → (h a).uuid = (h b).uuid → a = b := by
  intro a b ha hb he
  by_contra hne
  exact hp.forall (fun x y hxy => Ne.symm hxy) ha hb hne he


/-- One unfolding of the solve loop at positive fuel. -/
theorem solveLoop_succ (c : Container) (f : Nat) (st : SState) :
    solveLoop c (f + 1) st =
      (if (c.all st.heap st.solvedU).isEmpty then (st, none)
       else
         match indexPhase c st (sortByPrio st.heap (c.all st.heap st.solvedU)) with
         | (st2, _, some e) => (st2, some e)
         | (st2, ds2, none) =>
           match flattenAll st2.heap ds2 ds2 [] with
           | some e => (st2, some e)
           | none =>
             match runWave st2.heap ds2 with
             | (h2, some e) => ({ st2 with heap := h2 }, some e)
             | (h2, none) =>
               solveLoop c f
                 { st2 with
                   heap := h2
                   solvedU := st2.solvedU ++ ds2.map fun a => (h2 a).uuid }) := by
  conv_lhs => unfold solveLoop

theorem forall2_mem_right {α β : Type} {R : α → β → Prop} :
    ∀ {l1 : List α} {l2 : List β}, List.Forall₂ R l1 l2 →
      ∀ b ∈ l2, ∃ a ∈ l1, R a b := by
  intro l1 l2 hF
  induction hF with
  | nil => intro b hb; simp at hb
  | cons hR hF2 ih =>
    intro b hb
    rcases List.mem_cons.mp hb with rfl | hb2
    · exact ⟨_, List.mem_cons_self _ _, hR⟩
    · obtain ⟨a, ha, hr⟩ := ih b hb2
      exact ⟨a, List.mem_cons_of_mem _ ha, hr⟩

theorem solveLoop_empty (c : Container) (f : Nat) (st : SState)
    (hne : (c.all st.heap st.solvedU).isEmpty = true) :
    solveLoop c (f + 1) st = (st, none) := by
  rw [solveLoop_succ, hne]
  rfl

theorem solveLoop_step_ok (c : Container) (f : Nat) (st : SState)
    (ds2 : List Nat) (st2 : SState) (h2 : Heap)
    (hne : (c.all st.heap st.solvedU).isEmpty = false)
    (hipx : indexPhase c st (sortByPrio st.heap (c.all st.heap st.solvedU)) =
      (st2, ds2, none))
    (hfl : flattenAll st2.heap ds2 ds2 [] = none)
    (hrw : runWave st2.heap ds2 = (h2, none)) :
    solveLoop c (f + 1) st = solveLoop c f
      { st2 with
        heap := h2
        solvedU := st2.solvedU ++ ds2.map fun a => (h2 a).uuid } := by
  rw [solveLoop_succ, hne]
  simp only [Bool.false_eq_true, if_false, hipx, hfl, hrw]

theorem solveLoop_step_ipErr (c : Container) (f : Nat) (st : SState)
    (w : List Nat) (st2 : SState) (e : Err)
    (hne : (c.all st.heap st.solvedU).isEmpty = false)
    (hipx : indexPhase c st (sortByPrio st.heap (c.all st.heap st.solvedU)) =
      (st2, w, some e)) :
    solveLoop c (f + 1) st = (st2, some e) := by
  rw [solveLoop_succ, hne]
  simp only [Bool.false_eq_true, if_false, hipx]

theorem solveLoop_step_flatErr (c : Container) (f : Nat) (st : SState)
    (ds2 : List Nat) (st2 : SState) (e : Err)
    (hne : (c.all st.heap st.solvedU).isEmpty = false)
    (hipx : indexPhase c st (sortByPrio st.heap (c.all st.heap st.solvedU)) =
      (st2, ds2, none))
    (hfl : flattenAll st2.heap ds2 ds2 [] = some e) :
    solveLoop c (f + 1) st = (st2, some e) := by
  rw [solveLoop_succ, hne]
  simp only [Bool.false_eq_true, if_false, hipx, hfl]

/-- Central success theorem for `solve` on a fresh, plain, linker-free,
replace-free container whose references all resolve and whose linked
graph is ranked (acyclic): the solve returns without error, every
collected node ends in the completed `runDone` form of the linked heap,
and all other objects are untouched. -/
theorem solve_fresh_ok (h : Heap) (c : Container) (rank : Nat → Nat)
    (hfresh : ∀ a ∈ c.all h [], (h a).state = .pending ∧ (h a).kind = .plain ∧
      (h a).eventSet = false ∧ (h a).rdeps = [])
    (hrepl : c.replace = [])
    (hres : ∀ a ∈ c.all h [], ∀ r ∈ (h a).dependencies,
      (∀ u, r = Ref.byId u → ∃ b ∈ c.all h [], (h b).uuid = u) ∧
      (∀ t, r = Ref.byType t → ∃ b ∈ c.all h [], (h b).ty = t ∧
        (h b).type_constructor = true) ∧
      (∀ bb, r = Ref.direct bb → ∃ b ∈ c.all h [], (h b).uuid = (h bb).uuid))
    (hrank : ∀ a ∈ c.all h [], ∀ d ∈ ((linkedHeap h c) a).rdeps,
      rank d < rank a) :
    (solve h c).2 = none ∧
    (∀ a ∈ c.all h [], (solve h c).1.heap a = runDone (linkedHeap h c) a) ∧
    (∀ a ∈ c.all h [], ∃ L, (linkedHeap h c) a =
      { h a with state := NState.linked, rdeps := L } ∧
      ∀ d ∈ L, d ∈ c.all h []) ∧
    (∀ b, b ∉ c.all h [] → (solve h c).1.heap b = h b) := by
  by_cases hW0 : c.all h [] = []
  · have hsolve : solve h c = (initS h c, none) := by
      unfold solve
      rw [solveLoop_succ]
      rw [if_pos (by show (c.all h []).isEmpty = true; rw [hW0]; rfl)]
    rw [hsolve]
    refine ⟨rfl, ?_, ?_, fun b _ => rfl⟩
    · intro a ha; rw [hW0] at ha; simp at ha
    · intro a ha; rw [hW0] at ha; simp at ha
  · set W0 := c.all h [] with hW0def
    set ds := sortByPrio h W0 with hdsdef
    set st1 := ds.foldl indexOne (initS h c) with hst1def
    have hh0 : (initS h c).heap = h := rfl
    have hmemW : ∀ x, x ∈ ds ↔ x ∈ W0 := fun x => sortByPrio_mem h W0 x
    have hpw0 : W0.Pairwise (fun a b => (h a).uuid ≠ (h b).uuid) :=
      Container.all_pairwise h [] c
    have hpw : ds.Pairwise (fun a b => (h a).uuid ≠ (h b).uuid) :=
      sortByPrio_pairwise h W0 hpw0
    have hnd : ds.Nodup := hpw.imp (fun hne heq => hne (by rw [heq]))
    have hinj := pairwise_uuid_inj h ds hpw
    have hseed := seed_heap ds (initS h c)
    have hs1h : st1.heap = h := hseed.1
    have hs1s : st1.solvedU = [] := hseed.2.1
    have hs1r : st1.repl = c.replace := hseed.2.2
    have hbid : ∀ a ∈ ds, aget st1.byId ((h a).uuid) = some a := by
      intro a ha
      have := seed_byId_exact ds (initS h c)
        (by rw [hh0]; exact hpw)
        (fun b _ => by rw [hh0]; rfl)
        a ha
      rw [hh0] at this
      exact this
    -- the type-index invariant
    set TyInv : List (Option Nat × Nat) → Prop := fun m =>
      (∀ t v, aget m t = some v → v ∈ ds) ∧
      (∀ t v, aget st1.byType t = some v → ∃ w, aget m t = some w)
      with hTyDef
    have hTy0 : TyInv st1.byType := by
      constructor
      · intro t v hv
        rcases seed_byType_values ds (initS h c) t v hv with hold | hmem
        · simp [initS, aget] at hold
        · exact hmem
      · intro t v hv
        exact ⟨v, hv⟩
    have hTystep : ∀ m a, TyInv m → a ∈ ds →
        TyInv (aset m ((st1.heap a).ty) a) := by
      intro m a hm ha
      constructor
      · intro t v hv
        rcases aget_aset_values m _ t _ v hv with rfl | hold
        · exact ha
        · exact hm.1 t v hold
      · intro t v hv
        by_cases ht : t = (st1.heap a).ty
        · subst ht
          exact ⟨a, aget_aset_self _ _ _⟩
        · rw [aget_aset_other _ _ _ _ ht]
          exact hm.2 t v hv
    have hRes : ∀ st : SState, st.byId = st1.byId →
        (∀ b, (st.heap b).uuid = (st1.heap b).uuid) → TyInv st.byType →
        ∀ a ∈ ds, ∀ r ∈ (st1.heap a).dependencies,
          ∃ d, resolveRef st r = some d ∧ d ∈ ds := by
      intro st hid hu hTy a ha r hr
      rw [hs1h] at hr
      have hresa := hres a ((hmemW a).mp ha) r hr
      match r with
      | Ref.byId u =>
        obtain ⟨b, hbW, hbu⟩ := hresa.1 u rfl
        have hbds : b ∈ ds := (hmemW b).mpr hbW
        refine ⟨b, ?_, hbds⟩
        show aget st.byId u = some b
        rw [hid, ← hbu]
        exact hbid b hbds
      | Ref.byType t =>
        obtain ⟨b, hbW, hbt, hbtc⟩ := hresa.2.1 t rfl
        have hbds : b ∈ ds := (hmemW b).mpr hbW
        obtain ⟨v, hv⟩ := seed_byType_cover b ds (initS h c) hbds
          (by rw [hh0]; exact hbtc)
        rw [← hst1def] at hv
        rw [hh0, hbt] at hv
        obtain ⟨w, hw⟩ := hTy.2 t v hv
        exact ⟨w, hw, hTy.1 t w hw⟩
      | Ref.direct bb =>
        obtain ⟨b, hbW, hbu⟩ := hresa.2.2 bb rfl
        have hbds : b ∈ ds := (hmemW b).mpr hbW
        refine ⟨b, ?_, hbds⟩
        show aget st.byId ((st.heap bb).uuid) = some b
        rw [hid, hu bb, hs1h, ← hbu]
        exact hbid b hbds
    have hW : ∀ a ∈ ds, (st1.heap a).state = .pending ∧
        (st1.heap a).kind = .plain := by
      intro a ha
      rw [hs1h]
      exact ⟨(hfresh a ((hmemW a).mp ha)).1, (hfresh a ((hmemW a).mp ha)).2.1⟩
    obtain ⟨l1, l2, l3, l4, l5, l6, l7, l8⟩ :=
      linkLoop_master c (fun r d => d ∈ ds) TyInv ds st1 hW hnd hTy0 hTystep hRes
    -- the indexPhase call is exactly this link loop
    have hip : indexPhase c (initS h c) ds = linkLoop c st1 ds := by
      unfold indexPhase
      rw [← hst1def]
      rw [if_pos (by rw [hs1r, hrepl]; rfl)]
    have hlh : linkedHeap h c = (linkLoop c st1 ds).1.heap := by
      unfold linkedHeap
      rw [← hW0def, ← hdsdef, hip]
    -- rdeps of the linked heap, membership and freshness
    have hlha : ∀ a ∈ ds, ∃ L, (linkLoop c st1 ds).1.heap a =
        { h a with state := NState.linked, rdeps := L } ∧ ∀ d ∈ L, d ∈ ds := by
      intro a ha
      obtain ⟨L, hL, hF⟩ := l8 a ha
      refine ⟨L, ?_, ?_⟩
      · rw [hL, hs1h]
        have hrd : (h a).rdeps = [] := (hfresh a ((hmemW a).mp ha)).2.2.2
        rw [hrd]
        rfl
      · intro d hd
        obtain ⟨r, hrmem, hrd⟩ := forall2_mem_right hF d hd
        exact hrd
    set st2 := (linkLoop c st1 ds).1 with hst2def
    have hst2h_out : ∀ b, b ∉ ds → st2.heap b = h b := by
      intro b hb
      rw [hst2def, l7 b hb, hs1h]
    have huuid2 : ∀ x, (st2.heap x).uuid = (h x).uuid := by
      intro x
      by_cases hx : x ∈ ds
      · obtain ⟨L, hL, _⟩ := hlha x hx
        rw [hst2def, hL]
      · rw [hst2h_out x hx]
    have hclW : ∀ a ∈ ds, ∀ d ∈ (st2.heap a).rdeps, d ∈ ds ∧ rank d < rank a := by
      intro a ha d hd
      obtain ⟨L, hL, hmem⟩ := hlha a ha
      constructor
      · rw [hst2def, hL] at hd
        exact hmem d hd
      · apply hrank a ((hmemW a).mp ha)
        rw [hlh]
        rw [hst2def] at hd
        exact hd
    have hinj2 : ∀ a b, a ∈ ds → b ∈ ds →
        (st2.heap a).uuid = (st2.heap b).uuid → a = b := by
      intro a b ha hb he
      rw [huuid2 a, huuid2 b] at he
      exact hinj a b ha hb he
    have hflat : flattenAll st2.heap ds ds [] = none :=
      flattenAll_rank_ok st2.heap ds rank hclW hinj2 ds [] (fun a ha => ha)
    have hstart2 : ∀ a ∈ ds, (st2.heap a).state = .linked ∧
        (st2.heap a).eventSet = false := by
      intro a ha
      obtain ⟨L, hL, _⟩ := hlha a ha
      rw [hst2def, hL]
      exact ⟨rfl, (hfresh a ((hmemW a).mp ha)).2.2.1⟩
    obtain ⟨r1, r2, r3⟩ := runWave_ok st2.heap ds rank hstart2 hclW
    set h3w := (runWave st2.heap ds).1 with hh3def
    have huuid3 : ∀ x, (h3w x).uuid = (h x).uuid := by
      intro x
      by_cases hx : x ∈ ds
      · rw [r2 x hx]
        unfold runDone
        exact huuid2 x
      · rw [r3 x hx]
        exact huuid2 x
    -- tuple forms needed to reduce the solve loop
    have hlltup : linkLoop c st1 ds = (st2, ds, none) := by
      rw [hst2def]
      match hq : linkLoop c st1 ds with
      | (a, b, e) =>
        rw [hq] at l1 l2
        simp only at l1 l2
        rw [l1, l2]
    have hrwtup : runWave st2.heap ds = (h3w, none) := by
      match hq : runWave st2.heap ds with
      | (a, e) =>
        rw [hq] at r1
        simp only at r1
        subst r1
        have ha : h3w = a := by rw [hh3def, hq]
        rw [ha]
    set st3 : SState := { st2 with
      heap := h3w
      solvedU := st2.solvedU ++ ds.map fun a => (h3w a).uuid } with hst3def
    have hWne : W0.isEmpty = false := by
      match hWW : W0 with
      | [] => exact absurd rfl hW0
      | x :: xs => rfl
    have hiter1 : solve h c = solveLoop c (W0.length + 1) st3 := by
      show solveLoop c ((W0.length + 1) + 1) (initS h c) = _
      rw [solveLoop_step_ok c (W0.length + 1) (initS h c) ds st2 h3w hWne
        (hip.trans hlltup) hflat hrwtup]
    have hsolved3 : st3.solvedU = ds.map fun a => (h3w a).uuid := by
      rw [hst3def]
      show st2.solvedU ++ _ = _
      rw [hst2def, l4, hs1s]
      rfl
    have hall2 : Container.all st3.heap st3.solvedU c = [] := by
      apply Container.all_nil
      intro a ha
      obtain ⟨b, hbW, hbu⟩ := Container.all_cover h [] c a ha (by simp)
      rw [hsolved3]
      have hheq : (st3.heap a).uuid = (h a).uuid := huuid3 a
      rw [hheq, ← hbu, ← huuid3 b]
      exact List.mem_map.mpr ⟨b, (hmemW b).mpr hbW, rfl⟩
    have hiter2 : solveLoop c (W0.length + 1) st3 = (st3, none) := by
      apply solveLoop_empty
      rw [hall2]
      rfl
    have hfinal : solve h c = (st3, none) := hiter1.trans hiter2
    rw [hfinal]
    have hlh2 : linkedHeap h c = st2.heap := by
      rw [hlh, hst2def]
    refine ⟨rfl, ?_, ?_, ?_⟩
    · intro a ha
      show st3.heap a = runDone (linkedHeap h c) a
      have : st3.heap a = h3w a := rfl
      rw [this, r2 a ((hmemW a).mpr ha), hlh2]
    · intro a ha
      obtain ⟨L, hL, hmem⟩ := hlha a ((hmemW a).mpr ha)
      refine ⟨L, ?_, ?_⟩
      · rw [hlh2, hst2def]
        exact hL
      · intro d hd
        exact (hmemW d).mp (hmem d hd)
    · intro b hb
      show st3.heap b = h b
      have : st3.heap b = h3w b := rfl
      rw [this, r3 b (fun hbs => hb ((hmemW b).mp hbs)), hst2h_out b
        (fun hbs => hb ((hmemW b).mp hbs))]

/-- Full shape of a skipping `Dependency.link`: beyond skipping, the
call leaves every index and every other node untouched, and the node
itself keeps all fields except possibly partially appended `rdeps`. -/
theorem linkOne_skip_full (c : Container) (st : SState) (a : Nat)
    (hk : (st.heap a).kind = .plain)
    (hp : (st.heap a).state = .pending)
    (hopt : (st.heap a).optional = true)
    (hres : resolveAll st (st.heap a).dependencies = none) :
    (linkOne c st a).2 = .skip ∧
    (linkOne c st a).1.byId = st.byId ∧
    (linkOne c st a).1.byType = st.byType ∧
    (linkOne c st a).1.solvedU = st.solvedU ∧
    (linkOne c st a).1.repl = st.repl ∧
    (∀ b, b ≠ a → (linkOne c st a).1.heap b = st.heap b) ∧
    ∃ L, (linkOne c st a).1.heap a =
      { st.heap a with rdeps := (st.heap a).rdeps ++ L } := by
  have herr := resolveLoop_err st a (st.heap a).dependencies hres
  obtain ⟨c1, c2, c3, c4, c6, L, c7⟩ :=
    resolveLoop_shape st a (st.heap a).dependencies
  have hbody : linkBody c st a = resolveLoop st a (st.heap a).dependencies := by
    unfold linkBody
    rw [hk]
  match hq : resolveLoop st a (st.heap a).dependencies with
  | (st1, e1) =>
    rw [hq] at herr c1 c2 c3 c4 c6 c7
    simp only at herr c1 c2 c3 c4 c6 c7
    subst herr
    have hopt1 : (st1.heap a).optional = true := by rw [c7]; exact hopt
    have heq : linkOne c st a = (st1, LOut.skip) := by
      have heq0 : linkOne c st a =
          if Err.notFound = Err.notFound ∧ (st1.heap a).optional = true then
            (st1, LOut.skip)
          else (st1, LOut.fail Err.notFound) := by
        unfold linkOne
        rw [if_neg (fun hne => hne hp), hbody, hq]
      rw [heq0, if_pos ⟨rfl, hopt1⟩]
    rw [heq]
    exact ⟨rfl, c1, c2, c3, c4, c6, L, c7⟩

/-- The link loop when exactly one wave node `X` — `optional`, with an
unresolvable reference — skips while every other node links: the loop
succeeds, collects the wave minus `X`, folds `X`'s uuid into `solved`
and marks it `skipped`; everything else is as in the master lemma. -/
theorem linkLoop_skip_master (c : Container) (X : Nat) (R : Ref → Nat → Prop)
    (TyInv : List (Option Nat × Nat) → Prop) :
    ∀ (W : List Nat) (st0 : SState),
    (∀ a ∈ W, (st0.heap a).state = .pending ∧ (st0.heap a).kind = .plain) →
    W.Nodup →
    TyInv st0.byType →
    (∀ m a, TyInv m → a ∈ W → a ≠ X → TyInv (aset m (st0.heap a).ty a)) →
    (∀ st : SState, st.byId = st0.byId →
      (∀ b, (st.heap b).uuid = (st0.heap b).uuid) → TyInv st.byType →
      ∀ a ∈ W, a ≠ X → ∀ r ∈ (st0.heap a).dependencies,
        ∃ d, resolveRef st r = some d ∧ R r d) →
    (st0.heap X).optional = true →
    (∀ st : SState, st.byId = st0.byId →
      (∀ b, (st.heap b).uuid = (st0.heap b).uuid) → TyInv st.byType →
      resolveAll st (st0.heap X).dependencies = none) →
    (linkLoop c st0 W).2.2 = none ∧
    (linkLoop c st0 W).2.1 = W.filter (fun a => a ≠ X) ∧
    (linkLoop c st0 W).1.byId = st0.byId ∧
    (linkLoop c st0 W).1.solvedU =
      (if X ∈ W then st0.solvedU ++ [(st0.heap X).uuid] else st0.solvedU) ∧
    (linkLoop c st0 W).1.repl = st0.repl ∧
    TyInv (linkLoop c st0 W).1.byType ∧
    (∀ b, b ∉ W → (linkLoop c st0 W).1.heap b = st0.heap b) ∧
    (∀ a ∈ W, a ≠ X → ∃ L,
      (linkLoop c st0 W).1.heap a =
        { st0.heap a with state := NState.linked, rdeps := (st0.heap a).rdeps ++ L } ∧
      List.Forall₂ R (st0.heap a).dependencies L) ∧
    (X ∈ W → ∃ L, (linkLoop c st0 W).1.heap X =
      { st0.heap X with state := NState.skipped, rdeps := (st0.heap X).rdeps ++ L }) := by
  intro W
  induction W with
  | nil =>
    intro st0 _ _ hTy0 _ _ _ _
    refine ⟨rfl, rfl, rfl, ?_, rfl, hTy0, fun b _ => rfl,
      fun a ha => absurd ha (by simp), fun hX => absurd hX (by simp)⟩
    rfl
  | cons a rest ih =>
    intro st0 hW hNd hTy0 hTystep hRes hXopt hXbad
    have hanotin : a ∉ rest := (List.nodup_cons.mp hNd).1
    have hNd2 : rest.Nodup := (List.nodup_cons.mp hNd).2
    have hpa := (hW a (List.mem_cons_self _ _)).1
    have hka := (hW a (List.mem_cons_self _ _)).2
    by_cases haX : a = X
    · subst haX
      obtain ⟨o1, o2, o3, o4, o5, o6, LX, o7⟩ := linkOne_skip_full c st0 a
        hka hpa hXopt (hXbad st0 rfl (fun _ => rfl) hTy0)
      match hq : linkOne c st0 a with
      | (st1, o) =>
        rw [hq] at o1 o2 o3 o4 o5 o6 o7
        simp only at o1 o2 o3 o4 o5 o6 o7
        subst o1
        have hstep : linkLoop c st0 (a :: rest) =
            linkLoop c { st1 with
              heap := hset st1.heap a { st1.heap a with state := .skipped }
              solvedU := st1.solvedU ++ [(st1.heap a).uuid] } rest := by
          conv_lhs => unfold linkLoop
          rw [hq]
        set stSkip : SState := { st1 with
          heap := hset st1.heap a { st1.heap a with state := .skipped }
          solvedU := st1.solvedU ++ [(st1.heap a).uuid] } with hskdef
        have hsk_other : ∀ b, b ≠ a → stSkip.heap b = st0.heap b := by
          intro b hb
          show hset st1.heap a { st1.heap a with state := .skipped } b = _
          rw [hset_other _ _ _ _ hb]
          exact o6 b hb
        have hsk_self : stSkip.heap a =
            { st0.heap a with state := NState.skipped, rdeps := (st0.heap a).rdeps ++ LX } := by
          show hset st1.heap a { st1.heap a with state := .skipped } a = _
          rw [hset_self, o7]
        obtain ⟨m1, m2, m3, m4, m5, m6, m7, m8⟩ :=
          linkLoop_master c R TyInv rest stSkip
            (fun b hb => by
              rw [hsk_other b (fun hba => hanotin (hba ▸ hb))]
              exact hW b (List.mem_cons_of_mem _ hb))
            hNd2
            (by show TyInv st1.byType; rw [o3]; exact hTy0)
            (by
              intro m b hm hb
              rw [hsk_other b (fun hba => hanotin (hba ▸ hb))]
              exact hTystep m b hm (List.mem_cons_of_mem _ hb)
                (fun hbX => hanotin (hbX ▸ hb)))
            (by
              intro st hid hu hTy b hb r hr
              rw [hsk_other b (fun hba => hanotin (hba ▸ hb))] at hr
              have huc : ∀ x, (st.heap x).uuid = (st0.heap x).uuid := by
                intro x
                rw [hu x]
                by_cases hx : x = a
                · subst hx
                  rw [hsk_self]
                · rw [hsk_other x hx]
              exact hRes st (hid.trans o2) huc hTy b
                (List.mem_cons_of_mem _ hb)
                (fun hbX => hanotin (hbX ▸ hb)) r hr)
        rw [hstep]
        refine ⟨m1, ?_, m3.trans o2, ?_, m5.trans o5, m6, ?_, ?_, ?_⟩
        · rw [m2]
          rw [List.filter_cons_of_neg (by simp)]
          rw [List.filter_eq_self.mpr ?_]
          intro b hb
          simp only [decide_eq_true_eq]
          exact fun hbX => hanotin (hbX ▸ hb)
        · rw [m4]
          show st1.solvedU ++ [(st1.heap a).uuid] = _
          rw [o4, if_pos (List.mem_cons_self _ _), o7]
        · intro b hb
          have hbna : b ≠ a := fun hba => hb (hba ▸ List.mem_cons_self _ _)
          have hbnr : b ∉ rest := fun hbr => hb (List.mem_cons_of_mem _ hbr)
          rw [m7 b hbnr, hsk_other b hbna]
        · intro b hb hbX
          rcases List.mem_cons.mp hb with rfl | hb2
          · exact absurd rfl hbX
          · obtain ⟨L, hL, hF⟩ := m8 b hb2
            have hsb := hsk_other b (fun hba => hanotin (hba ▸ hb2))
            refine ⟨L, ?_, ?_⟩
            · rw [hL, hsb]
            · rw [← hsb]
              exact hF
        · intro _
          refine ⟨LX, ?_⟩
          rw [m7 a hanotin, hsk_self]
    · obtain ⟨La, hLa, hFa⟩ := resolveAll_of_forall st0
        (st0.heap a).dependencies R
        (hRes st0 rfl (fun _ => rfl) hTy0 a (List.mem_cons_self _ _) haX)
      obtain ⟨o1, o2, o3, o4, o5, o6, o7⟩ :=
        linkOne_plain_ok c st0 a La hka hpa hLa
      match hq : linkOne c st0 a with
      | (st1, o) =>
        rw [hq] at o1 o2 o3 o4 o5 o6 o7
        simp only at o1 o2 o3 o4 o5 o6 o7
        subst o1
        have hheq : ∀ b, b ≠ a → st1.heap b = st0.heap b := o6
        have huu : ∀ b, (st1.heap b).uuid = (st0.heap b).uuid := by
          intro b
          by_cases hb : b = a
          · subst hb; rw [o7]
          · rw [hheq b hb]
        have hrest_heap : ∀ b ∈ rest, st1.heap b = st0.heap b := by
          intro b hb
          exact hheq b (fun hba => hanotin (hba ▸ hb))
        have hXheap : st1.heap X = st0.heap X :=
          hheq X (fun hXa => haX hXa.symm)
        have ihres := ih st1
          (fun b hb => by
            rw [hrest_heap b hb]
            exact hW b (List.mem_cons_of_mem _ hb))
          hNd2
          (by rw [o3]
              exact hTystep st0.byType a hTy0 (List.mem_cons_self _ _) haX)
          (by
            intro m b hm hb hbX
            rw [hrest_heap b hb]
            exact hTystep m b hm (List.mem_cons_of_mem _ hb) hbX)
          (by
            intro st hid hu hTy b hb hbX r hr
            rw [hrest_heap b hb] at hr
            exact hRes st (hid.trans o2) (fun x => (hu x).trans (huu x)) hTy b
              (List.mem_cons_of_mem _ hb) hbX r hr)
          (by rw [hXheap]; exact hXopt)
          (by
            intro st hid hu hTy
            rw [hXheap]
            exact hXbad st (hid.trans o2) (fun x => (hu x).trans (huu x)) hTy)
        obtain ⟨i1, i2, i3, i4, i5, i6, i7, i8, i9⟩ := ihres
        have hstep : linkLoop c st0 (a :: rest) =
            (match linkLoop c st1 rest with
             | (stx, kept, e) => (stx, a :: kept, e)) := by
          conv_lhs => unfold linkLoop
          rw [hq]
        rw [hstep]
        match hq2 : linkLoop c st1 rest with
        | (stx, kept, e) =>
          rw [hq2] at i1 i2 i3 i4 i5 i6 i7 i8 i9
          simp only at i1 i2 i3 i4 i5 i6 i7 i8 i9
          subst i1
          refine ⟨rfl, ?_, i3.trans o2, ?_, i5.trans o5, i6, ?_, ?_, ?_⟩
          · show a :: kept = _
            rw [List.filter_cons_of_pos (by simpa using haX), i2]
          · rw [i4, o4, hXheap]
            by_cases hXr : X ∈ rest
            · rw [if_pos hXr, if_pos (List.mem_cons_of_mem _ hXr)]
            · rw [if_neg hXr,
                if_neg (by
                  intro hXm
                  rcases List.mem_cons.mp hXm with hXa | hXr2
                  · exact haX hXa.symm
                  · exact hXr hXr2)]
          · intro b hb
            have hbna : b ≠ a := fun hba => hb (hba ▸ List.mem_cons_self _ _)
            have hbnr : b ∉ rest := fun hbr => hb (List.mem_cons_of_mem _ hbr)
            rw [i7 b hbnr, hheq b hbna]
          · intro b hb hbX
            rcases List.mem_cons.mp hb with rfl | hb2
            · refine ⟨La, ?_, hFa⟩
              rw [i7 b hanotin, o7]
            · obtain ⟨L, hL, hF⟩ := i8 b hb2 hbX
              refine ⟨L, ?_, ?_⟩
              · rw [hL, hrest_heap b hb2]
              · rw [← hrest_heap b hb2]
                exact hF
          · intro hXm
            rcases List.mem_cons.mp hXm with hXa | hXr
            · exact absurd hXa.symm haX
            · obtain ⟨L, hL⟩ := i9 hXr
              refine ⟨L, ?_⟩
              rw [hL, hXheap]

/-- The link loop when some wave node `X` — not `optional`, with an
unresolvable reference — fails: the loop propagates exactly the
`DependencyNotFound` failure, and no node's run count or completion
event is touched (nothing has executed). -/
theorem linkLoop_fail_master (c : Container) (X : Nat)
    (TyInv : List (Option Nat × Nat) → Prop) :
    ∀ (W : List Nat) (st0 : SState),
    (∀ a ∈ W, (st0.heap a).state = .pending ∧ (st0.heap a).kind = .plain) →
    W.Nodup →
    TyInv st0.byType →
    (∀ m a, TyInv m → a ∈ W → a ≠ X → TyInv (aset m (st0.heap a).ty a)) →
    (∀ st : SState, st.byId = st0.byId →
      (∀ b, (st.heap b).uuid = (st0.heap b).uuid) → TyInv st.byType →
      ∀ a ∈ W, a ≠ X → ∀ r ∈ (st0.heap a).dependencies,
        ∃ d, resolveRef st r = some d) →
    (st0.heap X).optional = false →
    (∀ st : SState, st.byId = st0.byId →
      (∀ b, (st.heap b).uuid = (st0.heap b).uuid) → TyInv st.byType →
      resolveAll st (st0.heap X).dependencies = none) →
    X ∈ W →
    (linkLoop c st0 W).2.2 = some Err.notFound ∧
    (∀ a, ((linkLoop c st0 W).1.heap a).runCount = (st0.heap a).runCount) ∧
    (∀ a, ((linkLoop c st0 W).1.heap a).eventSet = (st0.heap a).eventSet) := by
  intro W
  induction W with
  | nil =>
    intro st0 _ _ _ _ _ _ _ hXin
    exact absurd hXin (List.not_mem_nil X)
  | cons a rest ih =>
    intro st0 hW hNd hTy0 hTystep hRes hXopt hXbad hXin
    have hanotin : a ∉ rest := (List.nodup_cons.mp hNd).1
    have hNd2 : rest.Nodup := (List.nodup_cons.mp hNd).2
    have hpa := (hW a (List.mem_cons_self _ _)).1
    have hka := (hW a (List.mem_cons_self _ _)).2
    by_cases haX : a = X
    · subst haX
      have herr := resolveLoop_err st0 a (st0.heap a).dependencies
        (hXbad st0 rfl (fun _ => rfl) hTy0)
      obtain ⟨c1, c2, c3, c4, c6, L, c7⟩ :=
        resolveLoop_shape st0 a (st0.heap a).dependencies
      have hbody : linkBody c st0 a =
          resolveLoop st0 a (st0.heap a).dependencies := by
        unfold linkBody
        rw [hka]
      match hq : resolveLoop st0 a (st0.heap a).dependencies with
      | (st1, e1) =>
        rw [hq] at herr c1 c2 c3 c4 c6 c7
        simp only at herr c1 c2 c3 c4 c6 c7
        subst herr
        have hopt1 : (st1.heap a).optional = false := by rw [c7]; exact hXopt
        have heq0 : linkOne c st0 a =
            if Err.notFound = Err.notFound ∧ (st1.heap a).optional = true then
              (st1, LOut.skip)
            else (st1, LOut.fail Err.notFound) := by
          unfold linkOne
          rw [if_neg (fun hne => hne hpa), hbody, hq]
        have heq : linkOne c st0 a = (st1, LOut.fail Err.notFound) := by
          rw [heq0, if_neg (by rw [hopt1]; simp)]
        have hstep : linkLoop c st0 (a :: rest) =
            (st1, [], some Err.notFound) := by
          conv_lhs => unfold linkLoop
          rw [heq]
        rw [hstep]
        refine ⟨rfl, ?_, ?_⟩
        · intro b
          by_cases hb : b = a
          · subst hb
            show (st1.heap b).runCount = _
            rw [c7]
          · show (st1.heap b).runCount = _
            rw [c6 b hb]
        · intro b
          by_cases hb : b = a
          · subst hb
            show (st1.heap b).eventSet = _
            rw [c7]
          · show (st1.heap b).eventSet = _
            rw [c6 b hb]
    · have hXrest : X ∈ rest := by
        rcases List.mem_cons.mp hXin with hXa | hXr
        · exact absurd hXa.symm haX
        · exact hXr
      obtain ⟨La, hLa, hFa⟩ := resolveAll_of_forall st0
        (st0.heap a).dependencies (fun r d => True)
        (by
          intro r hr
          obtain ⟨d, hd⟩ := hRes st0 rfl (fun _ => rfl) hTy0 a
            (List.mem_cons_self _ _) haX r hr
          exact ⟨d, hd, trivial⟩)
      obtain ⟨o1, o2, o3, o4, o5, o6, o7⟩ :=
        linkOne_plain_ok c st0 a La hka hpa hLa
      match hq : linkOne c st0 a with
      | (st1, o) =>
        rw [hq] at o1 o2 o3 o4 o5 o6 o7
        simp only at o1 o2 o3 o4 o5 o6 o7
        subst o1
        have hheq : ∀ b, b ≠ a → st1.heap b = st0.heap b := o6
        have huu : ∀ b, (st1.heap b).uuid = (st0.heap b).uuid := by
          intro b
          by_cases hb : b = a
          · subst hb; rw [o7]
          · rw [hheq b hb]
        have hrest_heap : ∀ b ∈ rest, st1.heap b = st0.heap b := by
          intro b hb
          exact hheq b (fun hba => hanotin (hba ▸ hb))
        have hXheap : st1.heap X = st0.heap X :=
          hheq X (fun hXa => haX hXa.symm)
        have ihres := ih st1
          (fun b hb => by
            rw [hrest_heap b hb]
            exact hW b (List.mem_cons_of_mem _ hb))
          hNd2
          (by rw [o3]
              exact hTystep st0.byType a hTy0 (List.mem_cons_self _ _) haX)
          (by
            intro m b hm hb hbX
            rw [hrest_heap b hb]
            exact hTystep m b hm (List.mem_cons_of_mem _ hb) hbX)
          (by
            intro st hid hu hTy b hb hbX r hr
            rw [hrest_heap b hb] at hr
            exact hRes st (hid.trans o2) (fun x => (hu x).trans (huu x)) hTy b
              (List.mem_cons_of_mem _ hb) hbX r hr)
          (by rw [hXheap]; exact hXopt)
          (by
            intro st hid hu hTy
            rw [hXheap]
            exact hXbad st (hid.trans o2) (fun x => (hu x).trans (huu x)) hTy)
          hXrest
        obtain ⟨i1, i2, i3⟩ := ihres
        have hstep : linkLoop c st0 (a :: rest) =
            (match linkLoop c st1 rest with
             | (stx, kept, e) => (stx, a :: kept, e)) := by
          conv_lhs => unfold linkLoop
          rw [hq]
        rw [hstep]
        match hq2 : linkLoop c st1 rest with
        | (stx, kept, e) =>
          rw [hq2] at i1 i2 i3
          simp only at i1 i2 i3
          subst i1
          refine ⟨rfl, ?_, ?_⟩
          · intro b
            show (stx.heap b).runCount = _
            rw [i2 b]
            by_cases hb : b = a
            · subst hb; rw [o7]
            · rw [hheq b hb]
          · intro b
            show (stx.heap b).eventSet = _
            rw [i3 b]
            by_cases hb : b = a
            · subst hb; rw [o7]
            · rw [hheq b hb]

/-- A reference no wave node can ever satisfy: no registered uuid, no
declared produced type, no registered object identity matches it. -/
def unresolvableIn (h : Heap) (W : List Nat) : Ref → Prop
  | Ref.byId u => ∀ b ∈ W, (h b).uuid ≠ u
  | Ref.byType t => ∀ b ∈ W, (h b).ty ≠ t
  | Ref.direct bb => ∀ b ∈ W, (h b).uuid ≠ (h bb).uuid

theorem resolveAll_none_of_mem (st : SState) (refs : List Ref) (r : Ref)
    (hr : r ∈ refs) (hnone : resolveRef st r = none) :
    resolveAll st refs = none := by
  induction refs with
  | nil => exact absurd hr (List.not_mem_nil r)
  | cons q rest ih =>
    unfold resolveAll
    rcases List.mem_cons.mp hr with rfl | hr2
    · rw [hnone]
    · rw [ih hr2]
      match resolveRef st q with
      | none => rfl
      | some d => rfl

/-- Seeded `_by_id` values carry the uuid they are keyed by. -/
theorem seed_byId_values2 (W : List Nat) :
    ∀ (st : SState) (u v : Nat),
    aget (W.foldl indexOne st).byId u = some v →
    aget st.byId u = some v ∨ (v ∈ W ∧ (st.heap v).uuid = u) := by
  induction W with
  | nil =>
    intro st u v hg
    exact Or.inl hg
  | cons a rest ih =>
    intro st u v hg
    rcases ih (indexOne st a) u v hg with hold | ⟨hmem, hu⟩
    · rw [indexOne_byId] at hold
      by_cases hk : u = (st.heap a).uuid
      · subst hk
        rw [aget_asetd_same] at hold
        match hm : aget st.byId ((st.heap a).uuid) with
        | some w =>
          rw [hm] at hold
          simp at hold
          exact Or.inl (by rw [hold])
        | none =>
          rw [hm] at hold
          simp at hold
          subst hold
          exact Or.inr ⟨List.mem_cons_self _ _, rfl⟩
      · rw [aget_asetd_other _ _ _ _ hk] at hold
        exact Or.inl hold
    · rw [(indexOne_heap st a).1] at hu
      exact Or.inr ⟨List.mem_cons_of_mem _ hmem, hu⟩

/-- Seeded `_by_type` values carry the type they are keyed by. -/
theorem seed_byType_values2 (W : List Nat) :
    ∀ (st : SState) (t : Option Nat) (v : Nat),
    aget (W.foldl indexOne st).byType t = some v →
    aget st.byType t = some v ∨ (v ∈ W ∧ (st.heap v).ty = t) := by
  induction W with
  | nil =>
    intro st t v hg
    exact Or.inl hg
  | cons a rest ih =>
    intro st t v hg
    rcases ih (indexOne st a) t v hg with hold | ⟨hmem, ht⟩
    · rw [indexOne_byType] at hold
      by_cases htc : (st.heap a).type_constructor
      · rw [if_pos htc] at hold
        by_cases hk : t = (st.heap a).ty
        · subst hk
          rw [aget_asetd_same] at hold
          match hm : aget st.byType ((st.heap a).ty) with
          | some w =>
            rw [hm] at hold
            simp at hold
            exact Or.inl (by rw [hold])
          | none =>
            rw [hm] at hold
            simp at hold
            subst hold
            exact Or.inr ⟨List.mem_cons_self _ _, rfl⟩
        · rw [aget_asetd_other _ _ _ _ hk] at hold
          exact Or.inl hold
      · rw [if_neg htc] at hold
        exact Or.inl hold
    · rw [(indexOne_heap st a).1] at ht
      exact Or.inr ⟨List.mem_cons_of_mem _ hmem, ht⟩

/-- `solve` on a fresh, plain, replace-free container in which one
collected node `X` is not optional and carries an unresolvable
reference (all other references resolving): the whole solve aborts with
`DependencyNotFound` and nothing executes. -/
theorem solve_unresolvable_fail (h : Heap) (c : Container) (X : Nat) (r : Ref)
    (hfresh : ∀ a ∈ c.all h [], (h a).state = .pending ∧ (h a).kind = .plain)
    (hrepl : c.replace = [])
    (hX : X ∈ c.all h [])
    (hXopt : (h X).optional = false)
    (hr : r ∈ (h X).dependencies)
    (hbad : unresolvableIn h (c.all h []) r)
    (hres : ∀ a ∈ c.all h [], a ≠ X → ∀ q ∈ (h a).dependencies,
      (∀ u, q = Ref.byId u → ∃ b ∈ c.all h [], (h b).uuid = u) ∧
      (∀ t, q = Ref.byType t → ∃ b ∈ c.all h [], (h b).ty = t ∧
        (h b).type_constructor = true) ∧
      (∀ bb, q = Ref.direct bb → ∃ b ∈ c.all h [],
        (h b).uuid = (h bb).uuid)) :
    (solve h c).2 = some Err.notFound ∧
    (∀ a, ((solve h c).1.heap a).runCount = (h a).runCount) ∧
    (∀ a, ((solve h c).1.heap a).eventSet = (h a).eventSet) := by
  set W0 := c.all h [] with hW0def
  set ds := sortByPrio h W0 with hdsdef
  set st1 := ds.foldl indexOne (initS h c) with hst1def
  have hh0 : (initS h c).heap = h := rfl
  have hmemW : ∀ x, x ∈ ds ↔ x ∈ W0 := fun x => sortByPrio_mem h W0 x
  have hpw0 : W0.Pairwise (fun a b => (h a).uuid ≠ (h b).uuid) :=
    Container.all_pairwise h [] c
  have hpw : ds.Pairwise (fun a b => (h a).uuid ≠ (h b).uuid) :=
    sortByPrio_pairwise h W0 hpw0
  have hnd : ds.Nodup := hpw.imp (fun hne heq => hne (by rw [heq]))
  have hseed := seed_heap ds (initS h c)
  have hs1h : st1.heap = h := hseed.1
  have hs1r : st1.repl = c.replace := hseed.2.2
  have hbid : ∀ a ∈ ds, aget st1.byId ((h a).uuid) = some a := by
    intro a ha
    have := seed_byId_exact ds (initS h c)
      (by rw [hh0]; exact hpw)
      (fun b _ => by rw [hh0]; rfl)
      a ha
    rw [hh0] at this
    exact this
  set TyInv : List (Option Nat × Nat) → Prop := fun m =>
    (∀ t v, aget m t = some v → v ∈ ds ∧ (h v).ty = t) ∧
    (∀ t v, aget st1.byType t = some v → ∃ w, aget m t = some w)
    with hTyDef
  have hTy0 : TyInv st1.byType := by
    constructor
    · intro t v hv
      rcases seed_byType_values2 ds (initS h c) t v hv with hold | ⟨hmem, hty⟩
      · simp [initS, aget] at hold
      · exact ⟨hmem, hty⟩
    · intro t v hv
      exact ⟨v, hv⟩
  have hTystep : ∀ m a, TyInv m → a ∈ ds → a ≠ X →
      TyInv (aset m ((st1.heap a).ty) a) := by
    intro m a hm ha _
    constructor
    · intro t v hv
      by_cases ht : t = (st1.heap a).ty
      · subst ht
        rw [aget_aset_self] at hv
        have hva : v = a := by
          injection hv with hv2
          exact hv2.symm
        subst hva
        exact ⟨ha, by rw [hs1h]⟩
      · rw [aget_aset_other _ _ _ _ ht] at hv
        exact hm.1 t v hv
    · intro t v hv
      by_cases ht : t = (st1.heap a).ty
      · subst ht
        exact ⟨a, aget_aset_self _ _ _⟩
      · rw [aget_aset_other _ _ _ _ ht]
        exact hm.2 t v hv
  have hRes : ∀ st : SState, st.byId = st1.byId →
      (∀ b, (st.heap b).uuid = (st1.heap b).uuid) → TyInv st.byType →
      ∀ a ∈ ds, a ≠ X → ∀ q ∈ (st1.heap a).dependencies,
        ∃ d, resolveRef st q = some d := by
    intro st hid hu hTy a ha haX q hq
    rw [hs1h] at hq
    have hresa := hres a ((hmemW a).mp ha) haX q hq
    match q with
    | Ref.byId u =>
      obtain ⟨b, hbW, hbu⟩ := hresa.1 u rfl
      refine ⟨b, ?_⟩
      show aget st.byId u = some b
      rw [hid, ← hbu]
      exact hbid b ((hmemW b).mpr hbW)
    | Ref.byType t =>
      obtain ⟨b, hbW, hbt, hbtc⟩ := hresa.2.1 t rfl
      obtain ⟨v, hv⟩ := seed_byType_cover b ds (initS h c) ((hmemW b).mpr hbW)
        (by rw [hh0]; exact hbtc)
      rw [← hst1def] at hv
      rw [hh0, hbt] at hv
      obtain ⟨w, hw⟩ := hTy.2 t v hv
      exact ⟨w, hw⟩
    | Ref.direct bb =>
      obtain ⟨b, hbW, hbu⟩ := hresa.2.2 bb rfl
      refine ⟨b, ?_⟩
      show aget st.byId ((st.heap bb).uuid) = some b
      rw [hid, hu bb, hs1h, ← hbu]
      exact hbid b ((hmemW b).mpr hbW)
  have hXbad : ∀ st : SState, st.byId = st1.byId →
      (∀ b, (st.heap b).uuid = (st1.heap b).uuid) → TyInv st.byType →
      resolveAll st (st1.heap X).dependencies = none := by
    intro st hid hu hTy
    rw [hs1h]
    apply resolveAll_none_of_mem st (h X).dependencies r hr
    match r, hbad with
    | Ref.byId u, hbad =>
      show aget st.byId u = none
      rw [hid]
      match hm : aget st1.byId u with
      | none => rfl
      | some v =>
        rcases seed_byId_values2 ds (initS h c) u v hm with hold | ⟨hmem, huu⟩
        · simp [initS, aget] at hold
        · rw [hh0] at huu
          exact absurd huu (hbad v ((hmemW v).mp hmem))
    | Ref.byType t, hbad =>
      show aget st.byType t = none
      match hm : aget st.byType t with
      | none => rfl
      | some v =>
        obtain ⟨hmem, hty⟩ := hTy.1 t v hm
        exact absurd hty (hbad v ((hmemW v).mp hmem))
    | Ref.direct bb, hbad =>
      show aget st.byId ((st.heap bb).uuid) = none
      rw [hid, hu bb, hs1h]
      match hm : aget st1.byId ((h bb).uuid) with
      | none => rfl
      | some v =>
        rcases seed_byId_values2 ds (initS h c) ((h bb).uuid) v hm with
          hold | ⟨hmem, huu⟩
        · simp [initS, aget] at hold
        · rw [hh0] at huu
          exact absurd huu (hbad v ((hmemW v).mp hmem))
  have hW : ∀ a ∈ ds, (st1.heap a).state = .pending ∧
      (st1.heap a).kind = .plain := by
    intro a ha
    rw [hs1h]
    exact hfresh a ((hmemW a).mp ha)
  obtain ⟨f1, f2, f3⟩ := linkLoop_fail_master c X TyInv ds st1 hW hnd hTy0
    hTystep hRes (by rw [hs1h]; exact hXopt) hXbad ((hmemW X).mpr hX)
  have hip : indexPhase c (initS h c) ds = linkLoop c st1 ds := by
    unfold indexPhase
    rw [← hst1def]
    rw [if_pos (by rw [hs1r, hrepl]; rfl)]
  have hWne : W0.isEmpty = false := by
    match hWW : W0 with
    | [] => exact absurd hX (List.not_mem_nil X)
    | y :: ys => rfl
  match hq : linkLoop c st1 ds with
  | (stx, kept, e) =>
    rw [hq] at f1 f2 f3
    simp only at f1 f2 f3
    subst f1
    have hfinal : solve h c = (stx, some Err.notFound) := by
      show solveLoop c ((W0.length + 1) + 1) (initS h c) = _
      exact solveLoop_step_ipErr c (W0.length + 1) (initS h c) kept stx
        Err.notFound hWne (hip.trans hq)
    rw [hfinal]
    refine ⟨rfl, ?_, ?_⟩
    · intro a
      show (stx.heap a).runCount = _
      rw [f2 a, hs1h]
    · intro a
      show (stx.heap a).eventSet = _
      rw [f3 a, hs1h]

/-- `solve` on a fresh, plain, replace-free container in which one
collected node `X` is `optional` and carries an unresolvable reference,
while every other node's references resolve away from `X` and the
linked graph (minus `X`) is ranked: the solve succeeds, `X` ends
`skipped` with its callback never invoked, and every other collected
node runs to `done` exactly once. -/
theorem solve_unresolvable_skip (h : Heap) (c : Container) (X : Nat) (r : Ref)
    (rank : Nat → Nat)
    (hfresh : ∀ a ∈ c.all h [], (h a).state = .pending ∧ (h a).kind = .plain ∧
      (h a).eventSet = false ∧ (h a).rdeps = [])
    (hrepl : c.replace = [])
    (hX : X ∈ c.all h [])
    (hXopt : (h X).optional = true)
    (hr : r ∈ (h X).dependencies)
    (hbad : unresolvableIn h (c.all h []) r)
    (hres : ∀ a ∈ c.all h [], a ≠ X → ∀ q ∈ (h a).dependencies,
      (∀ u, q = Ref.byId u → ∃ b ∈ c.all h [], (h b).uuid = u ∧ b ≠ X) ∧
      (∀ t, q = Ref.byType t → t ≠ (h X).ty ∧ ∃ b ∈ c.all h [],
        (h b).ty = t ∧ (h b).type_constructor = true) ∧
      (∀ bb, q = Ref.direct bb → ∃ b ∈ c.all h [],
        (h b).uuid = (h bb).uuid ∧ b ≠ X))
    (hrank : ∀ a ∈ c.all h [], a ≠ X →
      ∀ d ∈ ((linkedHeap h c) a).rdeps, rank d < rank a) :
    (solve h c).2 = none ∧
    ((solve h c).1.heap X).state = NState.skipped ∧
    ((solve h c).1.heap X).runCount = (h X).runCount ∧
    ((solve h c).1.heap X).eventSet = false ∧
    (∀ a ∈ c.all h [], a ≠ X → ((solve h c).1.heap a).state = NState.done ∧
      ((solve h c).1.heap a).runCount = (h a).runCount + 1) ∧
    (∀ b, b ∉ c.all h [] → (solve h c).1.heap b = h b) := by
  set W0 := c.all h [] with hW0def
  set ds := sortByPrio h W0 with hdsdef
  set st1 := ds.foldl indexOne (initS h c) with hst1def
  have hh0 : (initS h c).heap = h := rfl
  have hmemW : ∀ x, x ∈ ds ↔ x ∈ W0 := fun x => sortByPrio_mem h W0 x
  have hpw0 : W0.Pairwise (fun a b => (h a).uuid ≠ (h b).uuid) :=
    Container.all_pairwise h [] c
  have hpw : ds.Pairwise (fun a b => (h a).uuid ≠ (h b).uuid) :=
    sortByPrio_pairwise h W0 hpw0
  have hnd : ds.Nodup := hpw.imp (fun hne heq => hne (by rw [heq]))
  have hinj := pairwise_uuid_inj h ds hpw
  have hseed := seed_heap ds (initS h c)
  have hs1h : st1.heap = h := hseed.1
  have hs1s : st1.solvedU = [] := hseed.2.1
  have hs1r : st1.repl = c.replace := hseed.2.2
  have hXds : X ∈ ds := (hmemW X).mpr hX
  have hbid : ∀ a ∈ ds, aget st1.byId ((h a).uuid) = some a := by
    intro a ha
    have := seed_byId_exact ds (initS h c)
      (by rw [hh0]; exact hpw)
      (fun b _ => by rw [hh0]; rfl)
      a ha
    rw [hh0] at this
    exact this
  set TyInv : List (Option Nat × Nat) → Prop := fun m =>
    (∀ t v, aget m t = some v → v ∈ ds ∧ (h v).ty = t) ∧
    (∀ t v, aget st1.byType t = some v → ∃ w, aget m t = some w)
    with hTyDef
  have hTy0 : TyInv st1.byType := by
    constructor
    · intro t v hv
      rcases seed_byType_values2 ds (initS h c) t v hv with hold | ⟨hmem, hty⟩
      · simp [initS, aget] at hold
      · exact ⟨hmem, hty⟩
    · intro t v hv
      exact ⟨v, hv⟩
  have hTystep : ∀ m a, TyInv m → a ∈ ds → a ≠ X →
      TyInv (aset m ((st1.heap a).ty) a) := by
    intro m a hm ha _
    constructor
    · intro t v hv
      by_cases ht : t = (st1.heap a).ty
      · subst ht
        rw [aget_aset_self] at hv
        have hva : v = a := by
          injection hv with hv2
          exact hv2.symm
        subst hva
        exact ⟨ha, by rw [hs1h]⟩
      · rw [aget_aset_other _ _ _ _ ht] at hv
        exact hm.1 t v hv
    · intro t v hv
      by_cases ht : t = (st1.heap a).ty
      · subst ht
        exact ⟨a, aget_aset_self _ _ _⟩
      · rw [aget_aset_other _ _ _ _ ht]
        exact hm.2 t v hv
  have hRes : ∀ st : SState, st.byId = st1.byId →
      (∀ b, (st.heap b).uuid = (st1.heap b).uuid) → TyInv st.byType →
      ∀ a ∈ ds, a ≠ X → ∀ q ∈ (st1.heap a).dependencies,
        ∃ d, resolveRef st q = some d ∧ (d ∈ ds ∧ d ≠ X) := by
    intro st hid hu hTy a ha haX q hq
    rw [hs1h] at hq
    have hresa := hres a ((hmemW a).mp ha) haX q hq
    match q with
    | Ref.byId u =>
      obtain ⟨b, hbW, hbu, hbX⟩ := hresa.1 u rfl
      have hbds : b ∈ ds := (hmemW b).mpr hbW
      refine ⟨b, ?_, hbds, hbX⟩
      show aget st.byId u = some b
      rw [hid, ← hbu]
      exact hbid b hbds
    | Ref.byType t =>
      obtain ⟨htX, b, hbW, hbt, hbtc⟩ := hresa.2.1 t rfl
      have hbds : b ∈ ds := (hmemW b).mpr hbW
      obtain ⟨v, hv⟩ := seed_byType_cover b ds (initS h c) hbds
        (by rw [hh0]; exact hbtc)
      rw [← hst1def] at hv
      rw [hh0, hbt] at hv
      obtain ⟨w, hw⟩ := hTy.2 t v hv
      obtain ⟨hwds, hwty⟩ := hTy.1 t w hw
      refine ⟨w, hw, hwds, ?_⟩
      intro hwX
      subst hwX
      exact htX hwty.symm
    | Ref.direct bb =>
      obtain ⟨b, hbW, hbu, hbX⟩ := hresa.2.2 bb rfl
      have hbds : b ∈ ds := (hmemW b).mpr hbW
      refine ⟨b, ?_, hbds, hbX⟩
      show aget st.byId ((st.heap bb).uuid) = some b
      rw [hid, hu bb, hs1h, ← hbu]
      exact hbid b hbds
  have hXbad : ∀ st : SState, st.byId = st1.byId →
      (∀ b, (st.heap b).uuid = (st1.heap b).uuid) → TyInv st.byType →
      resolveAll st (st1.heap X).dependencies = none := by
    intro st hid hu hTy
    rw [hs1h]
    apply resolveAll_none_of_mem st (h X).dependencies r hr
    match r, hbad with
    | Ref.byId u, hbad =>
      show aget st.byId u = none
      rw [hid]
      match hm : aget st1.byId u with
      | none => rfl
      | some v =>
        rcases seed_byId_values2 ds (initS h c) u v hm with hold | ⟨hmem, huu⟩
        · simp [initS, aget] at hold
        · rw [hh0] at huu
          exact absurd huu (hbad v ((hmemW v).mp hmem))
    | Ref.byType t, hbad =>
      show aget st.byType t = none
      match hm : aget st.byType t with
      | none => rfl
      | some v =>
        obtain ⟨hmem, hty⟩ := hTy.1 t v hm
        exact absurd hty (hbad v ((hmemW v).mp hmem))
    | Ref.direct bb, hbad =>
      show aget st.byId ((st.heap bb).uuid) = none
      rw [hid, hu bb, hs1h]
      match hm : aget st1.byId ((h bb).uuid) with
      | none => rfl
      | some v =>
        rcases seed_byId_values2 ds (initS h c) ((h bb).uuid) v hm with
          hold | ⟨hmem, huu⟩
        · simp [initS, aget] at hold
        · rw [hh0] at huu
          exact absurd huu (hbad v ((hmemW v).mp hmem))
  have hW : ∀ a ∈ ds, (st1.heap a).state = .pending ∧
      (st1.heap a).kind = .plain := by
    intro a ha
    rw [hs1h]
    exact ⟨(hfresh a ((hmemW a).mp ha)).1, (hfresh a ((hmemW a).mp ha)).2.1⟩
  obtain ⟨m1, m2, m3, m4, m5, m6, m7, m8, m9⟩ :=
    linkLoop_skip_master c X (fun q d => d ∈ ds ∧ d ≠ X) TyInv ds st1
      hW hnd hTy0 hTystep hRes (by rw [hs1h]; exact hXopt) hXbad
  set kept := ds.filter (fun a => a ≠ X) with hkeptdef
  have hkeptmem : ∀ y, y ∈ kept ↔ (y ∈ ds ∧ y ≠ X) := by
    intro y
    rw [hkeptdef, List.mem_filter]
    simp
  have hip : indexPhase c (initS h c) ds = linkLoop c st1 ds := by
    unfold indexPhase
    rw [← hst1def]
    rw [if_pos (by rw [hs1r, hrepl]; rfl)]
  set st2 := (linkLoop c st1 ds).1 with hst2def
  have hlltup : linkLoop c st1 ds = (st2, kept, none) := by
    rw [hst2def]
    match hq : linkLoop c st1 ds with
    | (a, b, e) =>
      rw [hq] at m1 m2
      simp only at m1 m2
      rw [m1, m2]
  have hlha : ∀ a ∈ ds, a ≠ X → ∃ L, st2.heap a =
      { h a with state := NState.linked, rdeps := L } ∧
      ∀ d ∈ L, d ∈ ds ∧ d ≠ X := by
    intro a ha haX
    obtain ⟨L, hL, hF⟩ := m8 a ha haX
    refine ⟨L, ?_, ?_⟩
    · rw [hst2def, hL, hs1h]
      have hrd : (h a).rdeps = [] := (hfresh a ((hmemW a).mp ha)).2.2.2
      rw [hrd]
      rfl
    · intro d hd
      obtain ⟨q, hqmem, hqd⟩ := forall2_mem_right hF d hd
      exact hqd
  have hXrec : ∃ LX, st2.heap X =
      { h X with state := NState.skipped, rdeps := LX } := by
    obtain ⟨LX, hLX⟩ := m9 hXds
    refine ⟨LX, ?_⟩
    rw [hst2def, hLX, hs1h]
    have hrd : (h X).rdeps = [] := (hfresh X hX).2.2.2
    rw [hrd]
    rfl
  have hst2h_out : ∀ b, b ∉ ds → st2.heap b = h b := by
    intro b hb
    rw [hst2def, m7 b hb, hs1h]
  have huuid2 : ∀ y, (st2.heap y).uuid = (h y).uuid := by
    intro y
    by_cases hy : y ∈ ds
    · by_cases hyX : y = X
      · subst hyX
        obtain ⟨LX, hLX⟩ := hXrec
        rw [hLX]
      · obtain ⟨L, hL, _⟩ := hlha y hy hyX
        rw [hL]
    · rw [hst2h_out y hy]
  have hlh2 : linkedHeap h c = st2.heap := by
    unfold linkedHeap
    rw [← hW0def, ← hdsdef, hip, hst2def]
  have hclW : ∀ a ∈ kept, ∀ d ∈ (st2.heap a).rdeps,
      d ∈ kept ∧ rank d < rank a := by
    intro a ha d hd
    obtain ⟨hads, haX⟩ := (hkeptmem a).mp ha
    obtain ⟨L, hL, hmem⟩ := hlha a hads haX
    constructor
    · rw [hL] at hd
      exact (hkeptmem d).mpr (hmem d hd)
    · apply hrank a ((hmemW a).mp hads) haX
      rw [hlh2]
      exact hd
  have hinj2 : ∀ a b, a ∈ kept → b ∈ kept →
      (st2.heap a).uuid = (st2.heap b).uuid → a = b := by
    intro a b ha hb he
    rw [huuid2 a, huuid2 b] at he
    exact hinj a b ((hkeptmem a).mp ha).1 ((hkeptmem b).mp hb).1 he
  have hflat : flattenAll st2.heap kept kept [] = none :=
    flattenAll_rank_ok st2.heap kept rank hclW hinj2 kept []
      (fun a ha => ha)
  have hstart2 : ∀ a ∈ kept, (st2.heap a).state = .linked ∧
      (st2.heap a).eventSet = false := by
    intro a ha
    obtain ⟨hads, haX⟩ := (hkeptmem a).mp ha
    obtain ⟨L, hL, _⟩ := hlha a hads haX
    rw [hL]
    exact ⟨rfl, (hfresh a ((hmemW a).mp hads)).2.2.1⟩
  obtain ⟨r1, r2, r3⟩ := runWave_ok st2.heap kept rank hstart2 hclW
  set h3w := (runWave st2.heap kept).1 with hh3def
  have hXnk : X ∉ kept := by
    intro hXk
    exact ((hkeptmem X).mp hXk).2 rfl
  have huuid3 : ∀ y, (h3w y).uuid = (h y).uuid := by
    intro y
    by_cases hy : y ∈ kept
    · rw [r2 y hy]
      unfold runDone
      exact huuid2 y
    · rw [r3 y hy]
      exact huuid2 y
  have hrwtup : runWave st2.heap kept = (h3w, none) := by
    match hq : runWave st2.heap kept with
    | (a, e) =>
      rw [hq] at r1
      simp only at r1
      subst r1
      have ha : h3w = a := by rw [hh3def, hq]
      rw [ha]
  set st3 : SState := { st2 with
    heap := h3w
    solvedU := st2.solvedU ++ kept.map fun a => (h3w a).uuid } with hst3def
  have hWne : W0.isEmpty = false := by
    match hWW : W0 with
    | [] => exact absurd hX (List.not_mem_nil X)
    | y :: ys => rfl
  have hiter1 : solve h c = solveLoop c (W0.length + 1) st3 := by
    show solveLoop c ((W0.length + 1) + 1) (initS h c) = _
    rw [solveLoop_step_ok c (W0.length + 1) (initS h c) kept st2 h3w hWne
      (hip.trans hlltup) hflat hrwtup]
  have hsolved3 : st3.solvedU =
      (h X).uuid :: kept.map fun a => (h3w a).uuid := by
    rw [hst3def]
    show st2.solvedU ++ _ = _
    rw [hst2def, m4, if_pos hXds, hs1s, hs1h]
    rfl
  have hall2 : Container.all st3.heap st3.solvedU c = [] := by
    apply Container.all_nil
    intro a ha
    obtain ⟨b, hbW, hbu⟩ := Container.all_cover h [] c a ha (by simp)
    rw [hsolved3]
    have hheq : (st3.heap a).uuid = (h a).uuid := huuid3 a
    rw [hheq, ← hbu]
    have hbds : b ∈ ds := (hmemW b).mpr hbW
    by_cases hbX : b = X
    · subst hbX
      exact List.mem_cons_self _ _
    · refine List.mem_cons_of_mem _ ?_
      rw [← huuid3 b]
      exact List.mem_map.mpr ⟨b, (hkeptmem b).mpr ⟨hbds, hbX⟩, rfl⟩
  have hiter2 : solveLoop c (W0.length + 1) st3 = (st3, none) := by
    apply solveLoop_empty
    rw [hall2]
    rfl
  have hfinal : solve h c = (st3, none) := hiter1.trans hiter2
  rw [hfinal]
  obtain ⟨LX, hLX⟩ := hXrec
  have hX3 : st3.heap X = st2.heap X := by
    show h3w X = st2.heap X
    exact r3 X hXnk
  refine ⟨rfl, ?_, ?_, ?_, ?_, ?_⟩
  · rw [hX3, hLX]
  · rw [hX3, hLX]
  · rw [hX3, hLX]
    exact (hfresh X hX).2.2.1
  · intro a ha haX
    have hads : a ∈ ds := (hmemW a).mpr ha
    have hak : a ∈ kept := (hkeptmem a).mpr ⟨hads, haX⟩
    obtain ⟨L, hL, _⟩ := hlha a hads haX
    have ha3 : st3.heap a = runDone st2.heap a := r2 a hak
    rw [ha3]
    constructor
    · rfl
    · show (st2.heap a).runCount + 1 = _
      rw [hL]
  · intro b hb
    have hbds : b ∉ ds := fun hbs => hb ((hmemW b).mp hbs)
    have hbk : b ∉ kept := fun hbk => hbds ((hkeptmem b).mp hbk).1
    show h3w b = h b
    rw [r3 b hbk, hst2h_out b hbds]

theorem asetd_present {α : Type} [DecidableEq α] (m : List (α × Nat))
    (k : α) (v w : Nat) (hk : aget m k = some w) : asetd m k v = m := by
  unfold asetd
  rw [hk]

theorem aget_asetd_sub {α : Type} [DecidableEq α] (m : List (α × Nat))
    (k q : α) (x v : Nat) (hq : aget m q = some v) :
    ∃ w, aget (asetd m k x) q = some w := by
  by_cases hk : q = k
  · subst hk
    rw [aget_asetd_same, hq]
    exact ⟨v, rfl⟩
  · rw [aget_asetd_other _ _ _ _ hk]
    exact ⟨v, hq⟩

/-! ## Stage-node linking (claim C7) -/

/-- Whether a reference denotes (directly) a `StageEnd` node, under a
kind assignment. -/
def isEndRef (κ : Nat → NKind) : Ref → Bool
  | .direct b => match κ b with
    | .stageEnd _ => true
    | _ => false
  | _ => false

/-- The stage index of a directly referenced `StageEnd` node. -/
def endIdxRef (κ : Nat → NKind) : Ref → Int
  | .direct b => match κ b with
    | .stageEnd i => i
    | _ => 0
  | _ => 0

/-- Whether a reference denotes (directly) the `StageStart` of index `i`. -/
def isStartIdx (κ : Nat → NKind) (i : Int) : Ref → Bool
  | .direct b => match κ b with
    | .stageStart j => decide (j = i)
    | _ => false
  | _ => false

/-- The dependency list of a `StageStart` after its `_link` preamble:
non-end references, then the highest-index `StageEnd` reference. -/
def tdeps (dep : List Ref) (κ : Nat → NKind) : List Ref :=
  dep.filter (fun r => ! isEndRef κ r) ++
    ((dep.filter (isEndRef κ)).insertionSort
      (fun x y => endIdxRef κ y ≤ endIdxRef κ x)).take 1

theorem trimStageStart_eq (st : SState) (a : Nat) :
    trimStageStart st a = { st with heap := hset st.heap a { st.heap a with dependencies := tdeps (st.heap a).dependencies (fun b => (st.heap b).kind) } } := by
  rfl

theorem collectStageParts_eq (c : Container) (st : SState) (a : Nat) (i : Int)
    (hk : (st.heap a).kind = .stageEnd i) :
    collectStageParts c st a = { st with heap := hset st.heap a { st.heap a with rdeps := (st.heap a).rdeps ++ (c.all st.heap []).filter (fun p => (st.heap p).dependencies.any (isStartIdx (fun b => (st.heap b).kind) i)) } } := by
  simp only [collectStageParts, hk]
  rfl

theorem isEndRef_congr (κ1 κ2 : Nat → NKind) (he : ∀ x, κ1 x = κ2 x) :
    ∀ r, isEndRef κ1 r = isEndRef κ2 r := by
  intro r
  cases r with
  | byId u => rfl
  | byType t => rfl
  | direct b => simp only [isEndRef, he b]

theorem endIdxRef_congr (κ1 κ2 : Nat → NKind) (he : ∀ x, κ1 x = κ2 x) :
    ∀ r, endIdxRef κ1 r = endIdxRef κ2 r := by
  intro r
  cases r with
  | byId u => rfl
  | byType t => rfl
  | direct b => simp only [endIdxRef, he b]

theorem isStartIdx_congr (κ1 κ2 : Nat → NKind) (i : Int)
    (he : ∀ x, κ1 x = κ2 x) :
    ∀ r, isStartIdx κ1 i r = isStartIdx κ2 i r := by
  intro r
  cases r with
  | byId u => rfl
  | byType t => rfl
  | direct b => simp only [isStartIdx, he b]

theorem tdeps_congr (dep : List Ref) (κ1 κ2 : Nat → NKind)
    (he : ∀ x, κ1 x = κ2 x) : tdeps dep κ1 = tdeps dep κ2 := by
  have hf1 : isEndRef κ1 = isEndRef κ2 :=
    funext (isEndRef_congr κ1 κ2 he)
  have hf2 : endIdxRef κ1 = endIdxRef κ2 :=
    funext (endIdxRef_congr κ1 κ2 he)
  unfold tdeps
  rw [hf1, hf2]

theorem tdeps_subset (dep : List Ref) (κ : Nat → NKind) :
    ∀ r ∈ tdeps dep κ, r ∈ dep := by
  intro r hr
  rcases List.mem_append.mp hr with h1 | h2
  · exact List.mem_of_mem_filter h1
  · have h3 := List.mem_of_mem_take h2
    have h4 := (List.perm_insertionSort
      (fun x y => endIdxRef κ y ≤ endIdxRef κ x)
      (dep.filter (isEndRef κ))).mem_iff.mp h3
    exact List.mem_of_mem_filter h4

/-- The element the `StageStart` trim keeps is an end reference of
maximal stage index. -/
theorem tdeps_take_max (dep : List Ref) (κ : Nat → NKind) (x : Ref)
    (hx : x ∈ ((dep.filter (isEndRef κ)).insertionSort
      (fun a b => endIdxRef κ b ≤ endIdxRef κ a)).take 1) :
    x ∈ dep.filter (isEndRef κ) ∧
    ∀ z ∈ dep.filter (isEndRef κ), endIdxRef κ z ≤ endIdxRef κ x := by
  set r := fun a b => endIdxRef κ b ≤ endIdxRef κ a with hrdef
  set l := dep.filter (isEndRef κ) with hldef
  have hperm := List.perm_insertionSort r l
  haveI : IsTrans Ref r := ⟨fun a b c hab hbc => le_trans hbc hab⟩
  haveI : IsTotal Ref r := ⟨fun a b => le_total _ _⟩
  have hsorted : (l.insertionSort r).Sorted r := List.sorted_insertionSort r l
  match hs : l.insertionSort r with
  | [] =>
    rw [hs] at hx
    exact absurd hx (by simp)
  | y :: rest =>
    rw [hs] at hx
    have hxy : x = y := by
      simp only [List.take_succ_cons, List.take_zero] at hx
      rcases List.mem_cons.mp hx with rfl | h2
      · rfl
      · exact absurd h2 (List.not_mem_nil x)
    subst hxy
    rw [hs] at hsorted hperm
    constructor
    · exact hperm.mem_iff.mp (List.mem_cons_self _ _)
    · intro z hz
      rcases List.mem_cons.mp (hperm.mem_iff.mpr hz) with rfl | hz2
      · exact le_refl _
      · exact (List.sorted_cons.mp hsorted).1 z hz2

theorem forall2_mem_left {α β : Type} {R : α → β → Prop} :
    ∀ {l1 : List α} {l2 : List β}, List.Forall₂ R l1 l2 →
      ∀ a ∈ l1, ∃ b ∈ l2, R a b := by
  intro l1 l2 hF
  induction hF with
  | nil => intro a ha; simp at ha
  | cons hR hF2 ih =>
    intro a ha
    rcases List.mem_cons.mp ha with rfl | ha2
    · exact ⟨_, List.mem_cons_self _ _, hR⟩
    · obtain ⟨b, hb, hr⟩ := ih a ha2
      exact ⟨b, List.mem_cons_of_mem _ hb, hr⟩

/-- A schedule of one wave: `Dependency.run` awaits every resolved
predecessor's completion event before its callback starts, so a node's
begin time strictly follows each predecessor's end time, and no node
ends before it begins. -/
def ValidSchedule (h2 : Heap) (W : List Nat) (bg en : Nat → Nat) : Prop :=
  ∀ a ∈ W, bg a ≤ en a ∧ ∀ d ∈ (h2 a).rdeps, en d < bg a

/-- Success shape of `Dependency.link` on a pending `StageStart`: the
preamble trims the dependency list to the highest-index end, then the
resolution loop appends exactly the resolved trimmed references. -/
theorem linkOne_stageStart_ok (c : Container) (st : SState) (a : Nat)
    (i : Int) (L : List Nat) (hk : (st.heap a).kind = .stageStart i)
    (hp : (st.heap a).state = .pending)
    (hres : resolveAll st
      (tdeps (st.heap a).dependencies (fun b => (st.heap b).kind)) =
      some L) :
    (linkOne c st a).2 = .ok ∧
    (linkOne c st a).1.byId = st.byId ∧
    (∀ b, b ≠ a → (linkOne c st a).1.heap b = st.heap b) ∧
    (linkOne c st a).1.heap a = { st.heap a with state := NState.linked, dependencies := tdeps (st.heap a).dependencies (fun b => (st.heap b).kind), rdeps := (st.heap a).rdeps ++ L } := by
  set TD := tdeps (st.heap a).dependencies (fun b => (st.heap b).kind)
    with hTDdef
  set st2 := trimStageStart st a with hst2def
  have hst2 : st2 = { st with heap := hset st.heap a { st.heap a with dependencies := TD } } := by
    rw [hst2def, trimStageStart_eq]
  have h2a : st2.heap a = { st.heap a with dependencies := TD } := by
    rw [hst2]
    exact hset_self _ _ _
  have h2b : ∀ b, b ≠ a → st2.heap b = st.heap b := by
    intro b hb
    rw [hst2]
    exact hset_other _ _ _ _ hb
  have h2id : st2.byId = st.byId := by rw [hst2]
  have h2ty : st2.byType = st.byType := by rw [hst2]
  have h2u : ∀ b, (st2.heap b).uuid = (st.heap b).uuid := by
    intro b
    by_cases hb : b = a
    · subst hb
      rw [h2a]
    · rw [h2b b hb]
  have h2d : (st2.heap a).dependencies = TD := by rw [h2a]
  have hres2 : resolveAll st2 (st2.heap a).dependencies = some L := by
    rw [h2d, resolveAll_congr st st2 h2id h2ty h2u]
    exact hres
  obtain ⟨c1, c2, c3, c4, c5, c6, c7⟩ := resolveLoop_ok st2 a
    (st2.heap a).dependencies L hres2
  have hbody : linkBody c st a =
      resolveLoop st2 a (st2.heap a).dependencies := by
    unfold linkBody
    rw [hk, ← hst2def]
  unfold linkOne
  rw [if_neg (fun hne => hne hp), hbody]
  match hq : resolveLoop st2 a (st2.heap a).dependencies with
  | (st3, e1) =>
    rw [hq] at c1 c2 c3 c4 c5 c6 c7
    simp only at c1 c2 c3 c4 c5 c6 c7
    subst c1
    refine ⟨rfl, c2.trans h2id, ?_, ?_⟩
    · intro b hb
      show hset st3.heap a { st3.heap a with state := NState.linked } b = _
      rw [hset_other _ _ _ _ hb, c6 b hb, h2b b hb]
    · show hset st3.heap a { st3.heap a with state := NState.linked } a = _
      rw [hset_self, c7, h2a]

/-- Success shape of `Dependency.link` on a pending `StageEnd` with no
declared dependencies: the preamble collects every node that declares
this stage's start into the resolved-predecessor list. -/
theorem linkOne_stageEnd_ok (c : Container) (st : SState) (a : Nat)
    (i : Int) (hk : (st.heap a).kind = .stageEnd i)
    (hp : (st.heap a).state = .pending)
    (hdeps : (st.heap a).dependencies = []) :
    (linkOne c st a).2 = .ok ∧
    (linkOne c st a).1.byId = st.byId ∧
    (∀ b, b ≠ a → (linkOne c st a).1.heap b = st.heap b) ∧
    (linkOne c st a).1.heap a = { st.heap a with state := NState.linked, rdeps := (st.heap a).rdeps ++ (c.all st.heap []).filter (fun p => (st.heap p).dependencies.any (isStartIdx (fun b => (st.heap b).kind) i)) } := by
  set P := (c.all st.heap []).filter (fun p =>
    (st.heap p).dependencies.any
      (isStartIdx (fun b => (st.heap b).kind) i)) with hPdef
  set st2 := collectStageParts c st a with hst2def
  have hst2 : st2 = { st with heap := hset st.heap a { st.heap a with rdeps := (st.heap a).rdeps ++ P } } := by
    rw [hst2def, collectStageParts_eq c st a i hk, hPdef]
  have h2a : st2.heap a = { st.heap a with rdeps := (st.heap a).rdeps ++ P } := by
    rw [hst2]
    exact hset_self _ _ _
  have h2b : ∀ b, b ≠ a → st2.heap b = st.heap b := by
    intro b hb
    rw [hst2]
    exact hset_other _ _ _ _ hb
  have h2d : (st2.heap a).dependencies = [] := by
    rw [h2a]
    exact hdeps
  have hbody : linkBody c st a =
      resolveLoop st2 a (st2.heap a).dependencies := by
    unfold linkBody
    rw [hk, ← hst2def]
  have hloop : resolveLoop st2 a (st2.heap a).dependencies = (st2, none) := by
    rw [h2d]
    rfl
  unfold linkOne
  rw [if_neg (fun hne => hne hp), hbody, hloop]
  refine ⟨rfl, ?_, ?_, ?_⟩
  · show st2.byId = st.byId
    rw [hst2]
  · intro b hb
    show hset st2.heap a { st2.heap a with state := NState.linked } b = _
    rw [hset_other _ _ _ _ hb, h2b b hb]
  · show hset st2.heap a { st2.heap a with state := NState.linked } a = _
    rw [hset_self, h2a]

/-- The link loop over a wave of plain participants, stage starts and
stage ends (fresh, with direct references into the wave): every node
links; plain and stage-start nodes resolve their (trimmed) reference
lists, and every stage end collects the plain nodes that declare its
stage's start. -/
theorem linkLoop_stage_master (c : Container) (full : List Nat) :
    ∀ (W : List Nat) (st0 : SState),
    (∀ a ∈ W, a ∈ full) →
    W.Nodup →
    (∀ b ∈ full, aget st0.byId b = some b) →
    (∀ b ∈ full, (st0.heap b).uuid = b) →
    (∀ a ∈ W, (st0.heap a).state = .pending ∧
      (((st0.heap a).kind = .plain ∧
          ∀ r ∈ (st0.heap a).dependencies, ∃ b ∈ full, r = .direct b) ∨
       (∃ i, (st0.heap a).kind = .stageStart i ∧
          ∀ r ∈ (st0.heap a).dependencies, ∃ b ∈ full, r = .direct b) ∨
       (∃ i, (st0.heap a).kind = .stageEnd i ∧
          (st0.heap a).dependencies = []))) →
    (∀ x, ((linkLoop c st0 W).1.heap x).uuid = (st0.heap x).uuid ∧
      ((linkLoop c st0 W).1.heap x).kind = (st0.heap x).kind ∧
      ((st0.heap x).kind = .plain →
        ((linkLoop c st0 W).1.heap x).dependencies =
          (st0.heap x).dependencies)) ∧
    (∀ b, b ∉ W → (linkLoop c st0 W).1.heap b = st0.heap b) ∧
    (∀ a ∈ W, (st0.heap a).kind = .plain → ∃ L,
      (linkLoop c st0 W).1.heap a = { st0.heap a with state := NState.linked, rdeps := (st0.heap a).rdeps ++ L } ∧
      List.Forall₂ (fun r d => r = Ref.direct d)
        (st0.heap a).dependencies L) ∧
    (∀ a ∈ W, ∀ i, (st0.heap a).kind = .stageStart i → ∃ L,
      (linkLoop c st0 W).1.heap a = { st0.heap a with state := NState.linked, dependencies := tdeps (st0.heap a).dependencies (fun b => (st0.heap b).kind), rdeps := (st0.heap a).rdeps ++ L } ∧
      List.Forall₂ (fun r d => r = Ref.direct d)
        (tdeps (st0.heap a).dependencies (fun b => (st0.heap b).kind)) L) ∧
    (∀ a ∈ W, ∀ i, (st0.heap a).kind = .stageEnd i →
      ∀ q ∈ c.all st0.heap [], (st0.heap q).kind = .plain →
      (st0.heap q).dependencies.any
        (isStartIdx (fun b => (st0.heap b).kind) i) = true →
      q ∈ ((linkLoop c st0 W).1.heap a).rdeps) := by
  intro W
  induction W with
  | nil =>
    intro st0 _ _ _ _ _
    refine ⟨fun x => ⟨rfl, rfl, fun _ => rfl⟩, fun b _ => rfl, ?_, ?_, ?_⟩
    · intro a ha
      exact absurd ha (List.not_mem_nil a)
    · intro a ha
      exact absurd ha (List.not_mem_nil a)
    · intro a ha
      exact absurd ha (List.not_mem_nil a)
  | cons a rest ih =>
    intro st0 hsub hnd hbid huuid hclass
    have hanotin : a ∉ rest := (List.nodup_cons.mp hnd).1
    have hnd2 : rest.Nodup := (List.nodup_cons.mp hnd).2
    obtain ⟨hpa, hcasea⟩ := hclass a (List.mem_cons_self _ _)
    have hresdirect : ∀ refs, (∀ r ∈ refs, ∃ b ∈ full, r = .direct b) →
        ∃ L, resolveAll st0 refs = some L ∧
          List.Forall₂ (fun r d => r = Ref.direct d) refs L := by
      intro refs hall
      apply resolveAll_of_forall
      intro r hr
      obtain ⟨b, hbf, rfl⟩ := hall r hr
      refine ⟨b, ?_, rfl⟩
      show aget st0.byId ((st0.heap b).uuid) = some b
      rw [huuid b hbf]
      exact hbid b hbf
    -- process the head node; in each case package the same step facts
    have hstepfacts : ∃ st1,
        linkOne c st0 a = (st1, .ok) ∧
        st1.byId = st0.byId ∧
        (∀ b, b ≠ a → st1.heap b = st0.heap b) ∧
        (st1.heap a).uuid = (st0.heap a).uuid ∧
        (st1.heap a).kind = (st0.heap a).kind ∧
        ((st0.heap a).kind = .plain →
          (st1.heap a).dependencies = (st0.heap a).dependencies) ∧
        ((st0.heap a).kind = .plain → ∃ L,
          st1.heap a = { st0.heap a with state := NState.linked, rdeps := (st0.heap a).rdeps ++ L } ∧
          List.Forall₂ (fun r d => r = Ref.direct d)
            (st0.heap a).dependencies L) ∧
        (∀ i, (st0.heap a).kind = .stageStart i → ∃ L,
          st1.heap a = { st0.heap a with state := NState.linked, dependencies := tdeps (st0.heap a).dependencies (fun b => (st0.heap b).kind), rdeps := (st0.heap a).rdeps ++ L } ∧
          List.Forall₂ (fun r d => r = Ref.direct d)
            (tdeps (st0.heap a).dependencies (fun b => (st0.heap b).kind))
            L) ∧
        (∀ i, (st0.heap a).kind = .stageEnd i →
          ∀ q ∈ c.all st0.heap [], (st0.heap q).dependencies.any
            (isStartIdx (fun b => (st0.heap b).kind) i) = true →
          q ∈ (st1.heap a).rdeps) := by
      rcases hcasea with ⟨hk, hdir⟩ | ⟨i, hk, hdir⟩ | ⟨i, hk, hdeps⟩
      · obtain ⟨L, hLa, hFa⟩ := hresdirect (st0.heap a).dependencies hdir
        obtain ⟨o1, o2, o3, o4, o5, o6, o7⟩ :=
          linkOne_plain_ok c st0 a L hk hpa hLa
        match hq : linkOne c st0 a with
        | (st1, o) =>
          rw [hq] at o1 o2 o6 o7
          simp only at o1 o2 o6 o7
          subst o1
          refine ⟨st1, rfl, o2, o6, by rw [o7], by rw [o7, hk], ?_, ?_, ?_, ?_⟩
          · intro _
            rw [o7]
          · intro _
            exact ⟨L, o7, hFa⟩
          · intro j hj
            rw [hk] at hj
            exact nomatch hj
          · intro j hj
            rw [hk] at hj
            exact nomatch hj
      · obtain ⟨L, hLa, hFa⟩ := hresdirect
          (tdeps (st0.heap a).dependencies (fun b => (st0.heap b).kind))
          (fun r hr => hdir r (tdeps_subset _ _ r hr))
        obtain ⟨o1, o2, o6, o7⟩ :=
          linkOne_stageStart_ok c st0 a i L hk hpa hLa
        match hq : linkOne c st0 a with
        | (st1, o) =>
          rw [hq] at o1 o2 o6 o7
          simp only at o1 o2 o6 o7
          subst o1
          refine ⟨st1, rfl, o2, o6, by rw [o7], by rw [o7, hk], ?_, ?_, ?_, ?_⟩
          · intro hpl
            rw [hk] at hpl
            exact nomatch hpl
          · intro hpl
            rw [hk] at hpl
            exact nomatch hpl
          · intro j hj
            rw [hk] at hj
            injection hj with hij
            subst hij
            exact ⟨L, o7, hFa⟩
          · intro j hj
            rw [hk] at hj
            exact nomatch hj
      · obtain ⟨o1, o2, o6, o7⟩ := linkOne_stageEnd_ok c st0 a i hk hpa hdeps
        match hq : linkOne c st0 a with
        | (st1, o) =>
          rw [hq] at o1 o2 o6 o7
          simp only at o1 o2 o6 o7
          subst o1
          refine ⟨st1, rfl, o2, o6, by rw [o7], by rw [o7, hk], ?_, ?_, ?_, ?_⟩
          · intro hpl
            rw [hk] at hpl
            exact nomatch hpl
          · intro hpl
            rw [hk] at hpl
            exact nomatch hpl
          · intro j hj
            rw [hk] at hj
            exact nomatch hj
          · intro j hj
            rw [hk] at hj
            injection hj with hij
            subst hij
            intro q hq2 hany
            rw [o7]
            show q ∈ (st0.heap a).rdeps ++ _
            refine List.mem_append.mpr (Or.inr ?_)
            exact List.mem_filter.mpr ⟨hq2, hany⟩
    obtain ⟨st1, hq, s2, s6, su, sk, sdp, spl, sst, sen⟩ := hstepfacts
    have huuid1all : ∀ x, (st1.heap x).uuid = (st0.heap x).uuid := by
      intro x
      by_cases hx : x = a
      · subst hx
        exact su
      · rw [s6 x hx]
    have hkind1all : ∀ x, (st1.heap x).kind = (st0.heap x).kind := by
      intro x
      by_cases hx : x = a
      · subst hx
        exact sk
      · rw [s6 x hx]
    have hdep1pl : ∀ x, (st0.heap x).kind = .plain →
        (st1.heap x).dependencies = (st0.heap x).dependencies := by
      intro x hxk
      by_cases hx : x = a
      · subst hx
        exact sdp hxk
      · rw [s6 x hx]
    have hκ : ∀ x, (st1.heap x).kind = (st0.heap x).kind := hkind1all
    have hall1 : c.all st1.heap [] = c.all st0.heap [] :=
      Container.all_congr st1.heap st0.heap huuid1all [] c
    have ihres := ih st1
      (fun b hb => hsub b (List.mem_cons_of_mem _ hb))
      hnd2
      (by
        intro b hbf
        rw [s2]
        exact hbid b hbf)
      (by
        intro b hbf
        rw [huuid1all b]
        exact huuid b hbf)
      (by
        intro b hb
        have hbne : b ≠ a := fun hba => hanotin (hba ▸ hb)
        rw [s6 b hbne]
        exact hclass b (List.mem_cons_of_mem _ hb))
    obtain ⟨i0, i1, i2, i3, i4⟩ := ihres
    have hstep : linkLoop c st0 (a :: rest) =
        (match linkLoop c st1 rest with
         | (stx, kept, e) => (stx, a :: kept, e)) := by
      conv_lhs => unfold linkLoop
      rw [hq]
    rw [hstep]
    match hq2 : linkLoop c st1 rest with
    | (stx, kept, e) =>
      rw [hq2] at i0 i1 i2 i3 i4
      simp only at i0 i1 i2 i3 i4
      have hfa : stx.heap a = st1.heap a := i1 a hanotin
      refine ⟨?_, ?_, ?_, ?_, ?_⟩
      · intro x
        obtain ⟨j1, j2, j3⟩ := i0 x
        refine ⟨j1.trans (huuid1all x), j2.trans (hkind1all x), ?_⟩
        intro hxk
        rw [j3 (by rw [hkind1all x]; exact hxk)]
        exact hdep1pl x hxk
      · intro b hb
        have hbne : b ≠ a := fun hba => hb (hba ▸ List.mem_cons_self _ _)
        have hbnr : b ∉ rest := fun hbr => hb (List.mem_cons_of_mem _ hbr)
        rw [i1 b hbnr, s6 b hbne]
      · intro b hb hbk
        rcases List.mem_cons.mp hb with rfl | hb2
        · obtain ⟨L, hrec, hF⟩ := spl hbk
          exact ⟨L, by rw [hfa, hrec], hF⟩
        · obtain ⟨L, hrec, hF⟩ := i2 b hb2
            (by rw [hkind1all b]; exact hbk)
          have hsb : st1.heap b = st0.heap b :=
            s6 b (fun hba => hanotin (hba ▸ hb2))
          refine ⟨L, ?_, ?_⟩
          · rw [hrec, hsb]
          · rw [hsb] at hF
            exact hF
      · intro b hb j hbk
        rcases List.mem_cons.mp hb with rfl | hb2
        · obtain ⟨L, hrec, hF⟩ := sst j hbk
          exact ⟨L, by rw [hfa, hrec], hF⟩
        · obtain ⟨L, hrec, hF⟩ := i3 b hb2 j
            (by rw [hkind1all b]; exact hbk)
          have hsb : st1.heap b = st0.heap b :=
            s6 b (fun hba => hanotin (hba ▸ hb2))
          have htd : tdeps (st1.heap b).dependencies
              (fun x => (st1.heap x).kind) =
              tdeps (st0.heap b).dependencies
              (fun x => (st0.heap x).kind) := by
            rw [hsb]
            exact tdeps_congr _ _ _ hκ
          refine ⟨L, ?_, ?_⟩
          · rw [hrec, htd, hsb]
          · rw [htd] at hF
            exact hF
      · intro b hb j hbk q hq3 hqk hany
        rcases List.mem_cons.mp hb with rfl | hb2
        · have hmem := sen j hbk q hq3 hany
          rw [hfa]
          exact hmem
        · apply i4 b hb2 j (by rw [hkind1all b]; exact hbk) q
            (by rw [hall1]; exact hq3)
            (by rw [hkind1all q]; exact hqk)
          rw [hdep1pl q hqk]
          have hfeq : isStartIdx (fun x => (st1.heap x).kind) j =
              isStartIdx (fun x => (st0.heap x).kind) j :=
            funext (isStartIdx_congr _ _ j hκ)
          rw [hfeq]
          exact hany

/-- Invariant of a `StagesModule` state while stages are declared via
`get_stage` and participants registered via `setup`. -/
structure StInv (st : StagesSt) : Prop where
  bound_eq : st.bound = st.stages.flatMap (fun p => [p.2.1, p.2.2])
  lt_next : ∀ p ∈ st.stages, p.2.1 < st.next ∧ p.2.2 < st.next
  fresh : ∀ x, st.next ≤ x → st.heap x = { uuid := 0 }
  idx_nodup : st.stages.Pairwise (fun p q => p.1 ≠ q.1)
  spairwise : st.stages.Pairwise (fun p q => p.2.1 ≠ q.2.1 ∧
    p.2.1 ≠ q.2.2 ∧ p.2.2 ≠ q.2.1 ∧ p.2.2 ≠ q.2.2)
  sel : ∀ p ∈ st.stages, p.2.1 ≠ p.2.2
  snode : ∀ p ∈ st.stages,
    (st.heap p.2.1).uuid = p.2.1 ∧
    (st.heap p.2.1).kind = .stageStart p.1 ∧
    (st.heap p.2.1).state = .pending ∧
    (∀ r ∈ (st.heap p.2.1).dependencies,
      ∃ q ∈ st.stages, q.1 < p.1 ∧ r = Ref.direct q.2.2) ∧
    (∀ q ∈ st.stages, q.1 < p.1 →
      Ref.direct q.2.2 ∈ (st.heap p.2.1).dependencies)
  enode : ∀ p ∈ st.stages,
    (st.heap p.2.2).uuid = p.2.2 ∧
    (st.heap p.2.2).kind = .stageEnd p.1 ∧
    (st.heap p.2.2).state = .pending ∧
    (st.heap p.2.2).dependencies = []

theorem stageLookup_mem (i : Int) (s e : Nat) :
    ∀ S : List (Int × Nat × Nat), stageLookup S i = some (s, e) →
      (i, s, e) ∈ S := by
  intro S
  induction S with
  | nil => intro hg; exact nomatch hg
  | cons p rest ih =>
    obtain ⟨pi, ps, pe⟩ := p
    intro hg
    unfold stageLookup at hg
    by_cases hp : pi = i
    · rw [if_pos hp] at hg
      injection hg with hg2
      rw [← hp, ← hg2]
      exact List.mem_cons_self _ _
    · rw [if_neg hp] at hg
      exact List.mem_cons_of_mem _ (ih hg)

theorem stageLookup_none (i : Int) :
    ∀ S : List (Int × Nat × Nat), stageLookup S i = none →
      ∀ p ∈ S, p.1 ≠ i := by
  intro S
  induction S with
  | nil => intro _ p hp; exact absurd hp (List.not_mem_nil p)
  | cons q rest ih =>
    intro hg p hp
    unfold stageLookup at hg
    by_cases hq : q.1 = i
    · rw [if_pos hq] at hg
      exact nomatch hg
    · rw [if_neg hq] at hg
      rcases List.mem_cons.mp hp with rfl | hp2
      · exact hq
      · exact ih hg p hp2

/-- One step of the dependency-wiring loop of `get_stage` (the `for i,
(stage_start, stage_end) in self.stages.items()` body). -/
def gsF (index : Int) (sa ea : Nat) (g : Heap) (p : Int × Nat × Nat) : Heap :=
  if p.1 < index then
    hset g sa { g sa with dependencies := (g sa).dependencies ++ [.direct p.2.2] }
  else
    hset g p.2.1
      { g p.2.1 with dependencies := (g p.2.1).dependencies ++ [.direct ea] }

/-- Unfolding `get_stage` on a not-yet-declared index. -/
theorem getStage_none_eq (st : StagesSt) (index : Int)
    (h0 : stageLookup st.stages index = none) :
    getStage st index =
      ({ heap := st.stages.foldl (gsF index st.next (st.next + 1))
           (hset (hset st.heap st.next
             { uuid := st.next, priority := -1000, kind := .stageStart index })
             (st.next + 1)
             { uuid := st.next + 1, priority := -1000, kind := .stageEnd index }),
         stages := st.stages ++ [(index, st.next, st.next + 1)],
         bound := st.bound ++ [st.next, st.next + 1],
         next := st.next + 2 }, st.next) := by
  unfold getStage
  rw [h0]
  rfl

/-- What the wiring loop of `get_stage` does to the heap: addresses other
than the new start and the old starts are untouched, the new start
accumulates one direct reference to the end of every lower stage in
order, and each old greater-or-equal stage's start gains one direct
reference to the new end. -/
theorem gsFold_facts (index : Int) (sa ea : Nat) :
    ∀ (S : List (Int × Nat × Nat)) (hh : Heap),
      (∀ p ∈ S, p.2.1 ≠ sa) →
      S.Pairwise (fun p q => p.2.1 ≠ q.2.1) →
      (∀ x, x ≠ sa → (∀ p ∈ S, x ≠ p.2.1) →
        S.foldl (gsF index sa ea) hh x = hh x) ∧
      (S.foldl (gsF index sa ea) hh sa =
        { hh sa with dependencies := (hh sa).dependencies ++ (S.filter (fun p => decide (p.1 < index))).map (fun p => Ref.direct p.2.2) }) ∧
      (∀ p ∈ S, S.foldl (gsF index sa ea) hh p.2.1 =
        if p.1 < index then hh p.2.1
        else { hh p.2.1 with dependencies := (hh p.2.1).dependencies ++ [.direct ea] }) := by
  intro S
  induction S with
  | nil =>
    intro hh _ _
    refine ⟨fun x _ _ => rfl, ?_, fun p hp => absurd hp (List.not_mem_nil p)⟩
    show hh sa = { hh sa with dependencies := (hh sa).dependencies ++ [] }
    rw [List.append_nil]
  | cons q rest ih =>
    intro hh hsa hpw
    have hqsa : q.2.1 ≠ sa := hsa q (List.mem_cons_self _ _)
    have hsar : ∀ p ∈ rest, p.2.1 ≠ sa :=
      fun p hp => hsa p (List.mem_cons_of_mem _ hp)
    have hpwr : rest.Pairwise (fun p r => p.2.1 ≠ r.2.1) :=
      List.Pairwise.of_cons hpw
    have hqr : ∀ p ∈ rest, q.2.1 ≠ p.2.1 :=
      fun p hp => List.rel_of_pairwise_cons hpw hp
    have ih2 := ih (gsF index sa ea hh q) hsar hpwr
    have hfc : (q :: rest).foldl (gsF index sa ea) hh =
        rest.foldl (gsF index sa ea) (gsF index sa ea hh q) := rfl
    have hstep : ∀ x, x ≠ sa → x ≠ q.2.1 → gsF index sa ea hh q x = hh x := by
      intro x hx1 hx2
      unfold gsF
      by_cases hqi : q.1 < index
      · rw [if_pos hqi, hset_other _ _ _ _ hx1]
      · rw [if_neg hqi, hset_other _ _ _ _ hx2]
    refine ⟨?_, ?_, ?_⟩
    · intro x hx1 hx2
      rw [hfc, ih2.1 x hx1 (fun p hp => hx2 p (List.mem_cons_of_mem _ hp)),
        hstep x hx1 (hx2 q (List.mem_cons_self _ _))]
    · rw [hfc, ih2.2.1]
      by_cases hqi : q.1 < index
      · have h1 : gsF index sa ea hh q sa =
            { hh sa with dependencies := (hh sa).dependencies ++ [.direct q.2.2] } := by
          unfold gsF
          rw [if_pos hqi, hset_self]
        rw [h1]
        have h2 : (q :: rest).filter (fun p => decide (p.1 < index)) =
            q :: rest.filter (fun p => decide (p.1 < index)) := by
          rw [List.filter_cons_of_pos]
          exact decide_eq_true hqi
        rw [h2, List.map_cons]
        simp [List.append_assoc]
      · have h1 : gsF index sa ea hh q sa = hh sa := by
          unfold gsF
          rw [if_neg hqi, hset_other _ _ _ _ (Ne.symm hqsa)]
        rw [h1]
        have h2 : (q :: rest).filter (fun p => decide (p.1 < index)) =
            rest.filter (fun p => decide (p.1 < index)) := by
          rw [List.filter_cons_of_neg]
          simp only [decide_eq_true_eq]
          exact hqi
        rw [h2]
    · intro p hp
      rcases List.mem_cons.mp hp with rfl | hp2
      · rw [hfc, ih2.1 p.2.1 hqsa (fun r hr => hqr r hr)]
        unfold gsF
        by_cases hqi : p.1 < index
        · rw [if_pos hqi, if_pos hqi, hset_other _ _ _ _ hqsa]
        · rw [if_neg hqi, if_neg hqi, hset_self]
      · have hne : p.2.1 ≠ q.2.1 := fun he => hqr p hp2 he.symm
        rw [hfc, ih2.2.2 p hp2,
          hstep p.2.1 (hsar p hp2) hne]

/-- Cross-entry address distinctness, in membership form. -/
theorem spair_all (S : List (Int × Nat × Nat))
    (hp : S.Pairwise (fun p q => p.2.1 ≠ q.2.1 ∧ p.2.1 ≠ q.2.2 ∧ p.2.2 ≠ q.2.1 ∧ p.2.2 ≠ q.2.2)) :
    ∀ p ∈ S, ∀ q ∈ S, p ≠ q →
      p.2.1 ≠ q.2.1 ∧ p.2.1 ≠ q.2.2 ∧ p.2.2 ≠ q.2.1 ∧ p.2.2 ≠ q.2.2 := by
  intro p hpm q hqm hne
  have hsym : Symmetric (fun p q : Int × Nat × Nat =>
      p.2.1 ≠ q.2.1 ∧ p.2.1 ≠ q.2.2 ∧ p.2.2 ≠ q.2.1 ∧ p.2.2 ≠ q.2.2) := by
    intro x y h
    exact ⟨Ne.symm h.1, Ne.symm h.2.2.1, Ne.symm h.2.1, Ne.symm h.2.2.2⟩
  exact hp.forall hsym hpm hqm hne

/-- `get_stage` on a fresh index: the state invariant is re-established.
The heap facts `hFsa`/`hFea`/`hFst`/`hFot` summarise what the allocation
and the wiring loop did (they are discharged from `gsFold_facts` at the
call site). -/
theorem gsNew_inv (st stNew : StagesSt) (index : Int) (F : Heap)
    (hinv : StInv st)
    (hidx : ∀ p ∈ st.stages, p.1 ≠ index)
    (hFsa : F st.next = { uuid := st.next, priority := -1000, kind := .stageStart index, dependencies := (st.stages.filter (fun p => decide (p.1 < index))).map (fun p => Ref.direct p.2.2) })
    (hFea : F (st.next + 1) = { uuid := st.next + 1, priority := -1000, kind := .stageEnd index })
    (hFst : ∀ p ∈ st.stages, F p.2.1 = if p.1 < index then st.heap p.2.1 else { st.heap p.2.1 with dependencies := (st.heap p.2.1).dependencies ++ [.direct (st.next + 1)] })
    (hFot : ∀ x, x ≠ st.next → x ≠ st.next + 1 →
      (∀ p ∈ st.stages, x ≠ p.2.1) → F x = st.heap x)
    (hheap : stNew.heap = F)
    (hstg : stNew.stages = st.stages ++ [(index, st.next, st.next + 1)])
    (hbd : stNew.bound = st.bound ++ [st.next, st.next + 1])
    (hnx : stNew.next = st.next + 2) :
    StInv stNew := by
  obtain ⟨hbe, hlt, hfr, hin, hsp, hsel, hsn, hen⟩ := hinv
  have hcross := spair_all st.stages hsp
  have hend_ne : ∀ p ∈ st.stages, ∀ q ∈ st.stages, p.2.2 ≠ q.2.1 := by
    intro p hp q hq
    by_cases hpq : p = q
    · rw [hpq]
      exact Ne.symm (hsel q hq)
    · exact (hcross p hp q hq hpq).2.2.1
  have hFend : ∀ p ∈ st.stages, F p.2.2 = st.heap p.2.2 := by
    intro p hp
    exact hFot p.2.2 (Nat.ne_of_lt (hlt p hp).2)
      (Nat.ne_of_lt (Nat.lt_succ_of_lt (hlt p hp).2))
      (fun q hq => hend_ne p hp q hq)
  refine ⟨?_, ?_, ?_, ?_, ?_, ?_, ?_, ?_⟩
  · rw [hbd, hstg, List.flatMap_append, ← hbe]
    rfl
  · rw [hstg, hnx]
    intro p hp
    rcases List.mem_append.mp hp with h | h
    · have h1 := (hlt p h).1
      have h2 := (hlt p h).2
      exact ⟨by omega, by omega⟩
    · rw [List.mem_singleton] at h
      subst h
      exact ⟨show st.next < st.next + 2 by omega,
        show st.next + 1 < st.next + 2 by omega⟩
  · rw [hnx, hheap]
    intro x hx
    rw [hFot x (by omega) (by omega)
      (fun q hq => by have := (hlt q hq).1; omega)]
    exact hfr x (by omega)
  · rw [hstg, List.pairwise_append]
    refine ⟨hin, List.pairwise_singleton _ _, ?_⟩
    intro a ha b hb
    rw [List.mem_singleton] at hb
    subst hb
    exact hidx a ha
  · rw [hstg, List.pairwise_append]
    refine ⟨hsp, List.pairwise_singleton _ _, ?_⟩
    intro a ha b hb
    rw [List.mem_singleton] at hb
    subst hb
    have h1 := (hlt a ha).1
    have h2 := (hlt a ha).2
    refine ⟨?_, ?_, ?_, ?_⟩
    · show a.2.1 ≠ st.next
      omega
    · show a.2.1 ≠ st.next + 1
      omega
    · show a.2.2 ≠ st.next
      omega
    · show a.2.2 ≠ st.next + 1
      omega
  · rw [hstg]
    intro p hp
    rcases List.mem_append.mp hp with h | h
    · exact hsel p h
    · rw [List.mem_singleton] at h
      subst h
      show st.next ≠ st.next + 1
      omega
  · rw [hstg, hheap]
    intro p hp
    rcases List.mem_append.mp hp with hpo | hpn
    · have hF1 := hFst p hpo
      obtain ⟨u1, k1, s1, d1, c1⟩ := hsn p hpo
      by_cases hpi : p.1 < index
      · rw [if_pos hpi] at hF1
        rw [hF1]
        refine ⟨u1, k1, s1, ?_, ?_⟩
        · intro r hr
          obtain ⟨q, hq, hql, he⟩ := d1 r hr
          exact ⟨q, List.mem_append_left _ hq, hql, he⟩
        · intro q hq hql
          rcases List.mem_append.mp hq with h | h
          · exact c1 q h hql
          · rw [List.mem_singleton] at h
            subst h
            exact absurd (show (index : Int) < p.1 from hql) (by omega)
      · rw [if_neg hpi] at hF1
        have hgt : index < p.1 := by
          have := hidx p hpo
          omega
        have hu : (F p.2.1).uuid = (st.heap p.2.1).uuid := by rw [hF1]
        have hk : (F p.2.1).kind = (st.heap p.2.1).kind := by rw [hF1]
        have hs : (F p.2.1).state = (st.heap p.2.1).state := by rw [hF1]
        have hd : (F p.2.1).dependencies = (st.heap p.2.1).dependencies ++ [.direct (st.next + 1)] := by rw [hF1]
        refine ⟨by rw [hu]; exact u1, by rw [hk]; exact k1, by rw [hs]; exact s1, ?_, ?_⟩
        · intro r hr
          rw [hd] at hr
          rcases List.mem_append.mp hr with h | h
          · obtain ⟨q, hq, hql, he⟩ := d1 r h
            exact ⟨q, List.mem_append_left _ hq, hql, he⟩
          · rw [List.mem_singleton] at h
            subst h
            refine ⟨(index, st.next, st.next + 1), List.mem_append_right _ (List.mem_singleton.mpr rfl), hgt, rfl⟩
        · intro q hq hql
          rw [hd]
          rcases List.mem_append.mp hq with h | h
          · exact List.mem_append_left _ (c1 q h hql)
          · rw [List.mem_singleton] at h
            subst h
            exact List.mem_append_right _ (List.mem_singleton.mpr rfl)
    · rw [List.mem_singleton] at hpn
      subst hpn
      have hdsa : (F st.next).dependencies = (st.stages.filter (fun p => decide (p.1 < index))).map (fun p => Ref.direct p.2.2) := by rw [hFsa]
      refine ⟨by rw [hFsa], by rw [hFsa], by rw [hFsa], ?_, ?_⟩
      · intro r hr
        rw [hdsa] at hr
        obtain ⟨q, hqf, he⟩ := List.mem_map.mp hr
        obtain ⟨hqm, hqd⟩ := List.mem_filter.mp hqf
        refine ⟨q, List.mem_append_left _ hqm, ?_, he.symm⟩
        exact of_decide_eq_true hqd
      · intro q hq hql
        rw [hdsa]
        rcases List.mem_append.mp hq with h | h
        · refine List.mem_map.mpr ⟨q, List.mem_filter.mpr ⟨h, decide_eq_true hql⟩, rfl⟩
        · rw [List.mem_singleton] at h
          subst h
          exact absurd (show (index : Int) < index from hql) (by omega)
  · rw [hstg, hheap]
    intro p hp
    rcases List.mem_append.mp hp with hpo | hpn
    · rw [hFend p hpo]
      exact hen p hpo
    · rw [List.mem_singleton] at hpn
      subst hpn
      rw [show ((index, st.next, st.next + 1) : Int × Nat × Nat).2.2 = st.next + 1 from rfl, hFea]
      exact ⟨rfl, rfl, rfl, rfl⟩

/-- `get_stage` preserves the stages-module invariant; the stage list
only grows (new entries at fresh addresses), the allocator only grows,
the returned address is a declared start node for the requested index,
and already-allocated plain nodes are untouched. -/
theorem getStage_inv (st : StagesSt) (index : Int) (hinv : StInv st) :
    StInv (getStage st index).1 ∧
    (∃ tl, (getStage st index).1.stages = st.stages ++ tl ∧
      ∀ q ∈ tl, st.next ≤ q.2.1 ∧ st.next ≤ q.2.2) ∧
    st.next ≤ (getStage st index).1.next ∧
    (∃ e2, (index, (getStage st index).2, e2) ∈ (getStage st index).1.stages) ∧
    (∀ x, x < st.next → (st.heap x).kind = .plain →
      (getStage st index).1.heap x = st.heap x) := by
  cases hl : stageLookup st.stages index with
  | some v =>
    obtain ⟨s, e⟩ := v
    have heq : getStage st index = (st, s) := by
      unfold getStage
      rw [hl]
    rw [heq]
    exact ⟨hinv, ⟨[], (List.append_nil _).symm,
        fun q hq => absurd hq (List.not_mem_nil q)⟩, le_refl _,
      ⟨e, stageLookup_mem index s e st.stages hl⟩, fun x _ _ => rfl⟩
  | none =>
    obtain ⟨hbe, hlt, hfr, hin, hsp, hsel, hsn, hen⟩ := hinv
    have hidx := stageLookup_none index st.stages hl
    have hnsa : ∀ p ∈ st.stages, p.2.1 ≠ st.next :=
      fun p hp => Nat.ne_of_lt (hlt p hp).1
    have hpw1 : st.stages.Pairwise (fun p q => p.2.1 ≠ q.2.1) :=
      hsp.imp (fun h => h.1)
    have hg := gsFold_facts index st.next (st.next + 1) st.stages
      (hset (hset st.heap st.next { uuid := st.next, priority := -1000, kind := .stageStart index })
        (st.next + 1) { uuid := st.next + 1, priority := -1000, kind := .stageEnd index })
      hnsa hpw1
    have hBsa : (hset (hset st.heap st.next { uuid := st.next, priority := -1000, kind := .stageStart index })
        (st.next + 1) { uuid := st.next + 1, priority := -1000, kind := .stageEnd index }) st.next =
        { uuid := st.next, priority := -1000, kind := .stageStart index } := by
      rw [hset_other _ _ _ _ (Nat.ne_of_lt (Nat.lt_succ_self st.next)), hset_self]
    have hBea : (hset (hset st.heap st.next { uuid := st.next, priority := -1000, kind := .stageStart index })
        (st.next + 1) { uuid := st.next + 1, priority := -1000, kind := .stageEnd index }) (st.next + 1) =
        { uuid := st.next + 1, priority := -1000, kind := .stageEnd index } :=
      hset_self _ _ _
    have hBx : ∀ x, x ≠ st.next → x ≠ st.next + 1 →
        (hset (hset st.heap st.next { uuid := st.next, priority := -1000, kind := .stageStart index })
          (st.next + 1) { uuid := st.next + 1, priority := -1000, kind := .stageEnd index }) x = st.heap x := by
      intro x h1 h2
      rw [hset_other _ _ _ _ h2, hset_other _ _ _ _ h1]
    have heq := getStage_none_eq st index hl
    refine ⟨?_, ?_, ?_, ?_, ?_⟩
    · refine gsNew_inv st _ index _ ⟨hbe, hlt, hfr, hin, hsp, hsel, hsn, hen⟩ hidx (hg.2.1.trans (by rw [hBsa]; rfl)) ?_ ?_ ?_ (by rw [heq]) (by rw [heq]) (by rw [heq]) (by rw [heq])
      · exact (hg.1 (st.next + 1) (Nat.ne_of_gt (Nat.lt_succ_self st.next))
          (fun p hp => Ne.symm (Nat.ne_of_lt (Nat.lt_succ_of_lt (hlt p hp).1)))).trans hBea
      · intro p hp
        refine (hg.2.2 p hp).trans ?_
        by_cases hpi : p.1 < index
        · rw [if_pos hpi, if_pos hpi,
            hBx p.2.1 (hnsa p hp) (Nat.ne_of_lt (Nat.lt_succ_of_lt (hlt p hp).1))]
        · rw [if_neg hpi, if_neg hpi,
            hBx p.2.1 (hnsa p hp) (Nat.ne_of_lt (Nat.lt_succ_of_lt (hlt p hp).1))]
      · intro x h1 h2 h3
        exact (hg.1 x h1 h3).trans (hBx x h1 h2)
    · refine ⟨[(index, st.next, st.next + 1)], by rw [heq], ?_⟩
      intro q hq
      rw [List.mem_singleton] at hq
      subst hq
      exact ⟨Nat.le_refl _, Nat.le_succ _⟩
    · rw [heq]
      show st.next ≤ st.next + 2
      omega
    · refine ⟨st.next + 1, ?_⟩
      rw [heq]
      exact List.mem_append_right _ (List.mem_singleton.mpr rfl)
    · intro x hx hkx
      have hxs : ∀ p ∈ st.stages, x ≠ p.2.1 := by
        intro p hp he
        have := (hsn p hp).2.1
        rw [← he, hkx] at this
        exact nomatch this
      rw [heq]
      exact (hg.1 x (Nat.ne_of_lt hx) hxs).trans
        (hBx x (Nat.ne_of_lt hx) (Nat.ne_of_lt (Nat.lt_succ_of_lt hx)))

/-- Updating a non-stage address below the allocator preserves the
stages-module invariant (the stage nodes and the bookkeeping are
untouched). -/
theorem StInv_hset_plain (st : StagesSt) (a : Nat) (n : Node) (hinv : StInv st)
    (ha : a < st.next) (hna : ∀ q ∈ st.stages, q.2.1 ≠ a ∧ q.2.2 ≠ a) :
    StInv { st with heap := hset st.heap a n } := by
  obtain ⟨hbe, hlt, hfr, hin, hsp, hsel, hsn, hen⟩ := hinv
  refine ⟨hbe, hlt, ?_, hin, hsp, hsel, ?_, ?_⟩
  · intro x hx
    dsimp only at hx ⊢
    rw [hset_other _ _ _ _ (by omega)]
    exact hfr x hx
  · intro p hp
    dsimp only at hp ⊢
    rw [hset_other _ _ _ _ (hna p hp).1]
    obtain ⟨u1, k1, s1, d1, c1⟩ := hsn p hp
    refine ⟨u1, k1, s1, d1, ?_⟩
    intro q hq hql
    exact c1 q hq hql
  · intro p hp
    dsimp only at hp ⊢
    rw [hset_other _ _ _ _ (hna p hp).2]
    exact hen p hp

/-- Allocating a fresh node at the allocator address preserves the
stages-module invariant. -/
theorem StInv_alloc (st : StagesSt) (n : Node) (hinv : StInv st) :
    StInv { st with heap := hset st.heap st.next n, next := st.next + 1 } := by
  obtain ⟨hbe, hlt, hfr, hin, hsp, hsel, hsn, hen⟩ := hinv
  refine ⟨hbe, ?_, ?_, hin, hsp, hsel, ?_, ?_⟩
  · intro p hp
    dsimp only at hp ⊢
    have h1 := (hlt p hp).1
    have h2 := (hlt p hp).2
    exact ⟨by omega, by omega⟩
  · intro x hx
    dsimp only at hx ⊢
    rw [hset_other _ _ _ _ (by omega)]
    exact hfr x (by omega)
  · intro p hp
    dsimp only at hp ⊢
    rw [hset_other _ _ _ _ (Nat.ne_of_lt (hlt p hp).1)]
    obtain ⟨u1, k1, s1, d1, c1⟩ := hsn p hp
    exact ⟨u1, k1, s1, d1, c1⟩
  · intro p hp
    dsimp only at hp ⊢
    rw [hset_other _ _ _ _ (Nat.ne_of_lt (hlt p hp).2)]
    exact hen p hp

/-- One step of the stage-joining loop of `Plugin.setup`: fetch the
stage's start node via `get_stage` and append it to the participant's
declared dependencies. -/
def apF (a : Nat) (acc : StagesSt) (i : Int) : StagesSt :=
  let q := getStage acc i
  { q.1 with heap := hset q.1.heap a { q.1.heap a with dependencies := (q.1.heap a).dependencies ++ [.direct q.2] } }

theorem addPart_eq (st : StagesSt) (p : PartSpec) :
    addPart st p =
      (p.sIdxs.foldl (apF st.next) { st with heap := hset st.heap st.next { uuid := st.next, priority := p.prio, cbVal := p.cb }, next := st.next + 1 }, st.next) :=
  rfl

/-- Running the stage-joining loop preserves the invariant, only grows
the stage list and the allocator, keeps the participant's node plain and
pending with dependencies that all target declared stage starts, and
leaves other allocated plain nodes untouched. -/
theorem apFold_inv (a : Nat) :
    ∀ (idxs : List Int) (acc : StagesSt),
      StInv acc → a < acc.next →
      (∀ q ∈ acc.stages, q.2.1 ≠ a ∧ q.2.2 ≠ a) →
      (acc.heap a).uuid = a → (acc.heap a).kind = .plain →
      (acc.heap a).state = .pending →
      (∀ r ∈ (acc.heap a).dependencies, ∃ q ∈ acc.stages, r = Ref.direct q.2.1) →
      StInv (idxs.foldl (apF a) acc) ∧
      (∃ tl, (idxs.foldl (apF a) acc).stages = acc.stages ++ tl) ∧
      acc.next ≤ (idxs.foldl (apF a) acc).next ∧
      (∀ q ∈ (idxs.foldl (apF a) acc).stages, q.2.1 ≠ a ∧ q.2.2 ≠ a) ∧
      ((idxs.foldl (apF a) acc).heap a).uuid = a ∧
      ((idxs.foldl (apF a) acc).heap a).kind = .plain ∧
      ((idxs.foldl (apF a) acc).heap a).state = .pending ∧
      (∀ r ∈ ((idxs.foldl (apF a) acc).heap a).dependencies,
        ∃ q ∈ (idxs.foldl (apF a) acc).stages, r = Ref.direct q.2.1) ∧
      (∀ x, x < acc.next → x ≠ a → (acc.heap x).kind = .plain →
        (idxs.foldl (apF a) acc).heap x = acc.heap x) := by
  intro idxs
  induction idxs with
  | nil =>
    intro acc h1 h2 h3 h4 h5 h6 h7
    exact ⟨h1, ⟨[], (List.append_nil _).symm⟩, Nat.le_refl _, h3, h4, h5, h6, h7,
      fun x _ _ _ => rfl⟩
  | cons i rest ih =>
    intro acc hinv ha hna hu hk hs hd
    obtain ⟨hq1, ⟨tl, htl, htlge⟩, hnx, ⟨e2, hmem⟩, hunt⟩ := getStage_inv acc i hinv
    have hha : (getStage acc i).1.heap a = acc.heap a := hunt a ha hk
    have hfc : (i :: rest).foldl (apF a) acc = rest.foldl (apF a) (apF a acc i) := rfl
    have hmidheap : (apF a acc i).heap = hset (getStage acc i).1.heap a { (getStage acc i).1.heap a with dependencies := ((getStage acc i).1.heap a).dependencies ++ [.direct (getStage acc i).2] } := rfl
    have hmidstages : (apF a acc i).stages = (getStage acc i).1.stages := rfl
    have hmidnext : (apF a acc i).next = (getStage acc i).1.next := rfl
    have hna2 : ∀ q ∈ (getStage acc i).1.stages, q.2.1 ≠ a ∧ q.2.2 ≠ a := by
      intro q hq
      rw [htl] at hq
      rcases List.mem_append.mp hq with h | h
      · exact hna q h
      · have hge := htlge q h
        constructor
        · have := hge.1
          omega
        · have := hge.2
          omega
    have hmidinv : StInv (apF a acc i) :=
      StInv_hset_plain (getStage acc i).1 a _ hq1 (by omega) hna2
    have hmida : (apF a acc i).heap a = { (getStage acc i).1.heap a with dependencies := ((getStage acc i).1.heap a).dependencies ++ [.direct (getStage acc i).2] } := by
      rw [hmidheap, hset_self]
    have hu2 : ((apF a acc i).heap a).uuid = a := by
      rw [hmida, hha]
      exact hu
    have hk2 : ((apF a acc i).heap a).kind = .plain := by
      rw [hmida, hha]
      exact hk
    have hs2 : ((apF a acc i).heap a).state = .pending := by
      rw [hmida, hha]
      exact hs
    have hd2 : ∀ r ∈ ((apF a acc i).heap a).dependencies,
        ∃ q ∈ (apF a acc i).stages, r = Ref.direct q.2.1 := by
      intro r hr
      have hrd : r ∈ ((getStage acc i).1.heap a).dependencies ++ [Ref.direct (getStage acc i).2] := by
        rw [hmida] at hr
        exact hr
      rw [hmidstages]
      rcases List.mem_append.mp hrd with h | h
      · rw [hha] at h
        obtain ⟨q, hqm, he⟩ := hd r h
        refine ⟨q, ?_, he⟩
        rw [htl]
        exact List.mem_append_left _ hqm
      · rw [List.mem_singleton] at h
        subst h
        exact ⟨(i, (getStage acc i).2, e2), hmem, rfl⟩
    have hih := ih (apF a acc i) hmidinv (by rw [hmidnext]; omega) hna2 hu2 hk2 hs2 hd2
    obtain ⟨j1, ⟨tl2, htl2⟩, j3, j4, j5, j6, j7, j8, j9⟩ := hih
    rw [hfc]
    refine ⟨j1, ⟨tl ++ tl2, ?_⟩, ?_, j4, j5, j6, j7, j8, ?_⟩
    · rw [htl2, hmidstages, htl, List.append_assoc]
    · rw [hmidnext] at j3
      omega
    · intro x hx hxa hkx
      have hm1 : (apF a acc i).heap x = acc.heap x := by
        rw [hmidheap, hset_other _ _ _ _ hxa]
        exact hunt x hx hkx
      rw [j9 x (by rw [hmidnext]; omega) hxa (by rw [hm1]; exact hkx), hm1]

/-- `Plugin.setup` registering one participant: the invariant is
preserved, the stage list and allocator grow, the new node sits at the
old allocator address, is plain and pending, and every one of its
declared dependencies targets a declared stage start; other allocated
plain nodes are untouched. -/
theorem addPart_inv (st : StagesSt) (p : PartSpec) (hinv : StInv st) :
    StInv (addPart st p).1 ∧
    (∃ tl, (addPart st p).1.stages = st.stages ++ tl) ∧
    st.next < (addPart st p).1.next ∧
    (addPart st p).2 = st.next ∧
    (∀ x, x < st.next → (st.heap x).kind = .plain →
      (addPart st p).1.heap x = st.heap x) ∧
    ((addPart st p).1.heap st.next).uuid = st.next ∧
    ((addPart st p).1.heap st.next).kind = .plain ∧
    ((addPart st p).1.heap st.next).state = .pending ∧
    (∀ r ∈ ((addPart st p).1.heap st.next).dependencies,
      ∃ q ∈ (addPart st p).1.stages, r = Ref.direct q.2.1) := by
  have hbinv : StInv { st with heap := hset st.heap st.next { uuid := st.next, priority := p.prio, cbVal := p.cb }, next := st.next + 1 } :=
    StInv_alloc st _ hinv
  have hbsa : hset st.heap st.next { uuid := st.next, priority := p.prio, cbVal := p.cb } st.next = { uuid := st.next, priority := p.prio, cbVal := p.cb } :=
    hset_self _ _ _
  have hfold := apFold_inv st.next p.sIdxs
    { st with heap := hset st.heap st.next { uuid := st.next, priority := p.prio, cbVal := p.cb }, next := st.next + 1 }
    hbinv (show st.next < st.next + 1 by omega)
    (fun q hq => ⟨Nat.ne_of_lt (hinv.lt_next q hq).1, Nat.ne_of_lt (hinv.lt_next q hq).2⟩)
    (by dsimp only; rw [hbsa]) (by dsimp only; rw [hbsa]) (by dsimp only; rw [hbsa])
    (by dsimp only; rw [hbsa]; intro r hr; exact absurd hr (List.not_mem_nil r))
  obtain ⟨j1, ⟨tl, htl⟩, j3, j4, j5, j6, j7, j8, j9⟩ := hfold
  rw [addPart_eq]
  refine ⟨j1, ⟨tl, htl⟩, by dsimp only at j3 ⊢; omega, rfl, ?_, j5, j6, j7, j8⟩
  intro x hx hkx
  have hb1 : hset st.heap st.next { uuid := st.next, priority := p.prio, cbVal := p.cb } x = st.heap x :=
    hset_other _ _ _ _ (Nat.ne_of_lt hx)
  have := j9 x (show x < st.next + 1 by omega) (Nat.ne_of_lt hx)
    (by dsimp only; rw [hb1]; exact hkx)
  rw [this]
  exact hb1

/-- Registering a list of participants: the invariant is preserved, the
stage list and allocator grow, already-allocated plain nodes are
untouched, and every returned participant address holds a plain, pending
node whose declared dependencies all target declared stage starts. -/
theorem addParts_inv :
    ∀ (ps : List PartSpec) (st : StagesSt), StInv st →
      StInv (addParts st ps).1 ∧
      (∃ tl, (addParts st ps).1.stages = st.stages ++ tl) ∧
      st.next ≤ (addParts st ps).1.next ∧
      (∀ x, x < st.next → (st.heap x).kind = .plain →
        (addParts st ps).1.heap x = st.heap x) ∧
      (∀ pa ∈ (addParts st ps).2, pa < (addParts st ps).1.next ∧
        ((addParts st ps).1.heap pa).uuid = pa ∧
        ((addParts st ps).1.heap pa).kind = .plain ∧
        ((addParts st ps).1.heap pa).state = .pending ∧
        (∀ r ∈ ((addParts st ps).1.heap pa).dependencies,
          ∃ q ∈ (addParts st ps).1.stages, r = Ref.direct q.2.1)) := by
  intro ps
  induction ps with
  | nil =>
    intro st hinv
    exact ⟨hinv, ⟨[], (List.append_nil _).symm⟩, Nat.le_refl _,
      fun x _ _ => rfl, fun pa hpa => absurd hpa (List.not_mem_nil pa)⟩
  | cons p rest ih =>
    intro st hinv
    obtain ⟨a1, ⟨tl1, htl1⟩, a3, a4, a5, a6, a7, a8, a9⟩ := addPart_inv st p hinv
    obtain ⟨b1, ⟨tl2, htl2⟩, b3, b4, b5⟩ := ih (addPart st p).1 a1
    have hkmid : (((addPart st p).1).heap st.next).kind = .plain := a7
    have hmidfin : (addParts (addPart st p).1 rest).1.heap st.next = (addPart st p).1.heap st.next :=
      b4 st.next a3 hkmid
    have heq : addParts st (p :: rest) =
        ((addParts (addPart st p).1 rest).1,
          (addPart st p).2 :: (addParts (addPart st p).1 rest).2) := rfl
    rw [heq]
    refine ⟨b1, ⟨tl1 ++ tl2, ?_⟩, Nat.le_trans (Nat.le_of_lt a3) b3, ?_, ?_⟩
    · rw [htl2, htl1, List.append_assoc]
    · intro x hx hkx
      have h1 : (addPart st p).1.heap x = st.heap x := a5 x hx hkx
      have h2 := b4 x (by omega) (by rw [h1]; exact hkx)
      rw [h2, h1]
    · intro pa hpa
      rcases List.mem_cons.mp hpa with h | h
      · rw [h, a4]
        refine ⟨Nat.lt_of_lt_of_le a3 b3, ?_, ?_, ?_, ?_⟩
        · rw [hmidfin]
          exact a6
        · rw [hmidfin]
          exact a7
        · rw [hmidfin]
          exact a8
        · rw [hmidfin]
          intro r hr
          obtain ⟨q, hqm, he⟩ := a9 r hr
          refine ⟨q, ?_, he⟩
          rw [htl2]
          exact List.mem_append_left _ hqm
      · exact b5 pa h

/-- Distinct stage indices name equal entries. -/
theorem stages_idx_inj (S : List (Int × Nat × Nat))
    (hp : S.Pairwise (fun p q => p.1 ≠ q.1)) :
    ∀ p ∈ S, ∀ q ∈ S, p.1 = q.1 → p = q := by
  intro p hpm q hqm he
  by_contra hne
  exact hp.forall (fun x y hxy => Ne.symm hxy) hpm hqm hne he

/-- The empty stages module satisfies the invariant. -/
theorem StInv_empty : StInv { heap := emptyHeap } := by
  refine ⟨rfl, ?_, ?_, List.Pairwise.nil, List.Pairwise.nil, ?_, ?_, ?_⟩
  · intro p hp
    exact absurd hp (List.not_mem_nil p)
  · intro x _
    rfl
  · intro p hp
    exact absurd hp (List.not_mem_nil p)
  · intro p hp
    exact absurd hp (List.not_mem_nil p)
  · intro p hp
    exact absurd hp (List.not_mem_nil p)

/-- Declaring a list of stages in order preserves the invariant. -/
theorem gsIter_inv : ∀ (idxs : List Int) (acc : StagesSt), StInv acc →
    StInv (idxs.foldl (fun acc i => (getStage acc i).1) acc) := by
  intro idxs
  induction idxs with
  | nil =>
    intro acc h
    exact h
  | cons i rest ih =>
    intro acc h
    exact ih _ (getStage_inv acc i h).1

/-- When every registered object's uuid equals its own address, every
raw container member survives the uuid dedup of `Dependencies.all`. -/
theorem raw_mem_all (h : Heap) (c : Container)
    (huuid : ∀ x ∈ c.raw, (h x).uuid = x) :
    ∀ a ∈ c.raw, a ∈ c.all h [] := by
  intro a ha
  obtain ⟨b, hb, hbe⟩ := Container.all_cover h [] c a ha (by simp)
  have hbr := Container.all_subset_raw h [] c b hb
  have hba : b = a := by
    rw [← huuid b hbr, hbe, huuid a ha]
  rw [← hba]
  exact hb

/-- In a stage world built by `get_stage` + `setup`, after the index and
link phase of `solve`: a participant that declared stage `N+1`'s start
holds that start in its resolved predecessors, the start of stage `N+1`
holds the end of stage `N` (the highest lower end kept by
`StageStart._link`), and the end of stage `N` holds every participant
that declared stage `N`'s start (collected by `StageEnd._link`). -/
theorem stageWorld_linked_facts (idxs : List Int) (ps : List PartSpec)
    (stw : StagesSt) (parts : List Nat) (c : Container)
    (hbuild : buildStageWorld idxs ps = (stw, parts, c))
    (N : Int) (sN eN sN1 eN1 p q : Nat)
    (h1 : (N, sN, eN) ∈ stw.stages)
    (h2 : (N + 1, sN1, eN1) ∈ stw.stages)
    (hp : p ∈ parts) (hq : q ∈ parts)
    (hpd : Ref.direct sN1 ∈ (stw.heap p).dependencies)
    (hqd : Ref.direct sN ∈ (stw.heap q).dependencies) :
    p ∈ sortByPrio stw.heap (c.all stw.heap []) ∧
    q ∈ sortByPrio stw.heap (c.all stw.heap []) ∧
    sN1 ∈ sortByPrio stw.heap (c.all stw.heap []) ∧
    eN ∈ sortByPrio stw.heap (c.all stw.heap []) ∧
    sN1 ∈ ((indexPhase c (initS stw.heap c) (sortByPrio stw.heap (c.all stw.heap []))).1.heap p).rdeps ∧
    eN ∈ ((indexPhase c (initS stw.heap c) (sortByPrio stw.heap (c.all stw.heap []))).1.heap sN1).rdeps ∧
    q ∈ ((indexPhase c (initS stw.heap c) (sortByPrio stw.heap (c.all stw.heap []))).1.heap eN).rdeps := by
  have hA : (buildStageWorld idxs ps).1 = stw := by rw [hbuild]
  have hB : (buildStageWorld idxs ps).2.1 = parts := by rw [hbuild]
  have hC : (buildStageWorld idxs ps).2.2 = c := by rw [hbuild]
  have hinv : StInv stw := by
    rw [← hA]
    exact (addParts_inv ps _ (gsIter_inv idxs { heap := emptyHeap } StInv_empty)).1
  have hpfacts : ∀ pa ∈ parts, pa < stw.next ∧ (stw.heap pa).uuid = pa ∧
      (stw.heap pa).kind = .plain ∧ (stw.heap pa).state = .pending ∧
      (∀ r ∈ (stw.heap pa).dependencies, ∃ qe ∈ stw.stages, r = Ref.direct qe.2.1) := by
    rw [← hA, ← hB]
    exact fun pa hpa =>
      (addParts_inv ps _ (gsIter_inv idxs { heap := emptyHeap } StInv_empty)).2.2.2.2 pa hpa
  have hcrepl : c.replace = [] := by
    rw [← hC]
    rfl
  have hrawe : c.raw = parts ++ ((stw.bound ++ []) ++ []) := by
    rw [← hA, ← hB, ← hC]
    rfl
  have hcraw : ∀ x, x ∈ c.raw ↔ (x ∈ parts ∨ x ∈ stw.bound) := by
    intro x
    rw [hrawe]
    simp [List.mem_append]
  have hsb : ∀ pe ∈ stw.stages, pe.2.1 ∈ stw.bound ∧ pe.2.2 ∈ stw.bound := by
    intro pe hpe
    rw [hinv.bound_eq]
    exact ⟨List.mem_flatMap.mpr ⟨pe, hpe, List.mem_cons_self _ _⟩,
      List.mem_flatMap.mpr ⟨pe, hpe, List.mem_cons_of_mem _ (List.mem_cons_self _ _)⟩⟩
  have hbclass : ∀ x ∈ stw.bound,
      (∃ pe ∈ stw.stages, x = pe.2.1) ∨ (∃ pe ∈ stw.stages, x = pe.2.2) := by
    intro x hx
    rw [hinv.bound_eq] at hx
    obtain ⟨pe, hpe, hxm⟩ := List.mem_flatMap.mp hx
    rcases List.mem_cons.mp hxm with h | h
    · exact Or.inl ⟨pe, hpe, h⟩
    · rw [List.mem_singleton] at h
      exact Or.inr ⟨pe, hpe, h⟩
  have huuidraw : ∀ x ∈ c.raw, (stw.heap x).uuid = x := by
    intro x hx
    rcases (hcraw x).mp hx with h | h
    · exact (hpfacts x h).2.1
    · rcases hbclass x h with ⟨pe, hpe, rfl⟩ | ⟨pe, hpe, rfl⟩
      · exact (hinv.snode pe hpe).1
      · exact (hinv.enode pe hpe).1
  have hW0raw : ∀ a ∈ c.all stw.heap [], a ∈ c.raw :=
    fun a ha => Container.all_subset_raw stw.heap [] c a ha
  have hrawW0 : ∀ a ∈ c.raw, a ∈ c.all stw.heap [] :=
    raw_mem_all stw.heap c huuidraw
  set ds := sortByPrio stw.heap (c.all stw.heap []) with hdsdef
  have hdsW0 : ∀ x, x ∈ ds ↔ x ∈ c.all stw.heap [] :=
    fun x => sortByPrio_mem stw.heap _ x
  have hpw0 : (c.all stw.heap []).Pairwise
      (fun a b => (stw.heap a).uuid ≠ (stw.heap b).uuid) :=
    Container.all_pairwise stw.heap [] c
  have hpwds := sortByPrio_pairwise stw.heap _ hpw0
  have hnd : ds.Nodup := hpwds.imp (fun hne heq => hne (by rw [heq]))
  set st1 := ds.foldl indexOne (initS stw.heap c) with hst1def
  have hseed := seed_heap ds (initS stw.heap c)
  have hst1h : st1.heap = stw.heap := hseed.1
  have hst1repl : st1.repl = c.replace := hseed.2.2
  have hst1r : st1.repl = [] := hst1repl.trans hcrepl
  have hbid : ∀ b ∈ c.raw, aget st1.byId b = some b := by
    intro b hb
    have hbds : b ∈ ds := (hdsW0 b).mpr (hrawW0 b hb)
    have hmain : aget st1.byId ((stw.heap b).uuid) = some b :=
      seed_byId_exact ds (initS stw.heap c) hpwds (fun b2 _ => rfl) b hbds
    rw [huuidraw b hb] at hmain
    exact hmain
  have hfull : ∀ a ∈ ds, a ∈ c.raw := fun a ha => hW0raw a ((hdsW0 a).mp ha)
  have huuidf : ∀ b ∈ c.raw, (st1.heap b).uuid = b := by
    intro b hb
    rw [hst1h]
    exact huuidraw b hb
  have hclass : ∀ a ∈ ds, (st1.heap a).state = .pending ∧
      (((st1.heap a).kind = .plain ∧
          ∀ r ∈ (st1.heap a).dependencies, ∃ b ∈ c.raw, r = .direct b) ∨
       (∃ i, (st1.heap a).kind = .stageStart i ∧
          ∀ r ∈ (st1.heap a).dependencies, ∃ b ∈ c.raw, r = .direct b) ∨
       (∃ i, (st1.heap a).kind = .stageEnd i ∧
          (st1.heap a).dependencies = [])) := by
    intro a ha
    have haraw := hfull a ha
    rw [hst1h]
    rcases (hcraw a).mp haraw with hpp | hbb
    · obtain ⟨_, hu, hk, hs, hd⟩ := hpfacts a hpp
      refine ⟨hs, Or.inl ⟨hk, ?_⟩⟩
      intro r hr
      obtain ⟨qe, hqe, rfl⟩ := hd r hr
      exact ⟨qe.2.1, (hcraw qe.2.1).mpr (Or.inr (hsb qe hqe).1), rfl⟩
    · rcases hbclass a hbb with ⟨pe, hpe, rfl⟩ | ⟨pe, hpe, rfl⟩
      · obtain ⟨hu, hk, hs, hdS, hdC⟩ := hinv.snode pe hpe
        refine ⟨hs, Or.inr (Or.inl ⟨pe.1, hk, ?_⟩)⟩
        intro r hr
        obtain ⟨qe, hqe, _, rfl⟩ := hdS r hr
        exact ⟨qe.2.2, (hcraw qe.2.2).mpr (Or.inr (hsb qe hqe).2), rfl⟩
      · obtain ⟨hu, hk, hs, hdE⟩ := hinv.enode pe hpe
        exact ⟨hs, Or.inr (Or.inr ⟨pe.1, hk, hdE⟩)⟩
  obtain ⟨m1, m2, m3, m4, m5⟩ :=
    linkLoop_stage_master c c.raw ds st1 hfull hnd hbid huuidf hclass
  have hip : indexPhase c (initS stw.heap c) ds = linkLoop c st1 ds := by
    unfold indexPhase
    rw [← hst1def]
    rw [if_pos (by rw [hst1r]; rfl)]
  have hpds : p ∈ ds := (hdsW0 p).mpr (hrawW0 p ((hcraw p).mpr (Or.inl hp)))
  have hqds : q ∈ ds := (hdsW0 q).mpr (hrawW0 q ((hcraw q).mpr (Or.inl hq)))
  have hsn1ds : sN1 ∈ ds := (hdsW0 sN1).mpr (hrawW0 sN1
    ((hcraw sN1).mpr (Or.inr (hsb (N + 1, sN1, eN1) h2).1)))
  have heNds : eN ∈ ds := (hdsW0 eN).mpr (hrawW0 eN
    ((hcraw eN).mpr (Or.inr (hsb (N, sN, eN) h1).2)))
  refine ⟨hpds, hqds, hsn1ds, heNds, ?_, ?_, ?_⟩
  · -- the participant p resolved its direct reference to stage N+1's start
    obtain ⟨Lp, hLp, hFp⟩ := m3 p hpds
      (by rw [hst1h]; exact (hpfacts p hp).2.2.1)
    have hdp : Ref.direct sN1 ∈ (st1.heap p).dependencies := by
      rw [hst1h]
      exact hpd
    obtain ⟨d, hdL, hde⟩ := forall2_mem_left hFp _ hdp
    injection hde with hde2
    subst hde2
    rw [hip, hLp]
    exact List.mem_append_right _ hdL
  · -- stage N+1's trimmed dependency list is exactly [direct eN]
    obtain ⟨Ls, hLs, hFs⟩ := m4 sN1 hsn1ds (N + 1)
      (by rw [hst1h]; exact (hinv.snode (N + 1, sN1, eN1) h2).2.1)
    have hTD0 : tdeps ((st1.heap sN1).dependencies) (fun b => (st1.heap b).kind) =
        tdeps ((stw.heap sN1).dependencies) (fun b => (stw.heap b).kind) := by
      rw [hst1h]
    have hDsound : ∀ r ∈ (stw.heap sN1).dependencies,
        ∃ qe ∈ stw.stages, qe.1 < N + 1 ∧ r = Ref.direct qe.2.2 :=
      (hinv.snode (N + 1, sN1, eN1) h2).2.2.2.1
    have hDeN : Ref.direct eN ∈ (stw.heap sN1).dependencies :=
      (hinv.snode (N + 1, sN1, eN1) h2).2.2.2.2 (N, sN, eN) h1
        (by omega)
    have hend : ∀ r ∈ (stw.heap sN1).dependencies,
        isEndRef (fun b => (stw.heap b).kind) r = true := by
      intro r hr
      obtain ⟨qe, hqe, _, rfl⟩ := hDsound r hr
      have hk := (hinv.enode qe hqe).2.1
      simp [isEndRef, hk]
    have hfilter1 : (stw.heap sN1).dependencies.filter
        (fun r => ! isEndRef (fun b => (stw.heap b).kind) r) = [] := by
      refine List.filter_eq_nil_iff.mpr ?_
      intro a ha
      rw [hend a ha]
      simp
    have hfilter2 : (stw.heap sN1).dependencies.filter
        (isEndRef (fun b => (stw.heap b).kind)) = (stw.heap sN1).dependencies :=
      List.filter_eq_self.mpr hend
    have hkeN : (stw.heap eN).kind = .stageEnd N :=
      (hinv.enode (N, sN, eN) h1).2.1
    have heidx : endIdxRef (fun b => (stw.heap b).kind) (Ref.direct eN) = N := by
      simp [endIdxRef, hkeN]
    match hs : ((stw.heap sN1).dependencies.filter
        (isEndRef (fun b => (stw.heap b).kind))).insertionSort
        (fun a b => endIdxRef (fun b2 => (stw.heap b2).kind) b ≤
          endIdxRef (fun b2 => (stw.heap b2).kind) a) with
    | [] =>
      exfalso
      have hpm := List.perm_insertionSort
        (fun a b => endIdxRef (fun b2 => (stw.heap b2).kind) b ≤
          endIdxRef (fun b2 => (stw.heap b2).kind) a)
        ((stw.heap sN1).dependencies.filter
          (isEndRef (fun b => (stw.heap b).kind)))
      rw [hs] at hpm
      have : Ref.direct eN ∈ ([] : List Ref) := by
        refine hpm.mem_iff.mpr ?_
        rw [hfilter2]
        exact hDeN
      exact absurd this (List.not_mem_nil _)
    | y :: tail =>
      have hy1 : y ∈ (((stw.heap sN1).dependencies.filter
          (isEndRef (fun b => (stw.heap b).kind))).insertionSort
          (fun a b => endIdxRef (fun b2 => (stw.heap b2).kind) b ≤
            endIdxRef (fun b2 => (stw.heap b2).kind) a)).take 1 := by
        rw [hs, List.take_succ_cons, List.take_zero]
        exact List.mem_singleton.mpr rfl
      obtain ⟨hymem, hymax⟩ := tdeps_take_max ((stw.heap sN1).dependencies)
        (fun b => (stw.heap b).kind) y hy1
      rw [hfilter2] at hymem
      obtain ⟨qe, hqe, hqlt, hye⟩ := hDsound y hymem
      have hqidx : endIdxRef (fun b => (stw.heap b).kind) y = qe.1 := by
        rw [hye]
        have hk := (hinv.enode qe hqe).2.1
        simp [endIdxRef, hk]
      have hNle : N ≤ qe.1 := by
        have := hymax (Ref.direct eN) (by rw [hfilter2]; exact hDeN)
        rw [heidx, hqidx] at this
        exact this
      have hqeN : qe.1 = N := by omega
      have hqeq : qe = (N, sN, eN) :=
        stages_idx_inj stw.stages hinv.idx_nodup qe hqe (N, sN, eN) h1
          (by rw [hqeN])
      have hyeN : y = Ref.direct eN := by
        rw [hye, hqeq]
      have hTD : tdeps ((stw.heap sN1).dependencies)
          (fun b => (stw.heap b).kind) = [Ref.direct eN] := by
        unfold tdeps
        rw [hfilter1, hs, List.take_succ_cons, List.take_zero,
          List.nil_append, hyeN]
      rw [hTD0, hTD] at hFs
      rcases hFs with _ | ⟨hR, hF2⟩
      rcases hF2
      injection hR with hR2
      rw [hip, hLs]
      refine List.mem_append_right _ ?_
      rw [← hR2]
      exact List.mem_singleton.mpr rfl
  · -- stage N's end collected the participant q
    have hksN : (stw.heap sN).kind = .stageStart N :=
      (hinv.snode (N, sN, eN) h1).2.1
    have hany : (stw.heap q).dependencies.any
        (isStartIdx (fun b => (stw.heap b).kind) N) = true :=
      List.any_eq_true.mpr ⟨Ref.direct sN, hqd, by simp [isStartIdx, hksN]⟩
    have hres := m5 eN heNds N
      (by rw [hst1h]; exact (hinv.enode (N, sN, eN) h1).2.1)
      q (by rw [hst1h]; exact (hdsW0 q).mp hqds)
      (by rw [hst1h]; exact (hpfacts q hq).2.2.1)
      (by rw [hst1h]; exact hany)
    rw [hip]
    exact hres

/-- C7: For every set of stages created via `get_stage` and every pair
of consecutive stage indices N and N+1, no node that declares stage
N+1's start node as a predecessor begins running before every node that
declares stage N's start node as a predecessor has completed: in any
execution schedule of the indexed-and-linked wave that respects the
event waits of `Dependency.run` (`ValidSchedule`), a consumer of stage
N+1's start begins strictly after every stage-N participant ends — the
barriers chain through stage N's end node, including when intermediate
stages have no participating nodes. -/
theorem C7_stage_barrier_chain (idxs : List Int) (ps : List PartSpec)
    (stw : StagesSt) (parts : List Nat) (c : Container)
    (N : Int) (sN eN sN1 eN1 p q : Nat) (bg en : Nat → Nat)
    (hbuild : buildStageWorld idxs ps = (stw, parts, c))
    (h1 : (N, sN, eN) ∈ stw.stages)
    (h2 : (N + 1, sN1, eN1) ∈ stw.stages)
    (hp : p ∈ parts) (hq : q ∈ parts)
    (hpd : Ref.direct sN1 ∈ (stw.heap p).dependencies)
    (hqd : Ref.direct sN ∈ (stw.heap q).dependencies)
    (hsched : ValidSchedule
      (indexPhase c (initS stw.heap c) (sortByPrio stw.heap (c.all stw.heap []))).1.heap
      (sortByPrio stw.heap (c.all stw.heap [])) bg en) :
    en q < bg p := by
  obtain ⟨hpds, hqds, hsn1ds, heNds, hr1, hr2, hr3⟩ :=
    stageWorld_linked_facts idxs ps stw parts c hbuild N sN eN sN1 eN1 p q
      h1 h2 hp hq hpd hqd
  have hP := hsched p hpds
  have hS := hsched sN1 hsn1ds
  have hE := hsched eN heNds
  have c1 : en q < bg eN := hE.2 q hr3
  have c2 : en eN < bg sN1 := hS.2 eN hr2
  have c3 : en sN1 < bg p := hP.2 sN1 hr1
  have c4 : bg eN ≤ en eN := hE.1
  have c5 : bg sN1 ≤ en sN1 := hS.1
  omega

set_option maxHeartbeats 4000000 in
/-- Witness for C7: stages 0 and 1 declared in order, one participant of
stage 1 (address 4) and one of stage 0 (address 5); in the topological
schedule 0, 5, 1, 2, 4, 3 the stage-0 participant (address 5) ends at
time 1, strictly before the stage-1 participant (address 4) begins at
time 4. -/
theorem C7_stage_barrier_chain_witness :
    ([0, 2, 3, 5, 4, 1].getD 5 0 : Nat) < [0, 2, 3, 5, 4, 1].getD 4 0 :=
  C7_stage_barrier_chain [0, 1] [⟨[1], 0, 0⟩, ⟨[0], 0, 0⟩]
    (buildStageWorld [0, 1] [⟨[1], 0, 0⟩, ⟨[0], 0, 0⟩]).1
    (buildStageWorld [0, 1] [⟨[1], 0, 0⟩, ⟨[0], 0, 0⟩]).2.1
    (buildStageWorld [0, 1] [⟨[1], 0, 0⟩, ⟨[0], 0, 0⟩]).2.2
    0 0 1 2 3 4 5
    (fun a => [0, 2, 3, 5, 4, 1].getD a 0) (fun a => [0, 2, 3, 5, 4, 1].getD a 0)
    rfl (by decide) (by decide) (by decide) (by decide) (by decide) (by decide)
    (by unfold ValidSchedule; decide)

/-- The first index-and-link pass of `solve` on a fresh, plain,
replace-free container whose references all resolve: `_index` returns the
whole sorted wave with no error, each wave node is `linked` with its
resolved predecessor list, and every other object is untouched. -/
theorem linkPhase_fresh (h : Heap) (c : Container)
    (hfresh : ∀ a ∈ c.all h [], (h a).state = .pending ∧ (h a).kind = .plain ∧
      (h a).eventSet = false ∧ (h a).rdeps = [])
    (hrepl : c.replace = [])
    (hres : ∀ a ∈ c.all h [], ∀ r ∈ (h a).dependencies,
      (∀ u, r = Ref.byId u → ∃ b ∈ c.all h [], (h b).uuid = u) ∧
      (∀ t, r = Ref.byType t → ∃ b ∈ c.all h [], (h b).ty = t ∧
        (h b).type_constructor = true) ∧
      (∀ bb, r = Ref.direct bb → ∃ b ∈ c.all h [], (h b).uuid = (h bb).uuid)) :
    ∃ st2, indexPhase c (initS h c) (sortByPrio h (c.all h [])) =
      (st2, sortByPrio h (c.all h []), none) ∧
    st2.solvedU = [] ∧
    (∀ a ∈ c.all h [], ∃ L, st2.heap a =
      { h a with state := NState.linked, rdeps := L } ∧
      ∀ d ∈ L, d ∈ c.all h []) ∧
    (∀ b, b ∉ c.all h [] → st2.heap b = h b) := by
  set W0 := c.all h [] with hW0def
  set ds := sortByPrio h W0 with hdsdef
  set st1 := ds.foldl indexOne (initS h c) with hst1def
  have hh0 : (initS h c).heap = h := rfl
  have hmemW : ∀ x, x ∈ ds ↔ x ∈ W0 := fun x => sortByPrio_mem h W0 x
  have hpw0 : W0.Pairwise (fun a b => (h a).uuid ≠ (h b).uuid) :=
    Container.all_pairwise h [] c
  have hpw : ds.Pairwise (fun a b => (h a).uuid ≠ (h b).uuid) :=
    sortByPrio_pairwise h W0 hpw0
  have hnd : ds.Nodup := hpw.imp (fun hne heq => hne (by rw [heq]))
  have hinj := pairwise_uuid_inj h ds hpw
  have hseed := seed_heap ds (initS h c)
  have hs1h : st1.heap = h := hseed.1
  have hs1s : st1.solvedU = [] := hseed.2.1
  have hs1r : st1.repl = c.replace := hseed.2.2
  have hbid : ∀ a ∈ ds, aget st1.byId ((h a).uuid) = some a := by
    intro a ha
    have := seed_byId_exact ds (initS h c)
      (by rw [hh0]; exact hpw)
      (fun b _ => by rw [hh0]; rfl)
      a ha
    rw [hh0] at this
    exact this
  set TyInv : List (Option Nat × Nat) → Prop := fun m =>
    (∀ t v, aget m t = some v → v ∈ ds) ∧
    (∀ t v, aget st1.byType t = some v → ∃ w, aget m t = some w)
    with hTyDef
  have hTy0 : TyInv st1.byType := by
    constructor
    · intro t v hv
      rcases seed_byType_values ds (initS h c) t v hv with hold | hmem
      · simp [initS, aget] at hold
      · exact hmem
    · intro t v hv
      exact ⟨v, hv⟩
  have hTystep : ∀ m a, TyInv m → a ∈ ds →
      TyInv (aset m ((st1.heap a).ty) a) := by
    intro m a hm ha
    constructor
    · intro t v hv
      rcases aget_aset_values m _ t _ v hv with rfl | hold
      · exact ha
      · exact hm.1 t v hold
    · intro t v hv
      by_cases ht : t = (st1.heap a).ty
      · subst ht
        exact ⟨a, aget_aset_self _ _ _⟩
      · rw [aget_aset_other _ _ _ _ ht]
        exact hm.2 t v hv
  have hRes : ∀ st : SState, st.byId = st1.byId →
      (∀ b, (st.heap b).uuid = (st1.heap b).uuid) → TyInv st.byType →
      ∀ a ∈ ds, ∀ r ∈ (st1.heap a).dependencies,
        ∃ d, resolveRef st r = some d ∧ d ∈ ds := by
    intro st hid hu hTy a ha r hr
    rw [hs1h] at hr
    have hresa := hres a ((hmemW a).mp ha) r hr
    match r with
    | Ref.byId u =>
      obtain ⟨b, hbW, hbu⟩ := hresa.1 u rfl
      have hbds : b ∈ ds := (hmemW b).mpr hbW
      refine ⟨b, ?_, hbds⟩
      show aget st.byId u = some b
      rw [hid, ← hbu]
      exact hbid b hbds
    | Ref.byType t =>
      obtain ⟨b, hbW, hbt, hbtc⟩ := hresa.2.1 t rfl
      have hbds : b ∈ ds := (hmemW b).mpr hbW
      obtain ⟨v, hv⟩ := seed_byType_cover b ds (initS h c) hbds
        (by rw [hh0]; exact hbtc)
      rw [← hst1def] at hv
      rw [hh0, hbt] at hv
      obtain ⟨w, hw⟩ := hTy.2 t v hv
      exact ⟨w, hw, hTy.1 t w hw⟩
    | Ref.direct bb =>
      obtain ⟨b, hbW, hbu⟩ := hresa.2.2 bb rfl
      have hbds : b ∈ ds := (hmemW b).mpr hbW
      refine ⟨b, ?_, hbds⟩
      show aget st.byId ((st.heap bb).uuid) = some b
      rw [hid, hu bb, hs1h, ← hbu]
      exact hbid b hbds
  have hW : ∀ a ∈ ds, (st1.heap a).state = .pending ∧
      (st1.heap a).kind = .plain := by
    intro a ha
    rw [hs1h]
    exact ⟨(hfresh a ((hmemW a).mp ha)).1, (hfresh a ((hmemW a).mp ha)).2.1⟩
  obtain ⟨l1, l2, l3, l4, l5, l6, l7, l8⟩ :=
    linkLoop_master c (fun r d => d ∈ ds) TyInv ds st1 hW hnd hTy0 hTystep hRes
  have hip : indexPhase c (initS h c) ds = linkLoop c st1 ds := by
    unfold indexPhase
    rw [← hst1def]
    rw [if_pos (by rw [hs1r, hrepl]; rfl)]
  have hlltup : linkLoop c st1 ds = ((linkLoop c st1 ds).1, ds, none) := by
    match hq : linkLoop c st1 ds with
    | (a, b, e) =>
      rw [hq] at l1 l2
      simp only at l1 l2
      rw [l1, l2]
  refine ⟨(linkLoop c st1 ds).1, hip.trans hlltup, ?_, ?_, ?_⟩
  · rw [l4, hs1s]
  · intro a ha
    obtain ⟨L, hL, hF⟩ := l8 a ((hmemW a).mpr ha)
    refine ⟨L, ?_, ?_⟩
    · rw [hL, hs1h]
      have hrd : (h a).rdeps = [] := (hfresh a ha).2.2.2
      rw [hrd]
      rfl
    · intro d hd
      obtain ⟨r, hrmem, hrd⟩ := forall2_mem_right hF d hd
      exact (hmemW d).mp hrd
  · intro b hb
    rw [l7 b (fun hbs => hb ((hmemW b).mp hbs)), hs1h]

/-! ## Builder flag characterization (claim C9) -/

/-- Whether a selector is a `TypeRef` whose type differs from `ret` —
the exact condition `from_function` conjoins into `type_constructor`. -/
def tcCond (ret : Option Nat) (r : Ref) : Prop :=
  ∃ t, r = Ref.byType t ∧ t ≠ ret

/-- The boolean factor `from_function` multiplies into the flag for one
selected parameter reference. -/
def tcFlag (ty : Option Nat) (r : Ref) : Bool :=
  match r with
  | .byType t => decide (t ≠ ty)
  | _ => false

/-- The node after `from_function` records one selected reference. -/
def stepNode (node : Node) (r : Ref) : Node :=
  { node with
    dependencies := node.dependencies ++ [r]
    type_constructor := node.type_constructor && tcFlag node.ty r }

theorem fromFunctionStep_shape (allm : Bool) (node : Node) (p : Param) :
    fromFunctionStep allm node p = node ∨
    ∃ r, fromFunctionStep allm node p = stepNode node r := by
  cases hsel : (match (if p.extras.isEmpty then none
      else firstSelector p.hint p.extras) with
    | some r => some r
    | none => if p.hint.isSome ∧ allm then some (Ref.byType p.hint)
      else none) with
  | none =>
    left
    simp only [fromFunctionStep]
    rw [hsel]
  | some r =>
    right
    refine ⟨r, ?_⟩
    simp only [fromFunctionStep]
    rw [hsel]
    simp only [stepNode, tcFlag]

theorem tcFlag_true (ty : Option Nat) (r : Ref) :
    tcFlag ty r = true ↔ tcCond ty r := by
  cases r with
  | byId u => simp [tcFlag, tcCond]
  | byType t => simp [tcFlag, tcCond]
  | direct a => simp [tcFlag, tcCond]

theorem fromFunction_fold (allm : Bool) (ret : Option Nat) :
    ∀ (ps : List Param) (node : Node), node.ty = ret →
    (ps.foldl (fromFunctionStep allm) node).ty = ret ∧
    ∃ new, (ps.foldl (fromFunctionStep allm) node).dependencies =
        node.dependencies ++ new ∧
      ((ps.foldl (fromFunctionStep allm) node).type_constructor = true ↔
        (node.type_constructor = true ∧ ∀ r ∈ new, tcCond ret r)) := by
  intro ps
  induction ps with
  | nil =>
    intro node hty
    refine ⟨hty, [], by simp, ?_⟩
    simp
  | cons p rest ih =>
    intro node hty
    rw [List.foldl_cons]
    rcases fromFunctionStep_shape allm node p with heq | ⟨r, heq⟩
    · rw [heq]
      exact ih node hty
    · rw [heq]
      obtain ⟨ity, new, hdeps, hiff⟩ := ih (stepNode node r)
        (by simp [stepNode]; exact hty)
      refine ⟨ity, r :: new, ?_, ?_⟩
      · rw [hdeps]
        simp [stepNode]
      · rw [hiff]
        simp only [stepNode, Bool.and_eq_true]
        constructor
        · intro ⟨⟨htc, hcond⟩, hall⟩
          refine ⟨htc, ?_⟩
          intro r2 hr2
          rcases List.mem_cons.mp hr2 with rfl | hr3
          · rw [tcFlag_true] at hcond
            rw [← hty]
            exact hcond
          · exact hall r2 hr3
        · intro ⟨htc, hall⟩
          refine ⟨⟨htc, ?_⟩, ?_⟩
          · rw [tcFlag_true, hty]
            exact hall r (List.mem_cons_self _ _)
          · intro r2 hr2
            exact hall r2 (List.mem_cons_of_mem _ hr2)


/-! ## Claim theorems -/

/-- Concrete fixtures for witnesses and counterexamples. -/
def hC10 : Heap := fun x =>
  if x = 0 then { uuid := 5, dependencies := [Ref.byId 99] } else { uuid := 1 }

def stC10 : SState := { heap := hC10 }

def cC10 : Container := .mk [0] [] [] []

/-- C10: when `Dependency.link` fails with `DependencyNotFound` (so the node
is not optional), the node's externally observable registration state is
unchanged: its `state` is still `pending` after the failed call, and it has
not been installed as its type's producer — the `_by_type` index (and the
`_by_id` index) are exactly as before the call. -/
theorem C10_failed_link_leaves_registration (c : Container) (st : SState)
    (a : Nat) (hfail : (linkOne c st a).2 = .fail .notFound) :
    ((linkOne c st a).1.heap a).state = .pending ∧
    (linkOne c st a).1.byType = st.byType ∧
    (linkOne c st a).1.byId = st.byId := by
  obtain ⟨h1, h2, h3, _⟩ := linkOne_fail_pending c st a hfail
  exact ⟨h1, h2, h3⟩

theorem C10_failed_link_leaves_registration_witness :
    (linkOne cC10 stC10 0).2 = .fail .notFound ∧
    (((linkOne cC10 stC10 0).1.heap 0).state = .pending ∧
     (linkOne cC10 stC10 0).1.byType = stC10.byType ∧
     (linkOne cC10 stC10 0).1.byId = stC10.byId) :=
  ⟨by decide, C10_failed_link_leaves_registration cC10 stC10 0 (by decide)⟩

/-- Builder input refuting C9: two selected parameters, the second a
`TypeRef` over the node's own produced type. -/
def psC9 : List Param :=
  [ { hint := some 1, extras := [PMeta.mTypeRef (some 3)] },
    { hint := some 1, extras := [PMeta.mTypeRef (some 7)] } ]

/-- C9 counterexample: a node built by `from_function` with two
predecessor selectors ends with `type_constructor = false`, although the
claim predicts `true` whenever there are several predecessors: the flag
is a conjunction over all selected parameters, not a test for the
single-wrapper pattern. -/
theorem C9_counterexample :
    (from_function 0 0 psC9 (some 7) false).type_constructor = false ∧
    (from_function 0 0 psC9 (some 7) false).dependencies =
      [Ref.byType (some 3), Ref.byType (some 7)] := by
  decide

/-- C9 (amended): for every node built by `from_function`, the produced
type is the declared return hint, and `type_constructor` is `true` exactly
when every selected predecessor reference is a `TypeRef` whose type
differs from the node's own produced type; it is `false` as soon as any
selected parameter is a `DependencyRef`, or a `TypeRef` over the node's
own produced type (so with no predecessors the flag is `true`, and with a
single equal-typed `TypeRef` predecessor it is `false` — but unlike the
original claim, several predecessors can also yield `false`). -/
theorem C9_type_constructor_flag (u v : Nat) (ps : List Param)
    (ret : Option Nat) (allm : Bool) :
    (from_function u v ps ret allm).ty = ret ∧
    ((from_function u v ps ret allm).type_constructor = true ↔
      ∀ r ∈ (from_function u v ps ret allm).dependencies, tcCond ret r) := by
  obtain ⟨hty, new, hdeps, hiff⟩ := fromFunction_fold allm ret ps
    { uuid := u, cbVal := v, ty := ret } rfl
  refine ⟨hty, ?_⟩
  have hd2 : (from_function u v ps ret allm).dependencies = new := by
    show (ps.foldl (fromFunctionStep allm)
      { uuid := u, cbVal := v, ty := ret }).dependencies = new
    rw [hdeps]
    simp
  rw [hd2]
  show (ps.foldl (fromFunctionStep allm)
      { uuid := u, cbVal := v, ty := ret }).type_constructor = true ↔ _
  rw [hiff]
  simp

/-- Fixture for the C8 witness: a running supervisor with two registered
stop hooks. -/
def sC8 : LState :=
  { isRunning := true, hooks := [10, 20], stoppedSigId := 7 }

/-- C8: on a running supervisor whose stop event has not fired, `stop`
returns the completion signal object, runs each registered hook exactly
once in registration order, and sets the completion signal only after
every hook has finished (the `stoppedSet` event follows all `hookRun`
events in the trace); a second `stop` call is a no-op that runs no hook
and returns the same completion signal object. -/
theorem C8_stop_idempotent (s : LState)
    (hrun : s.isRunning = true) (hstop : s.stopEventSet = false) :
    (stop s).2.2 = s.stoppedSigId ∧
    (stop s).2.1 = s.hooks.map LEv.hookRun ++
      (if s.cancel_on_stop then [LEv.stoppedSet, LEv.cancelScope]
       else [LEv.stoppedSet]) ∧
    (stop (stop s).1).1 = (stop s).1 ∧
    (stop (stop s).1).2.1 = [] ∧
    (stop (stop s).1).2.2 = s.stoppedSigId := by
  cases hc : s.cancel_on_stop <;>
    simp [stop, hrun, hstop, hc]

theorem C8_stop_idempotent_witness :
    sC8.isRunning = true ∧ sC8.stopEventSet = false ∧
    ((stop sC8).2.2 = sC8.stoppedSigId ∧
     (stop sC8).2.1 = sC8.hooks.map LEv.hookRun ++
       (if sC8.cancel_on_stop then [LEv.stoppedSet, LEv.cancelScope]
        else [LEv.stoppedSet]) ∧
     (stop (stop sC8).1).1 = (stop sC8).1 ∧
     (stop (stop sC8).1).2.1 = [] ∧
     (stop (stop sC8).1).2.2 = sC8.stoppedSigId) :=
  ⟨rfl, rfl, C8_stop_idempotent sC8 rfl rfl⟩

/-- Fixtures for the C4 counterexample: node 0 produces type 100 with
`type_constructor = true`; node 1 consumes type 100, declares the same
produced type with `type_constructor = false`, and links later (higher
priority value). -/
def hC4 : Heap := fun x =>
  if x = 0 then { uuid := 10, ty := some 100 }
  else if x = 1 then
    { uuid := 11, ty := some 100, type_constructor := false,
      priority := 1, dependencies := [Ref.byType (some 100)] }
  else { uuid := 99 }

def cC4 : Container := .mk [0, 1] [] [] []

/-- C4 counterexample: during a single `_index` pass with no replace
directive, the registered producer of type 100 is node 0 after the
registration (`_index_one`) fold, but node 1 — whose `type_constructor`
is `false` — after the link loop: `Dependency.link` overwrites the
`_by_type` slot unconditionally, so the set-if-absent invariant and the
`type_constructor = true` invariant both fail without any replace. -/
theorem C4_counterexample :
    aget ((sortByPrio hC4 (cC4.all hC4 [])).foldl indexOne
      (initS hC4 cC4)).byType (some 100) = some 0 ∧
    (hC4 0).type_constructor = true ∧
    aget (indexPhase cC4 (initS hC4 cC4)
      (sortByPrio hC4 (cC4.all hC4 []))).1.byType (some 100) = some 1 ∧
    (hC4 1).type_constructor = false ∧
    cC4.replace = [] ∧
    (indexPhase cC4 (initS hC4 cC4)
      (sortByPrio hC4 (cC4.all hC4 []))).2.2 = none := by
  decide

/-- C4 (amended): registration (`_index_one`) really is set-if-absent —
an occupied `_by_type` slot is never changed by indexing another node,
and a node with `type_constructor = false` is never registered by
indexing at all; but a successful `Dependency.link` of a pending node
installs that node in `_by_type` under its declared type unconditionally,
overwriting any present producer even with no replace directive in play. -/
theorem C4_index_setdefault_link_overwrites :
    (∀ (st : SState) (a : Nat) (t : Option Nat), aget st.byType t ≠ none →
      aget (indexOne st a).byType t = aget st.byType t) ∧
    (∀ (st : SState) (a : Nat), (st.heap a).type_constructor = false →
      (indexOne st a).byType = st.byType) ∧
    (∀ (c : Container) (st : SState) (a : Nat) (L : List Nat),
      (st.heap a).kind = .plain → (st.heap a).state = .pending →
      resolveAll st (st.heap a).dependencies = some L →
      aget (linkOne c st a).1.byType ((st.heap a).ty) = some a) := by
  refine ⟨?_, ?_, ?_⟩
  · intro st a t hocc
    unfold indexOne
    by_cases htc : (st.heap a).type_constructor = true
    · rw [if_pos htc]
      show aget (asetd st.byType (st.heap a).ty a) t = aget st.byType t
      by_cases hk : t = (st.heap a).ty
      · subst hk
        rw [aget_asetd_same]
        match hm : aget st.byType (st.heap a).ty with
        | some w => rfl
        | none => exact absurd hm hocc
      · exact aget_asetd_other _ _ _ _ hk
    · rw [if_neg htc]
  · intro st a htc
    unfold indexOne
    rw [if_neg (by rw [htc]; simp)]
  · intro c st a L hk hp hres
    obtain ⟨_, _, hbt, _⟩ := linkOne_plain_ok c st a L hk hp hres
    rw [hbt]
    exact aget_aset_self _ _ _

/-- Fixtures for the C4 amended-theorem witness. -/
def stC4a : SState := { heap := hC4, byType := [(some 100, 0)] }

def stC4b : SState := { heap := hC4 }

theorem C4_index_setdefault_link_overwrites_witness :
    (aget stC4a.byType (some 100) ≠ none ∧
      aget (indexOne stC4a 1).byType (some 100) = aget stC4a.byType (some 100)) ∧
    ((stC4b.heap 1).type_constructor = false ∧
      (indexOne stC4b 1).byType = stC4b.byType) ∧
    ((stC4a.heap 1).kind = .plain ∧ (stC4a.heap 1).state = .pending ∧
      resolveAll stC4a (stC4a.heap 1).dependencies = some [0] ∧
      aget (linkOne cC4 stC4a 1).1.byType ((stC4a.heap 1).ty) = some 1) :=
  ⟨⟨by decide, C4_index_setdefault_link_overwrites.1 stC4a 1 (some 100) (by decide)⟩,
   ⟨by decide, C4_index_setdefault_link_overwrites.2.1 stC4b 1 (by decide)⟩,
   ⟨by decide, by decide, by decide,
    C4_index_setdefault_link_overwrites.2.2 cC4 stC4a 1 [0]
      (by decide) (by decide) (by decide)⟩⟩


/-- C1 counterexample fixture: a single registered node, `optional`, with a
selector no node can satisfy. -/
def hC1x : Heap := fun x =>
  if x = 0 then { uuid := 5, dependencies := [Ref.byId 99], optional := true }
  else { uuid := 0 }

def cC1x : Container := .mk [0] [] [] []

/-- C1 counterexample: an acyclic container in which every required
selector resolves (the only unresolvable selector sits on an `optional`
node, so it is not required) where `solve` succeeds but the node ends in
state `skipped` with its callback never invoked — not every node reaches
`done`. -/
theorem C1_counterexample :
    (hC1x 0).optional = true ∧
    (solve hC1x cC1x).2 = none ∧
    ((solve hC1x cC1x).1.heap 0).state = NState.skipped ∧
    ((solve hC1x cC1x).1.heap 0).runCount = 0 := by
  decide

/-- C1 (amended): on a fresh container (all collected nodes pending,
plain, unrun), with no replace directive, uuid-distinct registrations,
every selector — optional or not — resolving against the collected wave,
and an acyclic post-link predecessor graph (witnessed by a rank
function), `solve` succeeds, and every registered node — however many
times it occurs in the registration list — ends in state `done` with its
callback invoked exactly once and its result cached.  (Quantifying over
`Container.raw` makes the duplicate-registration part explicit: each
occurrence of a node in the registration list reaches `done` with
`runCount` exactly one.)  The original claim fails only in letting
`optional` nodes with unresolvable selectors count as instances: those
end `skipped`, not `done`. -/
theorem C1_solve_acyclic_resolvable (h : Heap) (c : Container)
    (rank : Nat → Nat)
    (hfresh : ∀ a ∈ c.all h [], (h a).state = .pending ∧
      (h a).kind = .plain ∧ (h a).eventSet = false ∧ (h a).rdeps = [] ∧
      (h a).runCount = 0)
    (hrepl : c.replace = [])
    (huniq : ∀ a ∈ Container.raw c, ∀ b ∈ Container.raw c,
      (h a).uuid = (h b).uuid → a = b)
    (hres : ∀ a ∈ c.all h [], ∀ r ∈ (h a).dependencies,
      (∀ u, r = Ref.byId u → ∃ b ∈ c.all h [], (h b).uuid = u) ∧
      (∀ t, r = Ref.byType t → ∃ b ∈ c.all h [], (h b).ty = t ∧
        (h b).type_constructor = true) ∧
      (∀ bb, r = Ref.direct bb → ∃ b ∈ c.all h [], (h b).uuid = (h bb).uuid))
    (hrank : ∀ a ∈ c.all h [], ∀ d ∈ ((linkedHeap h c) a).rdeps,
      rank d < rank a) :
    (solve h c).2 = none ∧
    ∀ a ∈ Container.raw c,
      ((solve h c).1.heap a).state = .done ∧
      ((solve h c).1.heap a).runCount = 1 ∧
      ((solve h c).1.heap a).result = some ((h a).cbVal) := by
  obtain ⟨e0, hdone, hlink, _⟩ := solve_fresh_ok h c rank
    (fun a ha => ⟨(hfresh a ha).1, (hfresh a ha).2.1, (hfresh a ha).2.2.1,
      (hfresh a ha).2.2.2.1⟩) hrepl hres hrank
  refine ⟨e0, ?_⟩
  intro a hraw
  obtain ⟨b, hb, hbe⟩ := Container.all_cover h [] c a hraw (by simp)
  have hba : b = a :=
    huniq b (Container.all_subset_raw h [] c b hb) a hraw hbe
  subst hba
  obtain ⟨L, hLa, _⟩ := hlink b hb
  rw [hdone b hb]
  refine ⟨rfl, ?_, ?_⟩
  · show ((linkedHeap h c) b).runCount + 1 = 1
    rw [hLa]
    show (h b).runCount + 1 = 1
    rw [(hfresh b hb).2.2.2.2]
  · show some ((linkedHeap h c) b).cbVal = some ((h b).cbVal)
    rw [hLa]

/-- C1 witness fixture: node 0 registered twice, node 1 depending on it
by id. -/
def hC1 : Heap := fun x =>
  if x = 0 then { uuid := 5 }
  else if x = 1 then { uuid := 6, dependencies := [Ref.byId 5] }
  else { uuid := 99 }

def cC1 : Container := .mk [0, 1, 0] [] [] []

theorem C1_solve_acyclic_resolvable_witness :
    cC1.replace = [] ∧
    (∀ a ∈ cC1.all hC1 [], (hC1 a).state = .pending ∧
      (hC1 a).kind = .plain ∧ (hC1 a).eventSet = false ∧
      (hC1 a).rdeps = [] ∧ (hC1 a).runCount = 0) ∧
    Container.raw cC1 = [0, 1, 0] ∧
    ((solve hC1 cC1).2 = none ∧
     ∀ a ∈ Container.raw cC1,
       ((solve hC1 cC1).1.heap a).state = .done ∧
       ((solve hC1 cC1).1.heap a).runCount = 1 ∧
       ((solve hC1 cC1).1.heap a).result = some ((hC1 a).cbVal)) :=
  ⟨rfl, by decide, rfl,
   C1_solve_acyclic_resolvable hC1 cC1 (fun a => a) (by decide) rfl
     (by decide)
     (by
       intro a ha r hr
       have hall : cC1.all hC1 [] = [0, 1] := by decide
       rw [hall] at ha
       rcases List.mem_cons.mp ha with rfl | ha2
       · have hd : (hC1 0).dependencies = [] := rfl
         rw [hd] at hr
         exact absurd hr (List.not_mem_nil r)
       rcases List.mem_cons.mp ha2 with rfl | ha3
       · have hd : (hC1 1).dependencies = [Ref.byId 5] := rfl
         rw [hd] at hr
         rcases List.mem_cons.mp hr with rfl | hr2
         · refine ⟨?_, ?_, ?_⟩
           · intro u hu
             have h5 : 5 = u := by injection hu
             exact ⟨0, by rw [hall]; exact List.mem_cons_self _ _,
               h5.symm ▸ rfl⟩
           · intro t ht
             exact nomatch ht
           · intro bb hbb
             exact nomatch hbb
         · exact absurd hr2 (List.not_mem_nil r)
       · exact absurd ha3 (List.not_mem_nil a))
     (by decide)⟩


/-- C2: on a fresh, plain, replace-free container whose references all
resolve, if some collected node lies on a cycle of the linked
predecessor graph, `solve` aborts with exactly the self-reference/loop
`SolveError` raised by the cycle check — a structural failure, not a
hang — and it does so before executing any node: every object's run
count and completion event are exactly as before the call. -/
theorem C2_cycle_aborts_before_execution (h : Heap) (c : Container) (x : Nat)
    (hfresh : ∀ a ∈ c.all h [], (h a).state = .pending ∧ (h a).kind = .plain ∧
      (h a).eventSet = false ∧ (h a).rdeps = [])
    (hrepl : c.replace = [])
    (hres : ∀ a ∈ c.all h [], ∀ r ∈ (h a).dependencies,
      (∀ u, r = Ref.byId u → ∃ b ∈ c.all h [], (h b).uuid = u) ∧
      (∀ t, r = Ref.byType t → ∃ b ∈ c.all h [], (h b).ty = t ∧
        (h b).type_constructor = true) ∧
      (∀ bb, r = Ref.direct bb → ∃ b ∈ c.all h [], (h b).uuid = (h bb).uuid))
    (hx : x ∈ c.all h []) (hcyc : onCycle (linkedHeap h c) x) :
    (solve h c).2 = some Err.loopErr ∧
    (∀ a, ((solve h c).1.heap a).runCount = (h a).runCount) ∧
    (∀ a, ((solve h c).1.heap a).eventSet = (h a).eventSet) := by
  obtain ⟨st2, hip, hsu, hlha, hout⟩ := linkPhase_fresh h c hfresh hrepl hres
  set W0 := c.all h [] with hW0def
  set ds := sortByPrio h W0 with hdsdef
  have hmemW : ∀ y, y ∈ ds ↔ y ∈ W0 := fun y => sortByPrio_mem h W0 y
  have hlh2 : linkedHeap h c = st2.heap := by
    unfold linkedHeap
    rw [← hW0def, ← hdsdef, hip]
  have hpw0 : W0.Pairwise (fun a b => (h a).uuid ≠ (h b).uuid) :=
    Container.all_pairwise h [] c
  have hpw : ds.Pairwise (fun a b => (h a).uuid ≠ (h b).uuid) :=
    sortByPrio_pairwise h W0 hpw0
  have hinj := pairwise_uuid_inj h ds hpw
  have huuid2 : ∀ y, (st2.heap y).uuid = (h y).uuid := by
    intro y
    by_cases hy : y ∈ W0
    · obtain ⟨L, hL, _⟩ := hlha y hy
      rw [hL]
    · rw [hout y hy]
  have hinj2 : ∀ a b, a ∈ ds → b ∈ ds →
      (st2.heap a).uuid = (st2.heap b).uuid → a = b := by
    intro a b ha hb he
    rw [huuid2 a, huuid2 b] at he
    exact hinj a b ha hb he
  have hcl : ∀ a ∈ ds, ∀ d ∈ (st2.heap a).rdeps, d ∈ ds := by
    intro a ha d hd
    obtain ⟨L, hL, hmem⟩ := hlha a ((hmemW a).mp ha)
    rw [hL] at hd
    exact (hmemW d).mpr (hmem d hd)
  have hflat : flattenAll st2.heap ds ds [] = some Err.loopErr :=
    flattenAll_loopErr st2.heap ds hcl hinj2 x (hlh2 ▸ hcyc)
      ((hmemW x).mpr hx)
  have hWne : W0.isEmpty = false := by
    match hWW : W0 with
    | [] => exact absurd hx (List.not_mem_nil x)
    | y :: ys => rfl
  have hfinal : solve h c = (st2, some Err.loopErr) := by
    show solveLoop c ((W0.length + 1) + 1) (initS h c) = _
    exact solveLoop_step_flatErr c (W0.length + 1) (initS h c) ds st2
      Err.loopErr hWne hip hflat
  rw [hfinal]
  refine ⟨rfl, ?_, ?_⟩
  · intro a
    by_cases ha : a ∈ W0
    · obtain ⟨L, hL, _⟩ := hlha a ha
      show (st2.heap a).runCount = (h a).runCount
      rw [hL]
    · show (st2.heap a).runCount = (h a).runCount
      rw [hout a ha]
  · intro a
    by_cases ha : a ∈ W0
    · obtain ⟨L, hL, _⟩ := hlha a ha
      show (st2.heap a).eventSet = (h a).eventSet
      rw [hL]
    · show (st2.heap a).eventSet = (h a).eventSet
      rw [hout a ha]

/-- C2 witness fixture: two nodes referencing each other by id. -/
def hC2 : Heap := fun x =>
  if x = 0 then { uuid := 5, dependencies := [Ref.byId 6] }
  else if x = 1 then { uuid := 6, dependencies := [Ref.byId 5] }
  else { uuid := 99 }

def cC2 : Container := .mk [0, 1] [] [] []

theorem hC2res : ∀ a ∈ cC2.all hC2 [], ∀ r ∈ (hC2 a).dependencies,
    (∀ u, r = Ref.byId u → ∃ b ∈ cC2.all hC2 [], (hC2 b).uuid = u) ∧
    (∀ t, r = Ref.byType t → ∃ b ∈ cC2.all hC2 [], (hC2 b).ty = t ∧
      (hC2 b).type_constructor = true) ∧
    (∀ bb, r = Ref.direct bb → ∃ b ∈ cC2.all hC2 [],
      (hC2 b).uuid = (hC2 bb).uuid) := by
  intro a ha r hr
  have hall : cC2.all hC2 [] = [0, 1] := by decide
  rw [hall] at ha
  rcases List.mem_cons.mp ha with rfl | ha2
  · have hd : (hC2 0).dependencies = [Ref.byId 6] := rfl
    rw [hd] at hr
    rcases List.mem_cons.mp hr with rfl | hr2
    · refine ⟨?_, ?_, ?_⟩
      · intro u hu
        have h6 : 6 = u := by injection hu
        exact ⟨1, by decide, h6⟩
      · intro t ht
        exact nomatch ht
      · intro bb hbb
        exact nomatch hbb
    · exact absurd hr2 (List.not_mem_nil r)
  rcases List.mem_cons.mp ha2 with rfl | ha3
  · have hd : (hC2 1).dependencies = [Ref.byId 5] := rfl
    rw [hd] at hr
    rcases List.mem_cons.mp hr with rfl | hr2
    · refine ⟨?_, ?_, ?_⟩
      · intro u hu
        have h5 : 5 = u := by injection hu
        exact ⟨0, by decide, h5⟩
      · intro t ht
        exact nomatch ht
      · intro bb hbb
        exact nomatch hbb
    · exact absurd hr2 (List.not_mem_nil r)
  · exact absurd ha3 (List.not_mem_nil a)

theorem hC2cyc : onCycle (linkedHeap hC2 cC2) 0 := by
  have s01 : StepRel (linkedHeap hC2 cC2) 0 1 := by
    show 1 ∈ ((linkedHeap hC2 cC2) 0).rdeps
    decide
  have s10 : StepRel (linkedHeap hC2 cC2) 1 0 := by
    show 0 ∈ ((linkedHeap hC2 cC2) 1).rdeps
    decide
  exact Relation.TransGen.head s01 (Relation.TransGen.single s10)

theorem C2_cycle_aborts_before_execution_witness :
    cC2.replace = [] ∧
    0 ∈ cC2.all hC2 [] ∧
    onCycle (linkedHeap hC2 cC2) 0 ∧
    ((solve hC2 cC2).2 = some Err.loopErr ∧
     (∀ a, ((solve hC2 cC2).1.heap a).runCount = (hC2 a).runCount) ∧
     (∀ a, ((solve hC2 cC2).1.heap a).eventSet = (hC2 a).eventSet)) :=
  ⟨rfl, by decide, hC2cyc,
   C2_cycle_aborts_before_execution hC2 cC2 0 (by decide) rfl hC2res
     (by decide) hC2cyc⟩


/-- C3: on a fresh, plain, replace-free container, a collected node `X`
with an unresolvable predecessor selector (no wave node matches it by
uuid, produced type or object identity), all other selectors resolving
away from `X`: if `X` is not `optional`, `solve` aborts with the
`DependencyNotFound` resolution failure and no callback runs; if `X` is
`optional`, `solve` instead completes successfully, `X`'s callback is
never invoked and `X` ends in state `skipped`, while every other
collected node still reaches `done`. -/
theorem C3_unresolvable_selector (h : Heap) (c : Container) (X : Nat)
    (r : Ref) (rank : Nat → Nat)
    (hfresh : ∀ a ∈ c.all h [], (h a).state = .pending ∧ (h a).kind = .plain ∧
      (h a).eventSet = false ∧ (h a).rdeps = [])
    (hrepl : c.replace = [])
    (hX : X ∈ c.all h [])
    (hr : r ∈ (h X).dependencies)
    (hbad : unresolvableIn h (c.all h []) r)
    (hres : ∀ a ∈ c.all h [], a ≠ X → ∀ q ∈ (h a).dependencies,
      (∀ u, q = Ref.byId u → ∃ b ∈ c.all h [], (h b).uuid = u ∧ b ≠ X) ∧
      (∀ t, q = Ref.byType t → t ≠ (h X).ty ∧ ∃ b ∈ c.all h [],
        (h b).ty = t ∧ (h b).type_constructor = true) ∧
      (∀ bb, q = Ref.direct bb → ∃ b ∈ c.all h [],
        (h b).uuid = (h bb).uuid ∧ b ≠ X))
    (hrank : ∀ a ∈ c.all h [], a ≠ X →
      ∀ d ∈ ((linkedHeap h c) a).rdeps, rank d < rank a) :
    ((h X).optional = false → (solve h c).2 = some Err.notFound ∧
      (∀ a, ((solve h c).1.heap a).runCount = (h a).runCount)) ∧
    ((h X).optional = true → (solve h c).2 = none ∧
      ((solve h c).1.heap X).state = NState.skipped ∧
      ((solve h c).1.heap X).runCount = (h X).runCount ∧
      (∀ a ∈ c.all h [], a ≠ X →
        ((solve h c).1.heap a).state = NState.done)) := by
  constructor
  · intro hXopt
    obtain ⟨f1, f2, _⟩ := solve_unresolvable_fail h c X r
      (fun a ha => ⟨(hfresh a ha).1, (hfresh a ha).2.1⟩) hrepl hX hXopt hr hbad
      (by
        intro a ha haX q hq
        obtain ⟨h1, h2, h3⟩ := hres a ha haX q hq
        refine ⟨?_, ?_, ?_⟩
        · intro u hu
          obtain ⟨b, hb, hbu, _⟩ := h1 u hu
          exact ⟨b, hb, hbu⟩
        · intro t ht
          obtain ⟨_, b, hb, hbt, hbtc⟩ := h2 t ht
          exact ⟨b, hb, hbt, hbtc⟩
        · intro bb hbb
          obtain ⟨b, hb, hbu, _⟩ := h3 bb hbb
          exact ⟨b, hb, hbu⟩)
    exact ⟨f1, f2⟩
  · intro hXopt
    obtain ⟨s1, s2, s3, _, s5, _⟩ := solve_unresolvable_skip h c X r rank
      hfresh hrepl hX hXopt hr hbad hres hrank
    exact ⟨s1, s2, s3, fun a ha haX => (s5 a ha haX).1⟩

/-- C3 witness fixtures: one registered node with an unresolvable id
selector, required in the first heap and `optional` in the second. -/
def hC3a : Heap := fun x =>
  if x = 0 then { uuid := 5, dependencies := [Ref.byId 99] }
  else { uuid := 1 }

def hC3b : Heap := fun x =>
  if x = 0 then { uuid := 5, dependencies := [Ref.byId 99], optional := true }
  else { uuid := 1 }

def cC3 : Container := .mk [0] [] [] []

theorem C3_unresolvable_selector_witness :
    ((hC3a 0).optional = false ∧
      (solve hC3a cC3).2 = some Err.notFound ∧
      ((solve hC3a cC3).1.heap 0).runCount = (hC3a 0).runCount) ∧
    ((hC3b 0).optional = true ∧
      (solve hC3b cC3).2 = none ∧
      ((solve hC3b cC3).1.heap 0).state = NState.skipped ∧
      ((solve hC3b cC3).1.heap 0).runCount = (hC3b 0).runCount) :=
  ⟨⟨rfl,
    ((C3_unresolvable_selector hC3a cC3 0 (Ref.byId 99) (fun a => a)
      (by decide) rfl (by decide) (by decide)
      (by
        show ∀ b ∈ cC3.all hC3a [], (hC3a b).uuid ≠ 99
        decide)
      (by
        intro a ha haX q hq
        have hall : cC3.all hC3a [] = [0] := by decide
        rw [hall] at ha
        rcases List.mem_cons.mp ha with rfl | h2
        · exact absurd rfl haX
        · exact absurd h2 (List.not_mem_nil a))
      (by
        intro a ha haX d hd
        have hall : cC3.all hC3a [] = [0] := by decide
        rw [hall] at ha
        rcases List.mem_cons.mp ha with rfl | h2
        · exact absurd rfl haX
        · exact absurd h2 (List.not_mem_nil a))).1 rfl).1,
    ((C3_unresolvable_selector hC3a cC3 0 (Ref.byId 99) (fun a => a)
      (by decide) rfl (by decide) (by decide)
      (by
        show ∀ b ∈ cC3.all hC3a [], (hC3a b).uuid ≠ 99
        decide)
      (by
        intro a ha haX q hq
        have hall : cC3.all hC3a [] = [0] := by decide
        rw [hall] at ha
        rcases List.mem_cons.mp ha with rfl | h2
        · exact absurd rfl haX
        · exact absurd h2 (List.not_mem_nil a))
      (by
        intro a ha haX d hd
        have hall : cC3.all hC3a [] = [0] := by decide
        rw [hall] at ha
        rcases List.mem_cons.mp ha with rfl | h2
        · exact absurd rfl haX
        · exact absurd h2 (List.not_mem_nil a))).1 rfl).2 0⟩,
   (by
    have hmain := C3_unresolvable_selector hC3b cC3 0 (Ref.byId 99)
      (fun a => a)
      (by decide) rfl (by decide) (by decide)
      (by
        show ∀ b ∈ cC3.all hC3b [], (hC3b b).uuid ≠ 99
        decide)
      (by
        intro a ha haX q hq
        have hall : cC3.all hC3b [] = [0] := by decide
        rw [hall] at ha
        rcases List.mem_cons.mp ha with rfl | h2
        · exact absurd rfl haX
        · exact absurd h2 (List.not_mem_nil a))
      (by
        intro a ha haX d hd
        have hall : cC3.all hC3b [] = [0] := by decide
        rw [hall] at ha
        rcases List.mem_cons.mp ha with rfl | h2
        · exact absurd rfl haX
        · exact absurd h2 (List.not_mem_nil a))
    obtain ⟨s1, s2, s3, _⟩ := hmain.2 rfl
    exact ⟨rfl, s1, s2, s3⟩)⟩


/-- The rdeps-clearing fold of `rebuild` leaves untouched every address
it does not list. -/
theorem clearFold_out : ∀ (L : List Nat) (hh : Heap) (x : Nat), x ∉ L →
    (L.foldl (fun hh a => hset hh a { hh a with rdeps := [] }) hh) x = hh x := by
  intro L
  induction L with
  | nil => intro hh x _; rfl
  | cons b rest ih =>
    intro hh x hx
    rw [List.foldl_cons]
    rw [ih _ x (fun hxr => hx (List.mem_cons_of_mem _ hxr))]
    exact hset_other _ _ _ _ (fun hxb => hx (hxb ▸ List.mem_cons_self _ _))

/-- The rdeps-clearing fold of `rebuild` detaches every listed node. -/
theorem clearFold_rdeps : ∀ (L : List Nat) (hh : Heap) (a : Nat), a ∈ L →
    ((L.foldl (fun hh a => hset hh a { hh a with rdeps := [] }) hh) a).rdeps
      = [] := by
  intro L
  induction L with
  | nil => intro hh a ha; exact absurd ha (List.not_mem_nil a)
  | cons b rest ih =>
    intro hh a ha
    rw [List.foldl_cons]
    by_cases har : a ∈ rest
    · exact ih _ a har
    · have hab : a = b := by
        rcases List.mem_cons.mp ha with rfl | h2
        · rfl
        · exact absurd h2 har
      subst hab
      rw [clearFold_out rest _ a har, hset_self]

mutual
/-- Every address of a shifted container tree lies at or above the
shift offset. -/
theorem raw_shift_ge (K : Nat) :
    ∀ c : Container, ∀ x, x ∈ Container.raw (Container.shift K c) → K ≤ x
  | .mk d cs r l, x, hx => by
    unfold Container.shift at hx
    unfold Container.raw at hx
    rcases List.mem_append.mp hx with hd | hc
    · obtain ⟨y, _, rfl⟩ := List.mem_map.mp hd
      exact Nat.le_add_left K y
    · exact rawChildren_shift_ge K cs x hc

theorem rawChildren_shift_ge (K : Nat) :
    ∀ cs : List Container, ∀ x,
      x ∈ Container.rawChildren (Container.shiftChildren K cs) → K ≤ x
  | c :: cs, x, hx => by
    unfold Container.shiftChildren at hx
    unfold Container.rawChildren at hx
    rcases List.mem_append.mp hx with h1 | h2
    · exact raw_shift_ge K c x h1
    · exact rawChildren_shift_ge K cs x h2
end

/-- C6 (amended): `rebuild` produces a flat copy — no child containers,
its node list is the deduplicated collection of the deep copy, every
collected clone's resolved-predecessor list is detached, and every
object below the clone offset (in particular the whole original
container's object graph) is untouched.  But the deep copy preserves
each node's `state`, so the rebuilt copy re-executes its nodes only when
they are (still) `pending`: whenever the rebuilt copy's collected nodes
are all pending, plain, unfired and resolvable with an acyclic linked
graph, `solve` on it succeeds and runs every collected clone exactly
once.  (For an already-solved original the clones start `done` — see the
counterexample — so nothing re-executes.) -/
theorem C6_rebuild_then_solve (h : Heap) (c : Container) (K : Nat)
    (rank : Nat → Nat) :
    (rebuild h c K).2.children = [] ∧
    (rebuild h c K).2.deps = (c.shift K).all (shiftHeap K h) [] ∧
    (∀ a ∈ (rebuild h c K).2.deps, ((rebuild h c K).1 a).rdeps = []) ∧
    (∀ x, x < K → (rebuild h c K).1 x = h x) ∧
    ((∀ a ∈ Container.all (rebuild h c K).1 [] (rebuild h c K).2,
        (((rebuild h c K).1 a).state = .pending ∧
         ((rebuild h c K).1 a).kind = .plain ∧
         ((rebuild h c K).1 a).eventSet = false ∧
         ((rebuild h c K).1 a).rdeps = [])) →
      (rebuild h c K).2.replace = [] →
      (∀ a ∈ Container.all (rebuild h c K).1 [] (rebuild h c K).2,
        ∀ r ∈ (((rebuild h c K).1 a)).dependencies,
        (∀ u, r = Ref.byId u →
          ∃ b ∈ Container.all (rebuild h c K).1 [] (rebuild h c K).2,
            ((rebuild h c K).1 b).uuid = u) ∧
        (∀ t, r = Ref.byType t →
          ∃ b ∈ Container.all (rebuild h c K).1 [] (rebuild h c K).2,
            ((rebuild h c K).1 b).ty = t ∧
            ((rebuild h c K).1 b).type_constructor = true) ∧
        (∀ bb, r = Ref.direct bb →
          ∃ b ∈ Container.all (rebuild h c K).1 [] (rebuild h c K).2,
            ((rebuild h c K).1 b).uuid = ((rebuild h c K).1 bb).uuid)) →
      (∀ a ∈ Container.all (rebuild h c K).1 [] (rebuild h c K).2,
        ∀ d ∈ ((linkedHeap (rebuild h c K).1 (rebuild h c K).2) a).rdeps,
          rank d < rank a) →
      (solve (rebuild h c K).1 (rebuild h c K).2).2 = none ∧
      (∀ a ∈ Container.all (rebuild h c K).1 [] (rebuild h c K).2,
        ((solve (rebuild h c K).1 (rebuild h c K).2).1.heap a).state =
          NState.done ∧
        ((solve (rebuild h c K).1 (rebuild h c K).2).1.heap a).runCount =
          ((rebuild h c K).1 a).runCount + 1)) := by
  refine ⟨rfl, rfl, ?_, ?_, ?_⟩
  · intro a ha
    exact clearFold_rdeps _ _ a ha
  · intro x hx
    have hxnot : x ∉ ((c.shift K).all (shiftHeap K h) []) := by
      intro hmem
      have hraw := Container.all_subset_raw (shiftHeap K h) [] _ x hmem
      exact absurd (raw_shift_ge K c x hraw) (Nat.not_le.mpr hx)
    show (((c.shift K).all (shiftHeap K h) []).foldl
      (fun hh a => hset hh a { hh a with rdeps := [] }) (shiftHeap K h)) x = h x
    rw [clearFold_out _ _ x hxnot]
    show (if K ≤ x then shiftNode K (h (x - K)) else h x) = h x
    rw [if_neg (Nat.not_le.mpr hx)]
  · intro hfresh hrepl hres hrank
    obtain ⟨e0, hdone, hlink, _⟩ := solve_fresh_ok (rebuild h c K).1
      (rebuild h c K).2 rank hfresh hrepl hres hrank
    refine ⟨e0, ?_⟩
    intro a ha
    obtain ⟨L, hLa, _⟩ := hlink a ha
    rw [hdone a ha]
    refine ⟨rfl, ?_⟩
    show ((linkedHeap (rebuild h c K).1 (rebuild h c K).2) a).runCount + 1 = _
    rw [hLa]

/-- C6 counterexample fixture: one registered node, solved once. -/
def hC6 : Heap := fun x =>
  if x = 0 then { uuid := 5 } else { uuid := 1 }

def cC6 : Container := .mk [0] [] [] []

/-- C6 counterexample: after solving, rebuilding at clone offset 100
and solving the rebuilt copy, the clone (address 100) starts — and
stays — in state `done` with its run count still 1: the callback is not
executed again, because the deep copy preserves `state` rather than
resetting it to `pending`. -/
theorem C6_counterexample :
    ((solve hC6 cC6).1.heap 0).state = NState.done ∧
    ((solve hC6 cC6).1.heap 0).runCount = 1 ∧
    ((rebuild (solve hC6 cC6).1.heap cC6 100).1 100).state = NState.done ∧
    (solve (rebuild (solve hC6 cC6).1.heap cC6 100).1
      (rebuild (solve hC6 cC6).1.heap cC6 100).2).2 = none ∧
    ((solve (rebuild (solve hC6 cC6).1.heap cC6 100).1
      (rebuild (solve hC6 cC6).1.heap cC6 100).2).1.heap 100).runCount
      = 1 := by
  decide

/-- C6 witness fixture: an unsolved two-node chain to rebuild. -/
def hC6w : Heap := fun x =>
  if x = 0 then { uuid := 5 }
  else if x = 1 then { uuid := 6, dependencies := [Ref.byId 5] }
  else { uuid := 99 }

def cC6w : Container := .mk [0, 1] [] [] []

theorem C6_rebuild_then_solve_witness :
    (rebuild hC6w cC6w 100).2.children = [] ∧
    Container.all (rebuild hC6w cC6w 100).1 [] (rebuild hC6w cC6w 100).2
      = [100, 101] ∧
    (solve (rebuild hC6w cC6w 100).1 (rebuild hC6w cC6w 100).2).2 = none ∧
    (∀ a ∈ Container.all (rebuild hC6w cC6w 100).1 []
        (rebuild hC6w cC6w 100).2,
      ((solve (rebuild hC6w cC6w 100).1
        (rebuild hC6w cC6w 100).2).1.heap a).state = NState.done ∧
      ((solve (rebuild hC6w cC6w 100).1
        (rebuild hC6w cC6w 100).2).1.heap a).runCount =
        ((rebuild hC6w cC6w 100).1 a).runCount + 1) := by
  have hmain := C6_rebuild_then_solve hC6w cC6w 100 (fun a => a)
  refine ⟨hmain.1, by decide, ?_⟩
  have hsolve := hmain.2.2.2.2 (by decide) (by decide)
    (by
      intro a ha r hr
      have hall : Container.all (rebuild hC6w cC6w 100).1 []
          (rebuild hC6w cC6w 100).2 = [100, 101] := by decide
      rw [hall] at ha
      rcases List.mem_cons.mp ha with rfl | ha2
      · have hd : ((rebuild hC6w cC6w 100).1 100).dependencies = [] := by
          decide
        rw [hd] at hr
        exact absurd hr (List.not_mem_nil r)
      rcases List.mem_cons.mp ha2 with rfl | ha3
      · have hd : ((rebuild hC6w cC6w 100).1 101).dependencies =
            [Ref.byId 5] := by decide
        rw [hd] at hr
        rcases List.mem_cons.mp hr with rfl | hr2
        · refine ⟨?_, ?_, ?_⟩
          · intro u hu
            have h5 : 5 = u := by injection hu
            refine ⟨100, by rw [hall]; exact List.mem_cons_self _ _, ?_⟩
            show ((rebuild hC6w cC6w 100).1 100).uuid = u
            rw [← h5]
            decide
          · intro t ht
            exact nomatch ht
          · intro bb hbb
            exact nomatch hbb
        · exact absurd hr2 (List.not_mem_nil r)
      · exact absurd ha3 (List.not_mem_nil a))
    (by decide)
  exact hsolve


/-- C5: on a fresh, plain container carrying exactly one replace
directive (a selector for node `A`'s id or produced type, replacement
node `B`, both registered, `A` the unique producer of its type), after
`solve`: the solve succeeds, `A`'s object is completely untouched (still
`pending`, callback never invoked), `B` runs exactly once even though it
was also independently collected, and every consumer's resolved
predecessor list replaces references to `A`'s id or type by `B` — so
every consumer that referenced `A` observes `B`'s cached result among
its inputs. -/
theorem C5_replace_directive (h : Heap) (c : Container) (A B : Nat)
    (sel : Ref) (rank : Nat → Nat)
    (hfresh : ∀ a ∈ c.all h [], (h a).state = .pending ∧ (h a).kind = .plain ∧
      (h a).eventSet = false ∧ (h a).rdeps = [])
    (hrepl : c.replace = [(sel, B)])
    (hsel : sel = Ref.byId ((h A).uuid) ∨ sel = Ref.byType ((h A).ty))
    (hA : A ∈ c.all h []) (hB : B ∈ c.all h []) (hAB : A ≠ B)
    (hAtc : (h A).type_constructor = true)
    (hBtc : (h B).type_constructor = true)
    (htyu : ∀ n ∈ c.all h [], n ≠ A → (h n).ty ≠ (h A).ty)
    (hres : ∀ n ∈ c.all h [], n ≠ A → ∀ r ∈ (h n).dependencies,
      (∀ u, r = Ref.byId u → u = (h A).uuid ∨
        ∃ b ∈ c.all h [], b ≠ A ∧ (h b).uuid = u) ∧
      (∀ t, r = Ref.byType t → t = (h A).ty ∨
        ∃ b ∈ c.all h [], b ≠ A ∧ (h b).ty = t ∧
          (h b).type_constructor = true) ∧
      (∀ bb, r = Ref.direct bb → (h bb).uuid = (h A).uuid ∨
        ∃ b ∈ c.all h [], b ≠ A ∧ (h b).uuid = (h bb).uuid))
    (hrank : ∀ a ∈ c.all h [], a ≠ A →
      ∀ d ∈ ((linkedHeap h c) a).rdeps, rank d < rank a) :
    (solve h c).2 = none ∧
    (solve h c).1.heap A = h A ∧
    ((solve h c).1.heap B).state = NState.done ∧
    ((solve h c).1.heap B).runCount = (h B).runCount + 1 ∧
    ((solve h c).1.heap B).result = some ((h B).cbVal) ∧
    (∀ n ∈ c.all h [], n ≠ A → ∃ L,
      List.Forall₂ (fun r d => d ∈ c.all h [] ∧ d ≠ A ∧
        ((r = Ref.byId ((h A).uuid) ∨ r = Ref.byType ((h A).ty)) → d = B))
        ((h n).dependencies) L ∧
      ((solve h c).1.heap n).state = NState.done ∧
      ((solve h c).1.heap n).inputs =
        some (L.map fun d => some ((h d).cbVal))) := by
  set W0 := c.all h [] with hW0def
  set ds := sortByPrio h W0 with hdsdef
  set st1 := ds.foldl indexOne (initS h c) with hst1def
  have hh0 : (initS h c).heap = h := rfl
  have hmemW : ∀ x, x ∈ ds ↔ x ∈ W0 := fun x => sortByPrio_mem h W0 x
  have hpw0 : W0.Pairwise (fun a b => (h a).uuid ≠ (h b).uuid) :=
    Container.all_pairwise h [] c
  have hpw : ds.Pairwise (fun a b => (h a).uuid ≠ (h b).uuid) :=
    sortByPrio_pairwise h W0 hpw0
  have hnd : ds.Nodup := hpw.imp (fun hne heq => hne (by rw [heq]))
  have hinj := pairwise_uuid_inj h ds hpw
  have hseed := seed_heap ds (initS h c)
  have hs1h : st1.heap = h := hseed.1
  have hs1s : st1.solvedU = [] := hseed.2.1
  have hs1r : st1.repl = c.replace := hseed.2.2
  have hAds : A ∈ ds := (hmemW A).mpr hA
  have hBds : B ∈ ds := (hmemW B).mpr hB
  have huAB : (h A).uuid ≠ (h B).uuid := by
    intro he
    exact hAB (hinj A B hAds hBds he)
  have hbid : ∀ a ∈ ds, aget st1.byId ((h a).uuid) = some a := by
    intro a ha
    have := seed_byId_exact ds (initS h c)
      (by rw [hh0]; exact hpw)
      (fun b _ => by rw [hh0]; rfl)
      a ha
    rw [hh0] at this
    exact this
  have htyA : aget st1.byType ((h A).ty) = some A := by
    have := seed_byType_exact A ds (initS h c) hAds
      (by rw [hh0]; exact hAtc)
      (by
        intro b hb hbt _
        rw [hh0] at hbt
        by_contra hne
        exact htyu b ((hmemW b).mp hb) hne hbt)
      (by rw [show (initS h c).byType = [] from rfl]; rfl)
    rw [hh0] at this
    exact this
  have hresolve : resolveRef st1 sel = some A := by
    rcases hsel with rfl | rfl
    · show aget st1.byId ((h A).uuid) = some A
      exact hbid A hAds
    · show aget st1.byType ((h A).ty) = some A
      exact htyA
  -- the states after the replace directive is processed
  set st2 : SState := { st1 with byId := aset st1.byId ((st1.heap A).uuid) B }
    with hst2def
  set st3 : SState := { st2 with byType := aset st2.byType ((st2.heap A).ty) B }
    with hst3def
  set st4 : SState := indexOne st3 B with hst4def
  have hs3heap : st3.heap = h := hs1h
  have hs3byId : st3.byId = aset st1.byId ((h A).uuid) B := by
    show aset st1.byId ((st1.heap A).uuid) B = _
    rw [hs1h]
  have hs3byType : st3.byType = aset st1.byType ((h A).ty) B := by
    show aset st1.byType ((st1.heap A).ty) B = _
    rw [hs1h]
  have hs4heap : st4.heap = h := by
    rw [hst4def, (indexOne_heap st3 B).1]
    exact hs3heap
  have hs4solved : st4.solvedU = [] := by
    rw [hst4def, (indexOne_heap st3 B).2.1]
    exact hs1s
  have hs4byId : st4.byId = aset st1.byId ((h A).uuid) B := by
    rw [hst4def, indexOne_byId, hs3heap]
    rw [show st3.byId = aset st1.byId ((h A).uuid) B from hs3byId]
    apply asetd_present _ _ _ B
    rw [aget_aset_other _ _ _ _ (Ne.symm huAB)]
    exact hbid B hBds
  have hs4byType : st4.byType =
      asetd (aset st1.byType ((h A).ty) B) ((h B).ty) B := by
    rw [hst4def, indexOne_byType, hs3heap]
    rw [if_pos hBtc, hs3byType]
  have hone : processOneReplace st1 [] [] (sel, B) =
      ((st4, [(h A).uuid], [(h B).uuid]), none) := by
    unfold processOneReplace
    rw [hresolve]
    show (match (if aget st2.byType ((st2.heap A).ty) = some A then
        (if (st2.heap B).type_constructor = true then
          some { st2 with byType := aset st2.byType ((st2.heap A).ty) B }
        else none)
      else some st2) with
    | none => ((st2, [], []), some Err.assertErr)
    | some st =>
      ((indexOne st B, [] ++ [((indexOne st B).heap A).uuid],
        [] ++ [((indexOne st B).heap B).uuid]), none)) = _
    have hc1 : aget st2.byType ((st2.heap A).ty) = some A := by
      show aget st1.byType ((st1.heap A).ty) = some A
      rw [hs1h]
      exact htyA
    rw [if_pos hc1]
    have hc2 : (st2.heap B).type_constructor = true := by
      show (st1.heap B).type_constructor = true
      rw [hs1h]
      exact hBtc
    rw [if_pos hc2]
    show ((indexOne st3 B, [] ++ [((indexOne st3 B).heap A).uuid],
      [] ++ [((indexOne st3 B).heap B).uuid]), none) = _
    rw [(indexOne_heap st3 B).1, hs3heap, ← hst4def]
    rfl
  have hrepl1 : st1.repl = [(sel, B)] := by rw [hs1r, hrepl]
  set kept := ds.filter (fun a =>
    (h a).uuid ∉ [(h A).uuid] ∧ (h a).uuid ∉ [(h B).uuid]) with hkeptdef
  set ds2 := kept ++ [B] with hds2def
  have hgb4 : aget st4.byId ((h B).uuid) = some B := by
    rw [hs4byId, aget_aset_other _ _ _ _ (Ne.symm huAB)]
    exact hbid B hBds
  have hpr : processReplace st1 ds = ((st4, ds2, [(h A).uuid]), none) := by
    simp only [processReplace, hrepl1, List.foldl_cons, List.foldl_nil]
    rw [hone]
    simp only
    have hmapm : List.mapM (fun u => aget st4.byId u) [(h B).uuid] =
        some [B] := by
      rw [List.mapM_cons, hgb4, List.mapM_nil]
      rfl
    rw [hmapm]
    simp only
    rw [hds2def, hkeptdef, hs4heap]
  set st5 : SState := { st4 with solvedU := st4.solvedU ++ [(h A).uuid], repl := [] } with hst5def
  have h5h : st5.heap = h := hs4heap
  have h5s : st5.solvedU = [(h A).uuid] := by
    show st4.solvedU ++ [(h A).uuid] = _
    rw [hs4solved]
    rfl
  have h5id : st5.byId = aset st1.byId ((h A).uuid) B := hs4byId
  have h5ty : st5.byType =
      asetd (aset st1.byType ((h A).ty) B) ((h B).ty) B := hs4byType
  have hip : indexPhase c (initS h c) ds = linkLoop c st5 ds2 := by
    unfold indexPhase
    rw [← hst1def]
    rw [if_neg (by rw [hrepl1]; exact fun hx => nomatch hx)]
    rw [hpr]
  have htyBA : (h B).ty ≠ (h A).ty := htyu B hB (Ne.symm hAB)
  have hty5A : aget st5.byType ((h A).ty) = some B := by
    rw [h5ty, aget_asetd_other _ _ _ _ (Ne.symm htyBA), aget_aset_self]
  have hkeptmem : ∀ y, y ∈ kept ↔ (y ∈ ds ∧ y ≠ A ∧ y ≠ B) := by
    intro y
    rw [hkeptdef, List.mem_filter]
    constructor
    · intro ⟨hyds, hcond⟩
      have h1 : (h y).uuid ∉ [(h A).uuid] ∧ (h y).uuid ∉ [(h B).uuid] :=
        of_decide_eq_true hcond
      refine ⟨hyds, ?_, ?_⟩
      · intro hyA
        exact h1.1 (by rw [hyA]; exact List.mem_singleton.mpr rfl)
      · intro hyB
        exact h1.2 (by rw [hyB]; exact List.mem_singleton.mpr rfl)
    · intro ⟨hyds, hyA, hyB⟩
      refine ⟨hyds, decide_eq_true ?_⟩
      constructor
      · intro hmem
        exact hyA (hinj y A hyds hAds (List.mem_singleton.mp hmem))
      · intro hmem
        exact hyB (hinj y B hyds hBds (List.mem_singleton.mp hmem))
  have hds2mem : ∀ y, y ∈ ds2 ↔ (y ∈ ds ∧ y ≠ A) := by
    intro y
    rw [hds2def, List.mem_append, List.mem_singleton, hkeptmem]
    constructor
    · intro hy
      rcases hy with ⟨h1, h2, _⟩ | rfl
      · exact ⟨h1, h2⟩
      · exact ⟨hBds, Ne.symm hAB⟩
    · intro ⟨hyds, hyA⟩
      by_cases hyB : y = B
      · exact Or.inr hyB
      · exact Or.inl ⟨hyds, hyA, hyB⟩
  have hnd2 : ds2.Nodup := by
    rw [hds2def]
    apply List.Nodup.append (hnd.filter _) (List.nodup_singleton B)
    intro x hx hxB
    rw [List.mem_singleton] at hxB
    subst hxB
    exact ((hkeptmem x).mp hx).2.2 rfl
  set R : Ref → Nat → Prop := fun r d => d ∈ ds2 ∧
    ((r = Ref.byId ((h A).uuid) ∨ r = Ref.byType ((h A).ty)) → d = B)
    with hRdef
  set TyInv : List (Option Nat × Nat) → Prop := fun m =>
    (∀ v, aget m ((h A).ty) = some v → v = B) ∧
    (∀ t v, aget m t = some v → v ∈ ds2) ∧
    (∀ t v, aget st5.byType t = some v → ∃ w, aget m t = some w)
    with hTyDef
  have hTy0 : TyInv st5.byType := by
    refine ⟨?_, ?_, ?_⟩
    · intro v hv
      rw [hty5A] at hv
      injection hv with hv2
      exact hv2.symm
    · intro t v hv
      rw [h5ty] at hv
      rcases aget_asetd_values _ _ _ _ _ hv with rfl | hv2
      · exact (hds2mem v).mpr ⟨hBds, Ne.symm hAB⟩
      · by_cases ht : t = (h A).ty
        · subst ht
          rw [aget_aset_self] at hv2
          injection hv2 with hv3
          subst hv3
          exact (hds2mem B).mpr ⟨hBds, Ne.symm hAB⟩
        · rw [aget_aset_other _ _ _ _ ht] at hv2
          rcases seed_byType_values2 ds (initS h c) t v hv2 with
            hold | ⟨hmem, hty⟩
          · simp [initS, aget] at hold
          · rw [hh0] at hty
            refine (hds2mem v).mpr ⟨hmem, ?_⟩
            intro hvA
            subst hvA
            exact ht hty.symm
    · intro t v hv
      exact ⟨v, hv⟩
  have hTystep : ∀ m a, TyInv m → a ∈ ds2 →
      TyInv (aset m ((st5.heap a).ty) a) := by
    intro m a hm ha
    rw [h5h]
    have haA : a ≠ A := ((hds2mem a).mp ha).2
    have htya : (h a).ty ≠ (h A).ty :=
      htyu a ((hmemW a).mp ((hds2mem a).mp ha).1) haA
    refine ⟨?_, ?_, ?_⟩
    · intro v hv
      rw [aget_aset_other _ _ _ _ (Ne.symm htya)] at hv
      exact hm.1 v hv
    · intro t v hv
      by_cases ht : t = (h a).ty
      · subst ht
        rw [aget_aset_self] at hv
        injection hv with hv2
        subst hv2
        exact ha
      · rw [aget_aset_other _ _ _ _ ht] at hv
        exact hm.2.1 t v hv
    · intro t v hv
      by_cases ht : t = (h a).ty
      · subst ht
        exact ⟨a, aget_aset_self _ _ _⟩
      · rw [aget_aset_other _ _ _ _ ht]
        exact hm.2.2 t v hv
  have hRes : ∀ st : SState, st.byId = st5.byId →
      (∀ b, (st.heap b).uuid = (st5.heap b).uuid) → TyInv st.byType →
      ∀ a ∈ ds2, ∀ r ∈ (st5.heap a).dependencies,
        ∃ d, resolveRef st r = some d ∧ R r d := by
    intro st hid hu hTy a ha r hr
    rw [h5h] at hr
    obtain ⟨hads, haA⟩ := (hds2mem a).mp ha
    have hresa := hres a ((hmemW a).mp hads) haA r hr
    match r with
    | Ref.byId u =>
      rcases hresa.1 u rfl with rfl | ⟨b, hbW, hbA, hbu⟩
      · refine ⟨B, ?_, (hds2mem B).mpr ⟨hBds, Ne.symm hAB⟩, fun _ => rfl⟩
        show aget st.byId ((h A).uuid) = some B
        rw [hid, h5id, aget_aset_self]
      · have hbds : b ∈ ds := (hmemW b).mpr hbW
        have hune : (h b).uuid ≠ (h A).uuid := by
          intro he
          exact hbA (hinj b A hbds hAds he)
        refine ⟨b, ?_, (hds2mem b).mpr ⟨hbds, hbA⟩, ?_⟩
        · show aget st.byId u = some b
          rw [hid, h5id, ← hbu, aget_aset_other _ _ _ _ hune]
          exact hbid b hbds
        · intro hcase
          rcases hcase with hcase | hcase
          · exfalso
            injection hcase with hu2
            exact hune (hbu.trans hu2)
          · exact nomatch hcase
    | Ref.byType t =>
      rcases hresa.2.1 t rfl with rfl | ⟨b, hbW, hbA, hbt, hbtc⟩
      · obtain ⟨w, hw⟩ := hTy.2.2 ((h A).ty) B hty5A
        have hwB : w = B := hTy.1 w hw
        subst hwB
        exact ⟨w, hw, (hds2mem w).mpr ⟨hBds, Ne.symm hAB⟩, fun _ => rfl⟩
      · have hbds : b ∈ ds := (hmemW b).mpr hbW
        have htne : t ≠ (h A).ty := by
          intro he
          exact htyu b hbW hbA (hbt.trans he)
        obtain ⟨v, hv⟩ := seed_byType_cover b ds (initS h c) hbds
          (by rw [hh0]; exact hbtc)
        rw [← hst1def, hh0, hbt] at hv
        have hv5 : ∃ w0, aget st5.byType t = some w0 := by
          rw [h5ty]
          have hv2 : aget (aset st1.byType ((h A).ty) B) t = some v := by
            rw [aget_aset_other _ _ _ _ htne]
            exact hv
          exact aget_asetd_sub _ _ _ _ _ hv2
        obtain ⟨w0, hw0⟩ := hv5
        obtain ⟨w, hw⟩ := hTy.2.2 t w0 hw0
        refine ⟨w, hw, hTy.2.1 t w hw, ?_⟩
        intro hcase
        rcases hcase with hcase | hcase
        · exact nomatch hcase
        · exfalso
          injection hcase with ht2
          exact htne ht2
    | Ref.direct bb =>
      have hubb : (st.heap bb).uuid = (h bb).uuid := by
        rw [hu bb, h5h]
      rcases hresa.2.2 bb rfl with heq | ⟨b, hbW, hbA, hbu⟩
      · refine ⟨B, ?_, (hds2mem B).mpr ⟨hBds, Ne.symm hAB⟩, ?_⟩
        · show aget st.byId ((st.heap bb).uuid) = some B
          rw [hubb, heq, hid, h5id, aget_aset_self]
        · intro hcase
          rcases hcase with hcase | hcase
          · exact nomatch hcase
          · exact nomatch hcase
      · have hbds : b ∈ ds := (hmemW b).mpr hbW
        have hune : (h b).uuid ≠ (h A).uuid := by
          intro he
          exact hbA (hinj b A hbds hAds he)
        refine ⟨b, ?_, (hds2mem b).mpr ⟨hbds, hbA⟩, ?_⟩
        · show aget st.byId ((st.heap bb).uuid) = some b
          rw [hubb, ← hbu, hid, h5id, aget_aset_other _ _ _ _ hune]
          exact hbid b hbds
        · intro hcase
          rcases hcase with hcase | hcase
          · exact nomatch hcase
          · exact nomatch hcase
  have hW : ∀ a ∈ ds2, (st5.heap a).state = .pending ∧
      (st5.heap a).kind = .plain := by
    intro a ha
    rw [h5h]
    have := hfresh a ((hmemW a).mp ((hds2mem a).mp ha).1)
    exact ⟨this.1, this.2.1⟩
  obtain ⟨l1, l2, l3, l4, l5, l6, l7, l8⟩ :=
    linkLoop_master c R TyInv ds2 st5 hW hnd2 hTy0 hTystep hRes
  set st6 := (linkLoop c st5 ds2).1 with hst6def
  have hlltup : linkLoop c st5 ds2 = (st6, ds2, none) := by
    rw [hst6def]
    match hq : linkLoop c st5 ds2 with
    | (a, b, e) =>
      rw [hq] at l1 l2
      simp only at l1 l2
      rw [l1, l2]
  have hlha : ∀ a ∈ ds2, ∃ L, st6.heap a =
      { h a with state := NState.linked, rdeps := L } ∧
      List.Forall₂ R ((h a).dependencies) L := by
    intro a ha
    obtain ⟨L, hL, hF⟩ := l8 a ha
    refine ⟨L, ?_, ?_⟩
    · rw [hst6def, hL, h5h]
      have hrd : (h a).rdeps = [] :=
        (hfresh a ((hmemW a).mp ((hds2mem a).mp ha).1)).2.2.2
      rw [hrd]
      rfl
    · rw [h5h] at hF
      exact hF
  have houts : ∀ b, b ∉ ds2 → st6.heap b = h b := by
    intro b hb
    rw [hst6def, l7 b hb, h5h]
  have huuid6 : ∀ y, (st6.heap y).uuid = (h y).uuid := by
    intro y
    by_cases hy : y ∈ ds2
    · obtain ⟨L, hL, _⟩ := hlha y hy
      rw [hL]
    · rw [houts y hy]
  have hlh2 : linkedHeap h c = st6.heap := by
    unfold linkedHeap
    rw [← hW0def, ← hdsdef, hip, hst6def]
  have hclW : ∀ a ∈ ds2, ∀ d ∈ (st6.heap a).rdeps,
      d ∈ ds2 ∧ rank d < rank a := by
    intro a ha d hd
    obtain ⟨L, hL, hF⟩ := hlha a ha
    constructor
    · rw [hL] at hd
      obtain ⟨q, hqmem, hqd⟩ := forall2_mem_right hF d hd
      exact hqd.1
    · apply hrank a ((hmemW a).mp ((hds2mem a).mp ha).1)
        ((hds2mem a).mp ha).2
      rw [hlh2]
      exact hd
  have hinj2 : ∀ a b, a ∈ ds2 → b ∈ ds2 →
      (st6.heap a).uuid = (st6.heap b).uuid → a = b := by
    intro a b ha hb he
    rw [huuid6 a, huuid6 b] at he
    exact hinj a b ((hds2mem a).mp ha).1 ((hds2mem b).mp hb).1 he
  have hflat : flattenAll st6.heap ds2 ds2 [] = none :=
    flattenAll_rank_ok st6.heap ds2 rank hclW hinj2 ds2 [] (fun a ha => ha)
  have hstart2 : ∀ a ∈ ds2, (st6.heap a).state = .linked ∧
      (st6.heap a).eventSet = false := by
    intro a ha
    obtain ⟨L, hL, _⟩ := hlha a ha
    rw [hL]
    exact ⟨rfl, (hfresh a ((hmemW a).mp ((hds2mem a).mp ha).1)).2.2.1⟩
  obtain ⟨r1, r2, r3⟩ := runWave_ok st6.heap ds2 rank hstart2 hclW
  set h7 := (runWave st6.heap ds2).1 with hh7def
  have huuid7 : ∀ y, (h7 y).uuid = (h y).uuid := by
    intro y
    by_cases hy : y ∈ ds2
    · rw [r2 y hy]
      unfold runDone
      exact huuid6 y
    · rw [r3 y hy]
      exact huuid6 y
  have hrwtup : runWave st6.heap ds2 = (h7, none) := by
    match hq : runWave st6.heap ds2 with
    | (a, e) =>
      rw [hq] at r1
      simp only at r1
      subst r1
      have ha : h7 = a := by rw [hh7def, hq]
      rw [ha]
  set st7 : SState := { st6 with
    heap := h7
    solvedU := st6.solvedU ++ ds2.map fun a => (h7 a).uuid } with hst7def
  have hWne : W0.isEmpty = false := by
    match hWW : W0 with
    | [] => exact absurd hA (List.not_mem_nil A)
    | y :: ys => rfl
  have hiter1 : solve h c = solveLoop c (W0.length + 1) st7 := by
    show solveLoop c ((W0.length + 1) + 1) (initS h c) = _
    rw [solveLoop_step_ok c (W0.length + 1) (initS h c) ds2 st6 h7 hWne
      (hip.trans hlltup) hflat hrwtup]
  have hsolved7 : st7.solvedU =
      (h A).uuid :: ds2.map fun a => (h7 a).uuid := by
    rw [hst7def]
    show st6.solvedU ++ _ = _
    rw [hst6def, l4, h5s]
    rfl
  have hall2 : Container.all st7.heap st7.solvedU c = [] := by
    apply Container.all_nil
    intro a ha
    obtain ⟨b, hbW, hbu⟩ := Container.all_cover h [] c a ha (by simp)
    rw [hsolved7]
    have hheq : (st7.heap a).uuid = (h a).uuid := huuid7 a
    rw [hheq, ← hbu]
    by_cases hbA : b = A
    · subst hbA
      exact List.mem_cons_self _ _
    · refine List.mem_cons_of_mem _ ?_
      rw [← huuid7 b]
      exact List.mem_map.mpr
        ⟨b, (hds2mem b).mpr ⟨(hmemW b).mpr hbW, hbA⟩, rfl⟩
  have hiter2 : solveLoop c (W0.length + 1) st7 = (st7, none) := by
    apply solveLoop_empty
    rw [hall2]
    rfl
  have hfinal : solve h c = (st7, none) := hiter1.trans hiter2
  rw [hfinal]
  have hAnot : A ∉ ds2 := fun hx => ((hds2mem A).mp hx).2 rfl
  have hBin2 : B ∈ ds2 := (hds2mem B).mpr ⟨hBds, Ne.symm hAB⟩
  obtain ⟨LB, hLB, _⟩ := hlha B hBin2
  refine ⟨rfl, ?_, ?_, ?_, ?_, ?_⟩
  · show h7 A = h A
    rw [r3 A hAnot, houts A hAnot]
  · show (h7 B).state = _
    rw [r2 B hBin2]
    rfl
  · show (h7 B).runCount = _
    rw [r2 B hBin2]
    show (st6.heap B).runCount + 1 = _
    rw [hLB]
  · show (h7 B).result = _
    rw [r2 B hBin2]
    show some ((st6.heap B).cbVal) = _
    rw [hLB]
  · intro n hn hnA
    have hn2 : n ∈ ds2 := (hds2mem n).mpr ⟨(hmemW n).mpr hn, hnA⟩
    obtain ⟨L, hL, hF⟩ := hlha n hn2
    refine ⟨L, ?_, ?_, ?_⟩
    · apply hF.imp
      intro r d hrd
      obtain ⟨hdds2, himpl⟩ := hrd
      obtain ⟨hdds, hdA⟩ := (hds2mem d).mp hdds2
      exact ⟨(hmemW d).mp hdds, hdA, himpl⟩
    · show (h7 n).state = _
      rw [r2 n hn2]
      rfl
    · show (h7 n).inputs = _
      rw [r2 n hn2]
      show some ((st6.heap n).rdeps.map fun d =>
        some ((st6.heap d).cbVal)) = _
      rw [hL]
      show some (L.map fun d => some ((st6.heap d).cbVal)) = _
      have hmapeq : (L.map fun d => some ((st6.heap d).cbVal)) =
          (L.map fun d => some ((h d).cbVal)) := by
        apply List.map_congr_left
        intro d hd
        obtain ⟨q, hqmem, hqd⟩ := forall2_mem_right hF d hd
        obtain ⟨Ld, hLd, _⟩ := hlha d hqd.1
        rw [hLd]
      rw [hmapeq]


/-- C5 witness fixture: node 0 (`A`) produces type 50, node 1 (`B`)
replaces it by id, node 2 consumes node 0 by id. -/
def hC5 : Heap := fun x =>
  if x = 0 then { uuid := 5, ty := some 50, cbVal := 11 }
  else if x = 1 then { uuid := 6, ty := some 60, cbVal := 22 }
  else if x = 2 then
    { uuid := 7, ty := some 70, dependencies := [Ref.byId 5], cbVal := 33 }
  else { uuid := 99 }

def cC5 : Container := .mk [0, 1, 2] [] [(Ref.byId 5, 1)] []

theorem C5_replace_directive_witness :
    cC5.replace = [(Ref.byId 5, 1)] ∧
    (solve hC5 cC5).2 = none ∧
    (solve hC5 cC5).1.heap 0 = hC5 0 ∧
    ((solve hC5 cC5).1.heap 1).state = NState.done ∧
    ((solve hC5 cC5).1.heap 1).runCount = (hC5 1).runCount + 1 ∧
    ((solve hC5 cC5).1.heap 1).result = some ((hC5 1).cbVal) ∧
    (∃ L, List.Forall₂ (fun r d => d ∈ cC5.all hC5 [] ∧ d ≠ 0 ∧
        ((r = Ref.byId ((hC5 0).uuid) ∨ r = Ref.byType ((hC5 0).ty)) →
          d = 1)) ((hC5 2).dependencies) L ∧
      ((solve hC5 cC5).1.heap 2).state = NState.done ∧
      ((solve hC5 cC5).1.heap 2).inputs =
        some (L.map fun d => some ((hC5 d).cbVal))) := by
  have hmain := C5_replace_directive hC5 cC5 0 1 (Ref.byId 5) (fun a => a)
    (by decide) rfl (Or.inl rfl) (by decide) (by decide) (by decide)
    (by decide) (by decide) (by decide)
    (by
      intro n hn hnA r hr
      have hall : cC5.all hC5 [] = [0, 1, 2] := by decide
      rw [hall] at hn
      rcases List.mem_cons.mp hn with rfl | hn2
      · exact absurd rfl hnA
      rcases List.mem_cons.mp hn2 with rfl | hn3
      · have hd : (hC5 1).dependencies = [] := rfl
        rw [hd] at hr
        exact absurd hr (List.not_mem_nil r)
      rcases List.mem_cons.mp hn3 with rfl | hn4
      · have hd : (hC5 2).dependencies = [Ref.byId 5] := rfl
        rw [hd] at hr
        rcases List.mem_cons.mp hr with rfl | hr2
        · refine ⟨?_, ?_, ?_⟩
          · intro u hu
            have h5 : 5 = u := by injection hu
            exact Or.inl h5.symm
          · intro t ht
            exact nomatch ht
          · intro bb hbb
            exact nomatch hbb
        · exact absurd hr2 (List.not_mem_nil r)
      · exact absurd hn4 (List.not_mem_nil n))
    (by decide)
  obtain ⟨e0, hA0, hB1, hB2, hB3, hcons⟩ := hmain
  exact ⟨rfl, e0, hA0, hB1, hB2, hB3, hcons 2 (by decide) (by decide)⟩


end Rewire
